import Mathlib

/-!
# ddrv: chunked object engine

A shallow embedding of the Go packages `pkg/ddrv` and `pkg/httprange` and the
properties of them that are checked here.

Conventions of the embedding:
* Go `int` / `int64` values are `Int`, and a sum or difference that can leave
  the 64 bits is brought back into them by `int64`; lengths are `Nat`;
* a Go `[]byte` or byte stream is a `List Byte`, a Go `string` that is
  scanned or printed is a `List Char`;
* a Go function returning `(T, error)` returns `Except Error T`;
* the remote service (Discord API and CDN) is a parameter: the outcome of
  each HTTP exchange is given by a `Service`.
-/

namespace ddrv

/-- A byte of a stream. -/
abbrev Byte := Nat

/-- The value that 64-bit arithmetic (Go's `int64`, and `int` on a 64-bit
platform) gives to a result computed without bounds: it wraps around. -/
def int64 (x : Int) : Int := (x + 2 ^ 63) % 2 ^ 64 - 2 ^ 63

/-- The errors of package ddrv (types.go, ddrv.go, rest.go) and `io.EOF`. -/
inductive Error where
  /-- `ErrClosed`: read or write on a closed reader/writer. -/
  | ErrClosed
  /-- `ErrAlreadyClosed`: second `Close`. -/
  | ErrAlreadyClosed
  /-- Go's `io.EOF`. -/
  | EOF
  /-- ddrv.go: "not enough tokens or channels : tokens %d channels %d". -/
  | NotEnough (tokens channels : Nat)
  /-- ddrv.go: "invalid token type %d". -/
  | InvalidTokenType (tokenType : Int)
  /-- rest.go: "expected status code %d but received %d", or a transport error. -/
  | Status (expected got : Nat)
  /-- utils.go: `log.Fatalf`, the process exits. -/
  | Fatal
  /-- Go's `io.ErrClosedPipe`: write on a closed pipe. -/
  | ErrClosedPipe
  deriving DecidableEq, Repr

/-! ## types.go -/

/-- Node represents a Discord attachment URL and Size (types.go). -/
structure Node where
  NId : Int := 0
  URL : String := ""
  Size : Int := 0
  Start : Int := 0
  End : Int := 0
  MId : Int := 0
  Ex : Int := 0
  Is : Int := 0
  Hm : String := ""
  deriving DecidableEq, Repr

def TokenBot : Int := 0
def TokenUser : Int := 1
def TokenUserNitro : Int := 2
def TokenUserNitroBasic : Int := 3

/-! ## ddrv.go -/

def MaxChunkSize : Int := 25 * 1024 * 1024
def MaxChunkSizeNitro : Int := 500 * 1024 * 1024
def MaxChunkSizeNitroBasic : Int := 50 * 1024 * 1024

/-- The Rest client (rest.go), without its HTTP client, limiter and mutex. -/
structure Rest where
  channels : List String
  nitro : Bool
  tokens : List String
  lastChIdx : Nat
  lastTokenIdx : Nat
  chunkSize : Int
  deriving DecidableEq, Repr

/-- NewRest (rest.go). -/
def NewRest (tokens : List String) (channels : List String) (chunkSize : Int) (nitro : Bool) :
    Rest :=
  { channels := channels, nitro := nitro, tokens := tokens,
    lastTokenIdx := 0, lastChIdx := 0, chunkSize := chunkSize }

structure Driver where
  Rest : Rest
  ChunkSize : Int
  deriving DecidableEq, Repr

structure Config where
  Tokens : List String
  TokenType : Int
  Channels : List String
  ChunkSize : Int
  Nitro : Bool
  deriving DecidableEq, Repr

/-- parseChunkSize (ddrv.go): the three clamping steps run one after the other. -/
def parseChunkSize (chunkSize tokenType : Int) : Except Error Int :=
  if tokenType > TokenUserNitroBasic ∨ tokenType < 0 then
    .error (.InvalidTokenType tokenType)
  else
    let chunkSize :=
      if (tokenType = TokenBot ∨ tokenType = TokenUser) ∧
          (chunkSize > MaxChunkSize ∨ chunkSize ≤ 0) then MaxChunkSize else chunkSize
    let chunkSize :=
      if tokenType = TokenUserNitroBasic ∧
          (chunkSize > MaxChunkSizeNitroBasic ∨ chunkSize ≤ 0) then MaxChunkSizeNitroBasic
      else chunkSize
    let chunkSize :=
      if tokenType = TokenUserNitro ∧
          (chunkSize > MaxChunkSizeNitro ∨ chunkSize ≤ 0) then MaxChunkSizeNitro
      else chunkSize
    .ok chunkSize

/-- New (ddrv.go). -/
def New (cfg : Config) : Except Error Driver :=
  if cfg.Tokens.length = 0 ∨ cfg.Channels.length = 0 then
    .error (.NotEnough cfg.Tokens.length cfg.Channels.length)
  else
    match parseChunkSize cfg.ChunkSize cfg.TokenType with
    | .error err => .error err
    | .ok chunkSize =>
      let nitro := if chunkSize > 100 * 1024 * 1024 then true else cfg.Nitro
      let tokens :=
        cfg.Tokens.map fun token => if cfg.TokenType = TokenBot then "Bot " ++ token else token
      .ok { Rest := NewRest tokens cfg.Channels chunkSize nitro, ChunkSize := chunkSize }

/-- The tier ceiling of a token type in the words of the specification: 25 MiB for
Bot and User, 50 MiB for UserNitroBasic, 500 MiB for UserNitro. -/
def ceiling (t : Int) : Int :=
  if t = TokenUserNitroBasic then 50 * 1024 * 1024
  else if t = TokenUserNitro then 500 * 1024 * 1024
  else 25 * 1024 * 1024

/-! ## reader.go: NewReader -/

/-- The first loop of NewReader: `Start` and `End` of every chunk by prefix sum,
in `int64`; returns the chunks and the final `offset`. -/
def assignOffsets (offset : Int) : List Node → List Node × Int
  | [] => ([], offset)
  | c :: cs =>
    let c1 := { c with Start := offset, End := int64 (offset + c.Size - 1) }
    let r := assignOffsets (int64 (c1.End + 1)) cs
    (c1 :: r.1, r.2)

/-- The second loop of NewReader: `start` accumulates the sizes, in `int`, and
the list is cut at the first chunk where `start > pos`; `none` when the loop
ends without `break`, in which case `r.chunks` is left as it was. -/
def findStart (pos : Int) (start : Int) : List Node → Option (List Node)
  | [] => none
  | c :: cs =>
    if int64 (start + c.Size) > pos then some (c :: cs)
    else findStart pos (int64 (start + c.Size)) cs

/-- Reader (reader.go). `reader` is the body of the attachment being read:
`none` for Go's nil, `some bs` for a body with `bs` still to come. -/
structure Reader where
  chunks : List Node
  curIdx : Nat
  closed : Bool
  reader : Option (List Byte)
  pos : Int
  deriving DecidableEq, Repr

/-- NewReader (reader.go). The first loop writes `Start` and `End` into the
nodes of the slice it is given, which the caller keeps: the result is that
slice as the call leaves it, also when the call fails, together with the
reader or the error returned. -/
def NewReader (chunks : List Node) (pos : Int) : List Node × Except Error Reader :=
  let r := assignOffsets 0 chunks
  if pos > r.2 then (r.1, .error .EOF)
  else
    let kept := match findStart pos 0 r.1 with
      | some cs => cs
      | none => r.1
    (r.1, .ok { chunks := kept, curIdx := 0, closed := false, reader := none, pos := pos })

end ddrv

/-! ## The remote service and the ways a call can fail to return -/

namespace ddrv

/-- The remote service behind the Rest client. HTTP, tokens and rate limits are
not modelled: what `Rest.CreateAttachment` answers to a body and what
`Rest.ReadAttachment(att, start, end)` answers to a range request are given. -/
structure Service where
  /-- The node of the attachment stored for the body, or the error. -/
  CreateAttachment : List Byte → Except Error Node
  /-- The body of the 206 response, or the error (any other status included). -/
  ReadAttachment : Node → Int → Int → Except Error (List Byte)

/-- Ways in which a Go call does not return: a runtime panic, a wait that nothing
ends, and the loop budget of the embedding running out. -/
inductive Fault where
  | panic
  | hang
  | fuel
  deriving DecidableEq, Repr

/-- A chunk handed to `onChunk`: the node `CreateAttachment` returned, together
with the bytes that were uploaded for it. -/
structure Chunk where
  node : Node
  data : List Byte
  deriving DecidableEq, Repr

/-! ## writer.go -/

/-- The write end of the `io.Pipe` whose read end is the body of the running
`CreateAttachment`: the bytes written so far, and whether it has been closed. -/
structure PipeWriter where
  data : List Byte
  closed : Bool
  deriving DecidableEq, Repr

/-- `(*io.PipeWriter).Write`: the bytes go to the reader, unless the pipe is closed. -/
def PipeWriter.Write (pw : PipeWriter) (b : List Byte) : PipeWriter × Nat × Option Error :=
  if pw.closed then (pw, 0, some .ErrClosedPipe)
  else ({ pw with data := pw.data ++ b }, b.length, none)

/-- Writer (writer.go). `chunkSize` is a natural number; `pwriter` is `none` for
Go's nil; `delivered` records the calls of `onChunk`, oldest first. The two
channels and the goroutine of `next` are folded into `flush`, which is where the
writer waits for them. -/
structure Writer where
  chunkSize : Nat
  idx : Nat
  closed : Bool
  pwriter : Option PipeWriter
  delivered : List Chunk
  deriving DecidableEq, Repr

/-- NewWriter (writer.go). -/
def NewWriter (chunkSize : Nat) : Writer :=
  { chunkSize := chunkSize, idx := 0, closed := false, pwriter := none, delivered := [] }

/-- Writer.next: a fresh pipe, with a goroutine uploading what is written to it. -/
def Writer.next (w : Writer) : Writer :=
  if !w.closed then { w with pwriter := some { data := [], closed := false } } else w

/-- Writer.flush: close the pipe, wait for the goroutine, hand the chunk to
`onChunk`, start the next chunk if asked. The goroutine resets `idx` before it
sends the chunk; after an error `idx` stays and no new chunk is started. A nil
pipe panics; a pipe closed before has no goroutine left to answer. -/
def Writer.flush (svc : Service) (w : Writer) (next : Bool) :
    Except Fault (Writer × Option Error) :=
  match w.pwriter with
  | none => .error .panic
  | some pw =>
    if pw.closed then .error .hang
    else
      let w := { w with pwriter := some { pw with closed := true } }
      match svc.CreateAttachment pw.data with
      | .error err => .ok (w, some err)
      | .ok chunk =>
        let w := { w with idx := 0, delivered := w.delivered ++ [{ node := chunk, data := pw.data }] }
        .ok (if next then w.next else w, none)

/-- The loop `for len(p) > 0` of Writer.Write. -/
def Writer.writeLoop (svc : Service) : Nat → Writer → List Byte →
    Except Fault (Writer × Option Error)
  | _, w, [] => .ok (w, none)
  | 0, _, _ :: _ => .error .fuel
  | fuel + 1, w, b :: bs =>
    let p := b :: bs
    match w.pwriter with
    | none => .error .panic
    | some pw =>
      if w.idx + p.length > w.chunkSize then
        if w.chunkSize < w.idx then .error .panic
        else
          match pw.Write (p.take (w.chunkSize - w.idx)) with
          | (pw1, _, some err) => .ok ({ w with pwriter := some pw1 }, some err)
          | (pw1, n, none) =>
            match Writer.flush svc { w with pwriter := some pw1 } true with
            | .error f => .error f
            | .ok (w1, some err) => .ok (w1, some err)
            | .ok (w1, none) => Writer.writeLoop svc fuel w1 (p.drop n)
      else
        match pw.Write p with
        | (pw1, _, some err) => .ok ({ w with pwriter := some pw1 }, some err)
        | (pw1, n, none) =>
          Writer.writeLoop svc fuel { w with pwriter := some pw1, idx := w.idx + n } (p.drop n)

/-- Writer.Write: the new state, the count returned and the error returned. -/
def Writer.Write (svc : Service) (fuel : Nat) (w : Writer) (p : List Byte) :
    Except Fault (Writer × Nat × Option Error) :=
  if w.closed then .ok (w, 0, some .ErrClosed)
  else
    let w := if w.pwriter.isNone then w.next else w
    match Writer.writeLoop svc fuel w p with
    | .error f => .error f
    | .ok (w1, err) => .ok (w1, p.length, err)

/-- Writer.Close. -/
def Writer.Close (svc : Service) (w : Writer) : Except Fault (Writer × Option Error) :=
  if w.closed then .ok (w, some .ErrAlreadyClosed)
  else Writer.flush svc { w with closed := true } false

/-- A caller that writes the slices in turn and stops at the first error. -/
def Writer.writeAll (svc : Service) (fuel : Nat) : Writer → List (List Byte) →
    Except Fault (Writer × Option Error)
  | w, [] => .ok (w, none)
  | w, p :: ps =>
    match Writer.Write svc fuel w p with
    | .error f => .error f
    | .ok (w1, _, some err) => .ok (w1, some err)
    | .ok (w1, _, none) => Writer.writeAll svc fuel w1 ps

/-- A whole session of the sequential writer: NewWriter, a sequence of Write
calls, then Close. -/
def Writer.session (svc : Service) (fuel : Nat) (chunkSize : Nat) (writes : List (List Byte)) :
    Except Fault (Writer × Option Error) :=
  match Writer.writeAll svc fuel (NewWriter chunkSize) writes with
  | .error f => .error f
  | .ok (w, some err) => .ok (w, some err)
  | .ok (w, none) => Writer.Close svc w

/-- A service that stores every body and answers with a node of that size. -/
def storeAll : Service :=
  { CreateAttachment := fun b => .ok { Size := b.length },
    ReadAttachment := fun _ _ _ => .error (.Status 206 404) }

end ddrv

/-! ## breader.go -/

namespace breader

/-- An `io.Reader` with state `σ`: `Read` on a buffer of `k` bytes gives the new
state, the bytes read (at most `k`) and the error. -/
structure Source (σ : Type) where
  Read : σ → Nat → σ × List ddrv.Byte × Option ddrv.Error

/-- The loop of BReader.Read on a buffer of `k` bytes, `cur` being the part of
the buffer filled so far (`currReadIdx = cur.length`). -/
def readLoop {σ : Type} (src : Source σ) : Nat → σ → Nat → List ddrv.Byte →
    Except ddrv.Fault (σ × List ddrv.Byte × Option ddrv.Error)
  | 0, s, k, cur => if cur.length < k then .error .fuel else .ok (s, cur, none)
  | fuel + 1, s, k, cur =>
    if cur.length < k then
      match src.Read s (k - cur.length) with
      | (s1, b, some err) => .ok (s1, cur ++ b, some err)
      | (s1, b, none) => readLoop src fuel s1 k (cur ++ b)
    else .ok (s, cur, none)

/-- BReader.Read (breader.go), under the mutex of the BReader. -/
def Read {σ : Type} (src : Source σ) (fuel : Nat) (s : σ) (k : Nat) :
    Except ddrv.Fault (σ × List ddrv.Byte × Option ddrv.Error) :=
  readLoop src fuel s k []

/-- The source hands out the bytes `content s` in order: every Read returns the
next bytes, no more than the buffer holds, with or without an error. `rank s`
bounds the Reads on a non-empty buffer that may still return no byte and no
error (as the read end of a pipe does for a Write call of no bytes): such a
Read lowers it, no Read raises it. -/
structure Serves {σ : Type} (src : Source σ) (content : σ → List ddrv.Byte) (rank : σ → Nat) :
    Prop where
  bytes : ∀ s k, (src.Read s k).2.1 ++ content (src.Read s k).1 = content s
  bound : ∀ s k, (src.Read s k).2.1.length ≤ k
  rank_le : ∀ s k, rank (src.Read s k).1 ≤ rank s
  idle : ∀ s k, 0 < k → (src.Read s k).2.1 = [] → (src.Read s k).2.2 = none →
    rank (src.Read s k).1 < rank s

/-- The read end of an `io.Pipe` whose writer makes the Write calls listed, in
order, and then closes the pipe: a Read takes from the first Write call not yet
served what fits in the buffer, and finds EOF when none is left. A reader that
would wait for the writer is given what the writer writes next. -/
def pipe : Source (List (List ddrv.Byte)) where
  Read := fun pending k =>
    match pending with
    | [] => ([], [], some .EOF)
    | w :: ws => (if w.drop k = [] then ws else w.drop k :: ws, w.take k, none)

end breader

/-! ## nwriter.go -/

namespace ddrv

/-- Where an upload worker of startWorkers stands. The steps between two of
these points are atomic: `reader.Read` runs under the mutex of the BReader,
`atomic.AddInt64` is atomic, the append to `w.chunks` runs under `w.mu`. -/
inductive Worker where
  /-- At the top of the loop: `w.err` is tested and `reader.Read(buff)` called. -/
  | top
  /-- `reader.Read` has returned `n = buff.length > 0` and `err`. -/
  | read (buff : List Byte) (err : Option Error)
  /-- `cIdx := atomic.AddInt64(&w.chunkCounter, 1)` is done. -/
  | numbered (cIdx : Int) (buff : List Byte) (err : Option Error)
  /-- The goroutine has returned (`w.wg.Done()`). -/
  | done
  deriving DecidableEq, Repr

/-- NWriter (nwriter.go). `pipe` holds the Write calls the workers have not read
yet; `workers` has one entry per channel; `delivered` records the calls of
`onChunk`, oldest first. -/
structure NWriter where
  chunkSize : Nat
  closed : Bool
  err : Option Error
  chunks : List Chunk
  chunkCounter : Int
  pipe : List (List Byte)
  workers : List Worker
  delivered : List Chunk
  deriving DecidableEq, Repr

/-- NewNWriter (nwriter.go) with `concurrency = len(rest.channels)` workers. -/
def NewNWriter (chunkSize : Nat) (concurrency : Nat) : NWriter :=
  { chunkSize := chunkSize, closed := false, err := none, chunks := [], chunkCounter := 0,
    pipe := [], workers := List.replicate concurrency .top, delivered := [] }

/-- NWriter.Write. The bytes are handed to the pipe, from which the workers take
them. The call of `pwriter.Write` returns only when the workers have read all
the bytes: that wait is accounted for in `NWriter.session`. -/
def NWriter.Write (w : NWriter) (p : List Byte) : NWriter × Nat × Option Error :=
  if w.closed then (w, 0, some .ErrClosed)
  else
    match w.err with
    | some err => (w, 0, some err)
    | none => ({ w with pipe := w.pipe ++ [p] }, p.length, none)

/-- What a worker does after the `if n > 0` block: `if err != nil` it records
an error other than EOF and returns, else it loops. -/
def NWriter.afterChunk (w : NWriter) (i : Nat) (err : Option Error) : NWriter :=
  match err with
  | some e =>
    { w with err := if e ≠ .EOF then some e else w.err, workers := w.workers.set i .done }
  | none => { w with workers := w.workers.set i .top }

/-- One atomic step of worker `i` of startWorkers. -/
def NWriter.step (svc : Service) (fuel : Nat) (w : NWriter) (i : Nat) : Except Fault NWriter :=
  match w.workers[i]? with
  | none => .ok w
  | some .done => .ok w
  | some .top =>
    if w.err ≠ none then .ok { w with workers := w.workers.set i .done }
    else
      match breader.Read breader.pipe fuel w.pipe w.chunkSize with
      | .error f => .error f
      | .ok (pipe1, buff, err) =>
        if buff.length > 0 then
          .ok { w with pipe := pipe1, workers := w.workers.set i (.read buff err) }
        else .ok (NWriter.afterChunk { w with pipe := pipe1 } i err)
  | some (.read buff err) =>
    let cIdx := w.chunkCounter + 1
    .ok { w with chunkCounter := cIdx, workers := w.workers.set i (.numbered cIdx buff err) }
  | some (.numbered cIdx buff err) =>
    match svc.CreateAttachment buff with
    | .error werr => .ok { w with err := some werr, workers := w.workers.set i .done }
    | .ok attachment =>
      let w := { w with chunks := w.chunks ++ [{ node := { attachment with Start := cIdx },
                                                 data := buff }] }
      .ok (NWriter.afterChunk w i err)

/-- The workers run in the order a schedule names them, one atomic step each. -/
def NWriter.run (svc : Service) (fuel : Nat) : NWriter → List Nat → Except Fault NWriter
  | w, [] => .ok w
  | w, i :: is_ =>
    match NWriter.step svc fuel w i with
    | .error f => .error f
    | .ok w1 => NWriter.run svc fuel w1 is_

/-- NWriter.Close: the pipe is closed, `w.wg.Wait()` returns once every worker
is done, the chunks are sorted by `Start` (stable) and handed to `onChunk`. -/
def NWriter.Close (w : NWriter) : Except Fault (NWriter × Option Error) :=
  if w.closed then .ok (w, some .ErrAlreadyClosed)
  else if w.workers.all (· == .done) then
    let sorted := w.chunks.insertionSort (fun a b => a.node.Start ≤ b.node.Start)
    .ok ({ w with closed := true, delivered := w.delivered ++ sorted }, w.err)
  else .error .hang

/-- A whole session of the parallel writer: NewNWriter, a sequence of Write
calls, Close; the workers take their steps in the order of the schedule. When
the workers have taken their steps and bytes are left in the pipe, a Write call
has not returned (it waits for a reader, for ever once the workers have stopped
after a failed upload) and Close is not reached. -/
def NWriter.session (svc : Service) (fuel : Nat) (chunkSize concurrency : Nat)
    (writes : List (List Byte)) (schedule : List Nat) : Except Fault (NWriter × Option Error) :=
  let w := writes.foldl (fun w p => (NWriter.Write w p).1) (NewNWriter chunkSize concurrency)
  match NWriter.run svc fuel w schedule with
  | .error f => .error f
  | .ok w1 => if w1.pipe = [] then NWriter.Close w1 else .error .hang

/-- The blocks of `C` bytes a stream falls into, the last one holding the rest. -/
def blocks (C : Nat) (s : List Byte) : List (List Byte) :=
  if 0 < C ∧ s ≠ [] then s.take C :: blocks C (s.drop C) else []
termination_by s.length
decreasing_by
  rename_i h
  have := List.length_pos.mpr h.2
  simp only [List.length_drop]
  omega

/-- The buffer a worker holds between its Read and its append to `w.chunks`. -/
def Worker.held : Worker → Multiset (List Byte)
  | .read buff _ => {buff}
  | .numbered _ buff _ => {buff}
  | _ => 0

/-- The sequence number a worker holds between `atomic.AddInt64` and its append
to `w.chunks`. -/
def Worker.number : Worker → Multiset Int
  | .numbered cIdx _ _ => {cIdx}
  | _ => 0

/-- The worker has seen the end of the pipe. -/
def Worker.sawEOF : Worker → Prop
  | .top => False
  | .read _ err => err ≠ none
  | .numbered _ _ err => err ≠ none
  | .done => True

/-- The error a worker carries from its Read is nil or EOF. -/
def Worker.errOk : Worker → Prop
  | .read _ err => err = none ∨ err = some .EOF
  | .numbered _ _ err => err = none ∨ err = some .EOF
  | _ => True

/-- How far a worker is from the top of its loop, in steps still to take. -/
def Worker.phase : Worker → Nat
  | .read _ _ => 2
  | .numbered _ _ _ => 1
  | _ => 0

/-- The schedule that lets each of `K` workers in turn take `n` steps. -/
def oneByOne (K n : Nat) : List Nat :=
  (List.range K).flatMap fun i => List.replicate n i

/-- What holds of the parallel writer between two steps of its workers, `s`
being the whole stream of the session: no error is recorded, the chunks uploaded,
the buffers held by the workers and the blocks still in the pipe make up the
blocks of the stream, and a worker that has seen EOF has left the pipe empty. -/
structure NWriter.Inv (fuel C : Nat) (s : List Byte) (w : NWriter) : Prop where
  chunkSize_eq : w.chunkSize = C
  open_ : w.closed = false
  err_none : w.err = none
  delivered_nil : w.delivered = []
  fuel_ok : w.pipe.length + 1 ≤ fuel
  parts : (↑(w.chunks.map Chunk.data) + (w.workers.map Worker.held).sum +
      ↑(blocks C w.pipe.flatten) : Multiset (List Byte)) = ↑(blocks C s)
  eof_pipe : ∀ wk ∈ w.workers, wk.sawEOF → w.pipe = []
  errs : ∀ wk ∈ w.workers, wk.errOk

/-! ## reader.go: Read, Close, next -/

/-- `Read` of the body of a range response, a net/http body of known length:
what is left of the body, the bytes read, and EOF, which comes together with the
last bytes of the body, and alone once the body is used up. -/
def bodyRead (body : List Byte) (k : Nat) : List Byte × List Byte × Option Error :=
  if body = [] then ([], [], some .EOF)
  else if 0 < k ∧ body.length ≤ k then ([], body, some .EOF)
  else (body.drop k, body.take k, none)

/-- Reader.next. -/
def Reader.next (svc : Service) (r : Reader) : Except Fault (Reader × Option Error) :=
  match r.chunks[r.curIdx]? with
  | none => .error .panic
  | some chunk =>
    let start : Int := if r.pos > chunk.Start then r.pos - chunk.Start else 0
    match svc.ReadAttachment chunk start (chunk.Size - 1) with
    | .error err => .ok (r, some err)
    | .ok body => .ok ({ r with reader := some body }, none)

/-- The loop of Reader.Read on a buffer of `k` bytes, `got` being the bytes read
so far (`totalRead = got.length`). -/
def Reader.readLoop (svc : Service) : Nat → Reader → Nat → List Byte →
    Except Fault (Reader × List Byte × Option Error)
  | 0, _, _, _ => .error .fuel
  | fuel + 1, r, k, got =>
    match r.reader with
    | none => .error .panic
    | some body =>
      match bodyRead body (k - got.length) with
      | (body1, b, some .EOF) =>
        let r := { r with reader := some body1, curIdx := r.curIdx + 1 }
        if r.curIdx ≥ r.chunks.length then .ok (r, got ++ b, some .EOF)
        else
          match Reader.next svc r with
          | .error f => .error f
          | .ok (r1, some err) => .ok (r1, got ++ b, some err)
          | .ok (r1, none) =>
            if (got ++ b).length ≥ k then .ok (r1, got ++ b, none)
            else Reader.readLoop svc fuel r1 k (got ++ b)
      | (body1, b, some err) => .ok ({ r with reader := some body1 }, got ++ b, some err)
      | (body1, b, none) =>
        if (got ++ b).length ≥ k then .ok ({ r with reader := some body1 }, got ++ b, none)
        else Reader.readLoop svc fuel { r with reader := some body1 } k (got ++ b)

/-- Reader.Read on a buffer of `k` bytes: the new state, the bytes read and the
error. -/
def Reader.Read (svc : Service) (fuel : Nat) (r : Reader) (k : Nat) :
    Except Fault (Reader × List Byte × Option Error) :=
  if r.closed then .ok (r, [], some .ErrClosed)
  else if r.chunks.length = 0 then .ok (r, [], some .EOF)
  else
    match r.reader with
    | some _ => Reader.readLoop svc fuel r k []
    | none =>
      match Reader.next svc r with
      | .error f => .error f
      | .ok (r1, some err) => .ok (r1, [], some err)
      | .ok (r1, none) => Reader.readLoop svc fuel r1 k []

/-- Reader.Close. -/
def Reader.Close (r : Reader) : Reader × Option Error :=
  if r.closed then (r, some .ErrAlreadyClosed) else ({ r with closed := true }, none)

/-- A CDN that keeps one body per URL and answers a range request as HTTP does:
206 with the bytes `start..end` when the range is satisfiable, and another
status, which ReadAttachment turns into an error, when it is not. -/
def rangeService (content : String → List Byte) : Service :=
  { CreateAttachment := fun _ => .error (.Status 200 403),
    ReadAttachment := fun att start end_ =>
      if 0 ≤ start ∧ start ≤ end_ ∧ start < (content att.URL).length then
        .ok (((content att.URL).drop start.toNat).take (end_ - start + 1).toNat)
      else .error (.Status 206 416) }

/-- A CDN holding the ten bytes 0..9 under every URL. -/
def tenBytes : String → List Byte := fun _ => List.range 10

end ddrv

/-! ## Go standard library: strconv -/

namespace strconv

/-- The two kinds of `*NumError` of strconv. -/
inductive NumError where
  | ErrSyntax
  | ErrRange
  deriving DecidableEq, Repr

/-- The value of a digit byte in `ParseUint`: `'0'..'9'`, and letters of either
case counted from 10 (`lower(c) - 'a' + 10`); `none` for every other byte. -/
def digitValue (c : Char) : Option Nat :=
  let n := c.toNat
  if 0x30 ≤ n ∧ n ≤ 0x39 then some (n - 0x30)
  else if 0x61 ≤ n ∧ n ≤ 0x7a then some (n - 0x61 + 10)
  else if 0x41 ≤ n ∧ n ≤ 0x5a then some (n - 0x41 + 10)
  else none

/-- The loop of `ParseUint` for an explicit base (no prefix, no underscores):
a byte that is no digit of the base is a syntax error, a value above `maxVal`
a range error, found in the order of the bytes. -/
def parseLoop (base maxVal : Nat) : Nat → List Char → Except NumError Nat
  | n, [] => .ok n
  | n, c :: cs =>
    match digitValue c with
    | none => .error .ErrSyntax
    | some d =>
      if d ≥ base then .error .ErrSyntax
      else if n * base + d > maxVal then .error .ErrRange
      else parseLoop base maxVal (n * base + d) cs

/-- `strconv.ParseUint(s, base, bitSize)` for `2 ≤ base ≤ 36`, `0 < bitSize ≤ 64`. -/
def ParseUint (s : List Char) (base bitSize : Nat) : Except NumError Nat :=
  if s = [] then .error .ErrSyntax else parseLoop base (2 ^ bitSize - 1) 0 s

/-- `strconv.ParseInt(s, base, bitSize)` for `2 ≤ base ≤ 36`, `0 < bitSize ≤ 64`:
an optional sign, then `ParseUint`, then the range of a signed `bitSize`-bit
integer. -/
def ParseInt (s : List Char) (base bitSize : Nat) : Except NumError Int :=
  match s with
  | [] => .error .ErrSyntax
  | c :: cs =>
    let neg := decide (c = '-')
    let body := if c = '+' ∨ c = '-' then cs else c :: cs
    match ParseUint body base bitSize with
    | .error err => .error err
    | .ok un =>
      let cutoff := 2 ^ (bitSize - 1)
      if !neg ∧ un ≥ cutoff then .error .ErrRange
      else if neg ∧ un > cutoff then .error .ErrRange
      else .ok (if neg then - (un : Int) else (un : Int))

/-- `strconv.FormatInt(i, base)` for `2 ≤ base ≤ 16`: lowercase digits, no leading
zeros, a minus sign for negative values. -/
def FormatInt (i : Int) (base : Nat) : List Char :=
  if i < 0 then '-' :: Nat.toDigits base i.natAbs else Nat.toDigits base i.toNat

end strconv

/-! ## Go standard library: fmt (the part of Sscanf and Sprintf that httprange uses) -/

namespace fmt

/-- The errors `Sscanf` can report for the formats below. -/
inductive ScanError where
  /-- Go's `io.EOF`: the input ended where an operand was to begin. -/
  | EOF
  | UnexpectedEOF
  | UnexpectedNewline
  | ExpectedInteger
  | NoMatch
  | Num (e : strconv.NumError)
  deriving DecidableEq, Repr

/-- The table `space` of fmt/scan.go. -/
def isSpace (r : Char) : Bool :=
  let n := r.toNat
  (0x0009 ≤ n ∧ n ≤ 0x000d) ∨ n = 0x0020 ∨ n = 0x0085 ∨ n = 0x00a0 ∨ n = 0x1680 ∨
    (0x2000 ≤ n ∧ n ≤ 0x200a) ∨ n = 0x2028 ∨ n = 0x2029 ∨ n = 0x202f ∨ n = 0x205f ∨
    n = 0x3000

/-- `ss.SkipSpace` with `nlIsSpace = false` (Sscanf): spaces are skipped, a
newline is an error. -/
def SkipSpace : List Char → Except ScanError (List Char)
  | [] => .ok []
  | r :: rs =>
    if r = '\r' ∧ rs.head? = some '\n' then SkipSpace rs
    else if r = '\n' then .error .UnexpectedNewline
    else if isSpace r then SkipSpace rs
    else .ok (r :: rs)

/-- The characters that `ss.scanNumber` takes into the token of a `%d`: the
decimal digits and the underscore (`decimalDigits + "_"` of `ss.getBase`). -/
def isNumberChar (c : Char) : Bool := c.isDigit || c == '_'

/-- `ss.scanInt('d', 64)`: skip spaces, an optional sign, at least one
character of a number, then `strconv.ParseInt(tok, 10, 64)`, which refuses a
token with an underscore; returns the value and the input left. Input that ends
before the number begins is `io.EOF` (`ss.notEOF`). -/
def scanInt (input : List Char) : Except ScanError (Int × List Char) :=
  match SkipSpace input with
  | .error e => .error e
  | .ok [] => .error .EOF
  | .ok (c :: cs) =>
    let sign := if c = '+' ∨ c = '-' then [c] else []
    let rest := if c = '+' ∨ c = '-' then cs else c :: cs
    match rest with
    | [] => .error .EOF
    | d :: _ =>
      if ¬ isNumberChar d then .error .ExpectedInteger
      else
        let tok := sign ++ rest.takeWhile isNumberChar
        match strconv.ParseInt tok 10 64 with
        | .error e => .error (.Num e)
        | .ok i => .ok (i, rest.dropWhile isNumberChar)

/-- An item of a format string: a literal character that is neither a space nor
`%`, or the verb `%d` for an `*int64` operand. -/
inductive Item where
  | lit (c : Char)
  | d
  deriving DecidableEq, Repr

/-- `ss.doScanf` on a format made of literals and `%d`: the values scanned, in
order. Input left over after the format is not an error. -/
def doScanf : List Item → List Char → Except ScanError (List Int)
  | [], _ => .ok []
  | .lit c :: items, input =>
    match input with
    | [] => .error .UnexpectedEOF
    | r :: rs => if r = c then doScanf items rs else .error .NoMatch
  | .d :: items, input =>
    match SkipSpace input with
    | .error e => .error e
    | .ok input1 =>
      match scanInt input1 with
      | .error e => .error e
      | .ok (i, input2) =>
        match doScanf items input2 with
        | .error e => .error e
        | .ok is => .ok (i :: is)

/-- The verb `%d` of Sprintf on an integer. -/
def fmtInteger (i : Int) : List Char := strconv.FormatInt i 10

end fmt

/-! ## Go standard library: strings -/

namespace strings

/-- `strings.SplitN(s, sep, 2)` for a one-byte separator: the text before the
first separator and the text after it, or `s` alone when there is none. -/
def SplitN2 (s : List Char) (sep : Char) : List (List Char) :=
  if sep ∈ s then [s.takeWhile (· ≠ sep), (s.dropWhile (· ≠ sep)).drop 1] else [s]

/-- `strings.HasPrefix(s, "-")` and its like, on a one-byte prefix. -/
def HasPrefix (s : List Char) (c : Char) : Bool := s.head? = some c

/-- `strings.HasSuffix(s, "-")` and its like, on a one-byte suffix. -/
def HasSuffix (s : List Char) (c : Char) : Bool := s.getLast? = some c

end strings

/-! ## httprange.go -/

namespace httprange

structure Range where
  Start : Int
  Length : Int
  Header : List Char
  deriving DecidableEq, Repr

/-- The errors of `Parse`: `ErrInvalid`, or the error of `fmt.Sscanf` handed on
as it is by the "n-m" branch. -/
inductive Error where
  | ErrInvalid
  | Scan (e : fmt.ScanError)
  deriving DecidableEq, Repr

/-- Parse (httprange.go). `size` is an `int64`. -/
def Parse (rangeHeader : List Char) (size : Int) : Except Error Range :=
  match strings.SplitN2 rangeHeader '=' with
  | [p0, p1] =>
    if p0 ≠ "bytes".toList then .error .ErrInvalid
    else
      let bounds : Except Error (Int × Int) :=
        if strings.HasPrefix p1 '-' then
          match fmt.doScanf [.lit '-', .d] p1 with
          | .ok [e] => .ok (size - e, size - 1)
          | _ => .error .ErrInvalid
        else if strings.HasSuffix p1 '-' then
          match fmt.doScanf [.d, .lit '-'] p1 with
          | .ok [s] => .ok (s, size - 1)
          | _ => .error .ErrInvalid
        else
          match fmt.doScanf [.d, .lit '-', .d] p1 with
          | .ok [s, e] => .ok (s, e)
          | .ok _ => .error .ErrInvalid
          | .error err => .error (.Scan err)
      match bounds with
      | .error err => .error err
      | .ok (start, end_) =>
        if start > end_ ∨ start > size ∨ end_ > size ∨ start < 0 ∨ end_ < 0 then
          .error .ErrInvalid
        else
          let contentRange := "bytes ".toList ++ fmt.fmtInteger start ++ "-".toList ++
            fmt.fmtInteger end_ ++ "/".toList ++ fmt.fmtInteger size
          let length := end_ - start + 1
          .ok { Start := start, Length := length, Header := contentRange }
  | _ => .error .ErrInvalid

end httprange

/-! ## Go standard library: net/url

A URL string is represented by what `url.Parse` makes of it: scheme, host, path
and the query as its `key=value` pairs in the order they are written. `Parse` and
`String` themselves are not modelled. -/

namespace url

structure URL where
  Scheme : String
  Host : String
  Path : String
  Query : List (String × String)
  deriving DecidableEq, Repr

/-- `URL.String()` for such a URL, without escaping: `scheme://host/path`, then `?`
and the `key=value` pairs joined by `&` when there is a query. -/
def URL.String (u : URL) : String :=
  u.Scheme ++ "://" ++ u.Host ++ u.Path ++
    (if u.Query = [] then "" else "?" ++ "&".intercalate (u.Query.map fun kv => kv.1 ++ "=" ++ kv.2))

/-- `Values.Get(key)`: the first value of the key, `""` when there is none. -/
def Get (v : List (String × String)) (key : String) : String :=
  match v.find? (fun kv => kv.1 == key) with
  | some kv => kv.2
  | none => ""

end url

/-! ## utils.go -/

namespace ddrv

/-- DecodeAttachmentURL (utils.go). The cleaned URL `Scheme + "://" + Host + Path`
is the input without its query. -/
def DecodeAttachmentURL (inputURL : url.URL) : Except Error (url.URL × Int × Int × String) :=
  let queryParams := inputURL.Query
  match strconv.ParseInt (url.Get queryParams "ex").toList 16 32 with
  | .error _ => .error .Fatal
  | .ok ex =>
    match strconv.ParseInt (url.Get queryParams "is").toList 16 32 with
    | .error _ => .error .Fatal
    | .ok is_ =>
      let hm := url.Get queryParams "hm"
      let cleanedURL : url.URL :=
        { Scheme := inputURL.Scheme, Host := inputURL.Host, Path := inputURL.Path, Query := [] }
      .ok (cleanedURL, ex, is_, hm)

/-- EncodeAttachmentURL (utils.go). `Values.Encode` writes the parameters sorted
by key: `ex`, `hm`, `is`. -/
def EncodeAttachmentURL (baseURL : url.URL) (ex : Int) (is_ : Int) (hm : String) : url.URL :=
  let exHex := String.mk (strconv.FormatInt ex 16)
  let isHex := String.mk (strconv.FormatInt is_ 16)
  { baseURL with Query := [("ex", exHex), ("hm", hm), ("is", isHex)] }

/-- Two URLs are the same up to the order of the query parameters. -/
def SameUpToQueryOrder (u v : url.URL) : Prop :=
  u.Scheme = v.Scheme ∧ u.Host = v.Host ∧ u.Path = v.Path ∧ u.Query.Perm v.Query

/-- The value of a hexadecimal digit written in either case, from the table of
digits; `none` for any other character. -/
def hexDigit? (c : Char) : Option Nat :=
  (List.range 16).find? fun d => c = Nat.digitChar d ∨ c = (Nat.digitChar d).toUpper

/-- The digits of a string of hexadecimal digits; `none` when a character is no
hexadecimal digit. -/
def hexDigits? : List Char → Option (List Nat)
  | [] => some []
  | c :: cs =>
    match hexDigit? c, hexDigits? cs with
    | some d, some ds => some (d :: ds)
    | _, _ => none

/-- The number a string of hexadecimal digits denotes (most significant digit
first); `none` when a character is no hexadecimal digit. -/
def hexValue? (s : List Char) : Option Nat :=
  (hexDigits? s).map fun ds => Nat.ofDigits 16 ds.reverse

/-- The integer a base-16 numeral denotes: an optional sign and at least one
hexadecimal digit; `none` for any other string, the empty one included. -/
def base16Int? (s : List Char) : Option Int :=
  match s with
  | [] => none
  | c :: cs =>
    let body := if c = '+' ∨ c = '-' then cs else c :: cs
    if body = [] then none
    else (hexValue? body).map fun (v : Nat) => if c = '-' then - (v : Int) else (v : Int)

/-- A string is the base-16 numeral of a signed 32-bit integer. -/
def IsBase16Int32 (s : List Char) (v : Int) : Prop :=
  base16Int? s = some v ∧ - 2 ^ 31 ≤ v ∧ v < 2 ^ 31

end ddrv

/-! ## rest.go: token, channel -/

namespace ddrv

/-- Rest.token (rest.go), under the mutex of the Rest client: the token at the
cursor, and the cursor moved on by one modulo the number of tokens. Indexing an
empty list (and the modulo by its length) panics. -/
def Rest.token (r : Rest) : Except Fault (Rest × String) :=
  match r.tokens[r.lastTokenIdx]? with
  | none => .error .panic
  | some token =>
    if r.tokens.length = 0 then .error .panic
    else .ok ({ r with lastTokenIdx := (r.lastTokenIdx + 1) % r.tokens.length }, token)

/-- Rest.channel (rest.go), under the mutex of the Rest client. -/
def Rest.channel (r : Rest) : Except Fault (Rest × String) :=
  match r.channels[r.lastChIdx]? with
  | none => .error .panic
  | some channel =>
    if r.channels.length = 0 then .error .panic
    else .ok ({ r with lastChIdx := (r.lastChIdx + 1) % r.channels.length }, channel)

/-- The tokens that `k` successive calls of Rest.token return, with the client
after the last call. -/
def Rest.tokenCalls : Nat → Rest → Except Fault (Rest × List String)
  | 0, r => .ok (r, [])
  | k + 1, r =>
    match r.token with
    | .error f => .error f
    | .ok (r1, t) =>
      match Rest.tokenCalls k r1 with
      | .error f => .error f
      | .ok (r2, ts) => .ok (r2, t :: ts)

/-- The channels that `k` successive calls of Rest.channel return, with the
client after the last call. -/
def Rest.channelCalls : Nat → Rest → Except Fault (Rest × List String)
  | 0, r => .ok (r, [])
  | k + 1, r =>
    match r.channel with
    | .error f => .error f
    | .ok (r1, c) =>
      match Rest.channelCalls k r1 with
      | .error f => .error f
      | .ok (r2, cs) => .ok (r2, c :: cs)

end ddrv

/-! ## locker.go -/

namespace locker

/-- The lockRef of locker.go: its mutex (held or not) and its count. -/
structure lockRef where
  locked : Bool := false
  count : Int := 0
  deriving DecidableEq, Repr

/-- The Locker of locker.go: the `sync.Map` from ids to lockRefs. -/
structure Locker where
  mutexes : String → Option lockRef

/-- New (locker.go). -/
def New : Locker := { mutexes := fun _ => none }

/-- The map with the entry of `id` set to `v` (`none`: deleted). -/
def Locker.store (l : Locker) (id : String) (v : Option lockRef) : Locker :=
  { mutexes := fun k => if k = id then v else l.mutexes k }

/-- Locker.Acquire (locker.go): `LoadOrStore` of a fresh lockRef, then, with the
mutex of the lockRef locked, `count++`, then the mutex unlocked again. Locking
a mutex that is held waits. -/
def Locker.Acquire (l : Locker) (id : String) : Except ddrv.Fault Locker :=
  let ref : lockRef := (l.mutexes id).getD {}
  if ref.locked then .error .hang
  else
    let lock : lockRef := { ref with locked := true }
    let lock : lockRef := { lock with count := lock.count + 1 }
    .ok (l.store id (some { lock with locked := false }))

/-- Locker.Release (locker.go): nothing for an id with no entry; otherwise, with
the mutex of the lockRef locked, a positive count is decremented and the entry
deleted when the count reaches zero. -/
def Locker.Release (l : Locker) (id : String) : Except ddrv.Fault Locker :=
  match l.mutexes id with
  | none => .ok l
  | some ref =>
    if ref.locked then .error .hang
    else
      let lock : lockRef := { ref with locked := true }
      if lock.count > 0 then
        let lock : lockRef := { lock with count := lock.count - 1 }
        if lock.count = 0 then .ok (l.store id none)
        else .ok (l.store id (some { lock with locked := false }))
      else .ok (l.store id (some { lock with locked := false }))

/-- A call of the Locker. -/
inductive Call where
  | Acquire (id : String)
  | Release (id : String)
  deriving DecidableEq, Repr

/-- One call made on the Locker. -/
def Locker.call (l : Locker) : Call → Except ddrv.Fault Locker
  | .Acquire id => l.Acquire id
  | .Release id => l.Release id

/-- The calls of a list made one after the other, each one made when the one
before has returned. -/
def Locker.run : List Call → Locker → Except ddrv.Fault Locker
  | [], l => .ok l
  | c :: cs, l =>
    match l.call c with
    | .error f => .error f
    | .ok l1 => Locker.run cs l1

/-- The count of the lockRef of an id, zero when the map has no entry for it. -/
def Locker.count (l : Locker) (id : String) : Nat :=
  match l.mutexes id with
  | none => 0
  | some ref => ref.count.toNat

/-- No mutex of the map is held, and no entry has a count of zero or less. -/
def Locker.Idle (l : Locker) : Prop :=
  ∀ id ref, l.mutexes id = some ref → ref.locked = false ∧ 0 < ref.count

end locker

/-! ## lreader.go -/

namespace lreader

set_option linter.dupNamespace false in
/-- The lreader of lreader.go over a source with state `σ`: the state of the
underlying ReadCloser `r`, the bytes that remain to be read, and whether
`Close` has been called on `r`. -/
structure lreader (σ : Type) where
  r : σ
  remain : Int
  closed : Bool := false

/-- New (lreader.go). -/
def New {σ : Type} (r : σ) (limit : Int) : lreader σ := { r := r, remain := limit }

/-- The Read method of lreader (lreader.go) on a buffer of `k` bytes. -/
def Read {σ : Type} (src : breader.Source σ) (l : lreader σ) (k : Nat) :
    lreader σ × List ddrv.Byte × Option ddrv.Error :=
  if l.remain ≤ 0 then (l, [], some .EOF)
  else
    let k := if (k : Int) > l.remain then l.remain.toNat else k
    match src.Read l.r k with
    | (r1, b, err) =>
      let l : lreader σ := { l with r := r1, remain := l.remain - b.length }
      let l : lreader σ :=
        if err = some .EOF then { l with closed := true, remain := 0 } else l
      match err with
      | some e => (l, b, some e)
      | none => (l, b, if l.remain = 0 then some .EOF else none)

/-- Reading to exhaustion with a buffer of `k` bytes: Read is called until it
reports an error; the bytes of all the calls are gathered in order. -/
def readAll {σ : Type} (src : breader.Source σ) :
    Nat → lreader σ → Nat → Except ddrv.Fault (lreader σ × List ddrv.Byte × ddrv.Error)
  | 0, _, _ => .error .fuel
  | fuel + 1, l, k =>
    match Read src l k with
    | (l1, b, some err) => .ok (l1, b, err)
    | (l1, b, none) =>
      match readAll src fuel l1 k with
      | .error f => .error f
      | .ok (l2, bs, err) => .ok (l2, b ++ bs, err)

/-- The bytes still to come from a source are `content s`: every Read returns
the next bytes, no more than the buffer holds, reports no error other than EOF,
reports EOF only when nothing is left, and a Read on a non-empty buffer that
returns no byte reports EOF. -/
structure Yields {σ : Type} (src : breader.Source σ) (content : σ → List ddrv.Byte) : Prop where
  bytes : ∀ s k, (src.Read s k).2.1 ++ content (src.Read s k).1 = content s
  bound : ∀ s k, (src.Read s k).2.1.length ≤ k
  error : ∀ s k, (src.Read s k).2.2 = none ∨ (src.Read s k).2.2 = some .EOF
  eof : ∀ s k, (src.Read s k).2.2 = some .EOF → content (src.Read s k).1 = []
  progress : ∀ s k, 0 < k → (src.Read s k).2.1 = [] → (src.Read s k).2.2 = some .EOF

/-- The Read method of `bytes.Buffer`, the source of lreader_test.go: the state
is the unread part of the buffer. -/
def buffer : breader.Source (List ddrv.Byte) where
  Read := fun s k =>
    if s = [] then (if k = 0 then ([], [], none) else ([], [], some .EOF))
    else (s.drop k, s.take k, none)

/-- The 21 bytes of "This is a test string", the input of lreader_test.go. -/
def testInput : List ddrv.Byte := "This is a test string".toList.map Char.toNat

end lreader

/-! ## limiter.go

A `time.Time` is the number of nanoseconds since the Unix epoch and a
`time.Duration` a number of nanoseconds. The clock is a parameter: `Acquire` and
`Release` are given the reading `now` of their `time.Now()`, and `Acquire` returns
the durations it passes to `time.Sleep`, in order. -/

namespace ddrv

def Millisecond : Int := 1000000
def Second : Int := 1000 * Millisecond

/-- ExtraDelay (limiter.go): 250 ms. -/
def ExtraDelay : Int := 250 * Millisecond

/-- The zero `time.Time`: January 1 of year 1, UTC. -/
def zeroTime : Int := -62135596800 * Second

/-- `t.Sub(u)`: the difference, kept inside the range of a Duration. -/
def Sub (t u : Int) : Int := max (- 2 ^ 63) (min (2 ^ 63 - 1) (t - u))

/-- The bucket of limiter.go: its mutex (held or not), its reset time and the
requests that remain. -/
structure bucket where
  locked : Bool := false
  reset : Int := zeroTime
  remaining : Nat := 0
  deriving DecidableEq, Repr

/-- The Limiter of limiter.go, without its own mutex, which getBucket takes and
gives back. -/
structure Limiter where
  global : Int
  buckets : String → Option bucket

/-- NewLimiter (limiter.go). -/
def NewLimiter : Limiter := { global := zeroTime, buckets := fun _ => none }

/-- The map with the bucket of `path` replaced: a bucket is reached through a
pointer, so what a call changes in it is changed in the map. -/
def Limiter.store (l : Limiter) (path : String) (b : bucket) : Limiter :=
  { l with buckets := fun k => if k = path then some b else l.buckets k }

/-- Limiter.getBucket (limiter.go). -/
def Limiter.getBucket (l : Limiter) (path : String) (store : Bool) : Limiter × Option bucket :=
  match l.buckets path with
  | some b => (l, some b)
  | none =>
    if store then (l.store path { remaining := 1 }, some { remaining := 1 })
    else (l, none)

/-- Limiter.Acquire (limiter.go) with `time.Now()` reading `now`: the limiter
after the call, which holds the mutex of the bucket, and the durations slept.
Locking a mutex that is held waits. -/
def Limiter.Acquire (l : Limiter) (path : String) (now : Int) :
    Except Fault (Limiter × List Int) :=
  let slept : List Int :=
    if l.global > now then [int64 (Sub l.global now + ExtraDelay)] else []
  match l.getBucket path true with
  | (_, none) => .error .panic
  | (l, some b) =>
    if b.locked then .error .hang
    else
      let b : bucket := { b with locked := true }
      let slept : List Int :=
        if b.remaining = 0 ∧ b.reset > now then slept ++ [int64 (Sub b.reset now + ExtraDelay)]
        else slept
      let b : bucket := if b.remaining > 0 then { b with remaining := b.remaining - 1 } else b
      .ok (l.store path b, slept)

/-- The four headers that Release reads, each the empty string when the
response does not carry it. -/
structure Header where
  Global : List Char := []
  Remaining : List Char := []
  Reset : List Char := []
  RetryAfter : List Char := []
  deriving DecidableEq, Repr

/-- The deferred `b.lock.Unlock()` of Release: unlocking a mutex that is not
held is a fatal error. -/
def Limiter.unlock (l : Limiter) (path : String) (b : bucket) : Except Fault Limiter :=
  if b.locked then .ok (l.store path { b with locked := false }) else .error .panic

/-- Limiter.Release (limiter.go) with `time.Now()` reading `now`; `headers` is
`none` for the nil header. `strconv.ParseFloat` and the float64 arithmetic that
follows it are not embedded: `parseReset reset` is the instant
`time.Unix(sec, nsec)` that lines 98 to 103 compute from the header, `none`
when ParseFloat reports an error. -/
def Limiter.Release (parseReset : List Char → Option Int) (l : Limiter) (path : String)
    (headers : Option Header) (now : Int) : Except Fault Limiter :=
  match l.getBucket path false with
  | (_, none) => .ok l
  | (l, some b) =>
    match headers with
    | none => l.unlock path b
    | some headers =>
      let global := headers.Global
      let remaining := headers.Remaining
      let reset := headers.Reset
      let retryAfter := headers.RetryAfter
      let switch : Option (Limiter × bucket) :=
        if retryAfter ≠ [] then
          match strconv.ParseInt retryAfter 10 64 with
          | .error _ => none
          | .ok i =>
            let at_ := now + int64 (i * Second)
            if global ≠ [] then some ({ l with global := at_ }, b)
            else some (l, { b with reset := at_ })
        else if reset ≠ [] then
          match parseReset reset with
          | none => none
          | some t => some (l, { b with reset := t + ExtraDelay })
        else some (l, b)
      match switch with
      | none => l.unlock path b
      | some (l, b) =>
        if remaining ≠ [] then
          match strconv.ParseUint remaining 10 64 with
          | .error _ => l.unlock path b
          | .ok u => l.unlock path { b with remaining := u }
        else l.unlock path b

end ddrv

/-! ## utils.go: extractChannelId; ddrv.go: UpdateNodes -/

namespace ddrv

/-- Message (types.go). -/
structure Message where
  Id : String
  Attachments : List Node
  deriving DecidableEq, Repr

/-- How a call ends when it gives no result: it does not return, or it returns
an error (`Error.Fatal`: the process exits). -/
inductive Failure where
  | fault (f : Fault)
  | error (e : Error)
  deriving DecidableEq, Repr

/-- A match of `discordCDNRe` (utils.go) that starts at the first character:
the literal `https://cdn.discordapp.com/attachments/`, one or more ASCII
digits, which are captured, and a `/`. -/
def discordCDNRe.matchHere (s : List Char) : Option (List Char) :=
  let lit := "https://cdn.discordapp.com/attachments/".toList
  if lit.isPrefixOf s then
    let rest := s.drop lit.length
    let digits := rest.takeWhile (fun c => decide ('0' ≤ c ∧ c ≤ '9'))
    if digits ≠ [] ∧ (rest.drop digits.length).head? = some '/' then some digits else none
  else none

/-- The captured group of the leftmost match of `discordCDNRe` in a string:
`FindStringSubmatch(url)[1]`, `none` when there is no match. -/
def discordCDNRe.FindStringSubmatch : List Char → Option (List Char)
  | [] => none
  | c :: cs =>
    match discordCDNRe.matchHere (c :: cs) with
    | some digits => some digits
    | none => discordCDNRe.FindStringSubmatch cs

/-- The pattern `https://cdn.discordapp.com/attachments/<digits>/` stands at
the start of `s`, with the digit string `ds`: `s` is the literal, then the one
or more ASCII digits `ds`, then `/`, then anything. -/
def PatternAt (s ds : List Char) : Prop :=
  ds ≠ [] ∧ (∀ c ∈ ds, '0' ≤ c ∧ c ≤ '9') ∧
    ∃ rest, s = "https://cdn.discordapp.com/attachments/".toList ++ (ds ++ '/' :: rest)

/-- The function extractChannelId (utils.go). -/
def extractChannelId (url : String) : Except Error String :=
  match discordCDNRe.FindStringSubmatch url.toList with
  | none => .error .Fatal
  | some digits => .ok (String.mk digits)

/-- What UpdateNodes needs from outside: `Rest.GetMessages(channelId, messageId,
"after", &messages)` with the messages it stores, and `url.Parse` on the URLs
of attachments (`none`: a parse error). -/
structure Remote where
  GetMessages : String → Int → Except Error (List Message)
  Parse : String → Option url.URL

/-- DecodeAttachmentURL (utils.go) on the string of a URL. -/
def DecodeAttachmentURLString (parse : String → Option url.URL) (inputURL : String) :
    Except Error (String × Int × Int × String) :=
  match parse inputURL with
  | none => .error .Fatal
  | some parsedURL =>
    match DecodeAttachmentURL parsedURL with
    | .error e => .error e
    | .ok (cleanedURL, ex, is_, hm) =>
      .ok (cleanedURL.Scheme ++ "://" ++ cleanedURL.Host ++ cleanedURL.Path, ex, is_, hm)

/-- The map `expired` of UpdateNodes: message ids with the position of the
chunk they point to, in the order in which the keys were first set. -/
abbrev ExpiredMap := List (Int × Nat)

/-- `expired[k] = v`. -/
def ExpiredMap.set (m : ExpiredMap) (k : Int) (v : Nat) : ExpiredMap :=
  if m.any (fun e => e.1 = k) then m.map (fun e => if e.1 = k then (k, v) else e)
  else m ++ [(k, v)]

/-- `expired[k]`. -/
def ExpiredMap.get (m : ExpiredMap) (k : Int) : Option Nat :=
  (m.find? (fun e => e.1 = k)).map (fun e => e.2)

/-- The first loop of UpdateNodes: the chunks with `currentTimestamp > chunk.Ex`,
by message id. -/
def expiredOf (currentTimestamp : Int) (chunks : List Node) : ExpiredMap :=
  chunks.enum.foldl
    (fun m ic => if currentTimestamp > ic.2.Ex then m.set ic.2.MId ic.1 else m) []

/-- `id, _ := strconv.ParseInt(msg.Id, 10, 64)`: with the error dropped, the
value is 0 after a syntax error and the nearest bound after a range error. -/
def messageId (s : String) : Int :=
  match strconv.ParseInt s.toList 10 64 with
  | .ok v => v
  | .error .ErrSyntax => 0
  | .error .ErrRange => if s.toList.head? = some '-' then - 2 ^ 63 else 2 ^ 63 - 1

/-- The loop over the messages of one answer, in UpdateNodes: a message whose id
is a key of `expired` gives the chunk under that key the URL, `ex`, `is` and
`hm` of its first attachment. -/
def updateFrom (parse : String → Option url.URL) (expired : ExpiredMap) :
    List Message → List Node → Except Failure (List Node)
  | [], chunks => .ok chunks
  | msg :: msgs, chunks =>
    match expired.get (messageId msg.Id) with
    | none => updateFrom parse expired msgs chunks
    | some j =>
      match msg.Attachments.head? with
      | none => .error (.fault .panic)
      | some att =>
        match DecodeAttachmentURLString parse att.URL with
        | .error e => .error (.error e)
        | .ok (u, ex, is_, hm) =>
          updateFrom parse expired msgs
            (chunks.modify (fun c => { c with URL := u, Ex := ex, Is := is_, Hm := hm }) j)

/-- The second loop of UpdateNodes over the entries of `expired` still to be
visited. -/
def refreshLoop (env : Remote) (currentTimestamp : Int) (expired : ExpiredMap) :
    List (Int × Nat) → List Node → Except Failure (List Node)
  | [], chunks => .ok chunks
  | (mid, i) :: todo, chunks =>
    match chunks[i]? with
    | none => .error (.fault .panic)
    | some chunk =>
      if currentTimestamp > chunk.Ex then
        match extractChannelId chunk.URL with
        | .error e => .error (.error e)
        | .ok cid =>
          match env.GetMessages cid (mid - 1) with
          | .error err => .error (.error err)
          | .ok messages =>
            match updateFrom env.Parse expired messages chunks with
            | .error e => .error e
            | .ok chunks => refreshLoop env currentTimestamp expired todo chunks
      else refreshLoop env currentTimestamp expired todo chunks

/-- Driver.UpdateNodes (ddrv.go) with `time.Now().Unix()` reading
`currentTimestamp`. `chunks` are the nodes that the pointers of the argument
point to; the result are these nodes after the call. Go visits the keys of a
map in an order it does not fix; here they are visited in the order in which
they were set. -/
def UpdateNodes (env : Remote) (currentTimestamp : Int) (chunks : List Node) :
    Except Failure (List Node) :=
  let expired := expiredOf currentTimestamp chunks
  refreshLoop env currentTimestamp expired expired chunks

end ddrv

/-! ## The data providers: GetNodes

The table (postgres) or bucket (boltdb) of the nodes of one file is the list of
its nodes in the order of their ids; the calls of the database do not fail.
The calls of the Locker around GetNodes are left out. -/

namespace postgres

/-- What `rows.Scan` of GetNodes fills of a node: `url, size, mid, ex, "is", hm`. -/
def scan (row : ddrv.Node) : ddrv.Node :=
  { URL := row.URL, Size := row.Size, MId := row.MId, Ex := row.Ex, Is := row.Is, Hm := row.Hm }

/-- The statement `UPDATE node SET ex=$1, "is"=$2, hm=$3 WHERE mid=$4`. -/
def update (db : List ddrv.Node) (node : ddrv.Node) : List ddrv.Node :=
  db.map (fun row =>
    if row.MId = node.MId then { row with Ex := node.Ex, Is := node.Is, Hm := node.Hm } else row)

/-- PGProvider.GetNodes (postgres/provider.go) with `time.Now().Unix()` reading
`currentTimestamp`, and `driverTimestamp` in UpdateNodes: the nodes returned and
the table after the call. Each row is scanned into a variable `node` of the
loop body; `nodes` receives a copy of the variable and `expired` a pointer to
the variable itself, so UpdateNodes writes to the variables. -/
def GetNodes (env : ddrv.Remote) (currentTimestamp driverTimestamp : Int) (db : List ddrv.Node) :
    Except ddrv.Failure (List ddrv.Node × List ddrv.Node) :=
  let nodes := db.map scan
  let expired := (db.map scan).filter (fun node => currentTimestamp > node.Ex)
  match ddrv.UpdateNodes env driverTimestamp expired with
  | .error e => .error e
  | .ok expired => .ok (nodes, expired.foldl update db)

end postgres

namespace boltdb

/-- The call `bucket.Put(key, data)` with the key of `node.NId`. -/
def put (db : List ddrv.Node) (node : ddrv.Node) : List ddrv.Node :=
  if db.any (fun row => row.NId = node.NId) then
    db.map (fun row => if row.NId = node.NId then node else row)
  else db ++ [node]

/-- Provider.GetNodes (boltdb/provider.go): the nodes returned and the bucket
after the call; when UpdateNodes fails the transaction is rolled back and only
the error is kept here. As in postgres, `nodes` receives a copy of the variable
`node` of the callback and `expired` a pointer to the variable. -/
def GetNodes (env : ddrv.Remote) (currentTimestamp driverTimestamp : Int) (db : List ddrv.Node) :
    Except ddrv.Failure (List ddrv.Node × List ddrv.Node) :=
  let nodes := db
  let expired := db.filter (fun node => currentTimestamp > node.Ex)
  match ddrv.UpdateNodes env driverTimestamp expired with
  | .error e => .error e
  | .ok expired => .ok (nodes, expired.foldl put db)

end boltdb

/-! ## A file with one expired node and a remote that refreshes it -/

namespace ddrv

/-- The signed URL that the remote gives for the attachment of message 5:
`ex` is 1700000000 and `is` 1699913728, in base 16. -/
def signedURL : String :=
  "https://cdn.discordapp.com/attachments/1/5/f.bin?ex=6553f100&is=6552a000&hm=new"

/-- A remote that answers the request for the messages after message 4 of
channel 1 with message 5 and its attachment, and parses `signedURL`. -/
def answering : Remote where
  GetMessages := fun cid mid =>
    if cid = "1" ∧ mid = 4 then .ok [{ Id := "5", Attachments := [{ URL := signedURL }] }]
    else .error (.Status 200 404)
  Parse := fun s =>
    if s = signedURL then
      some { Scheme := "https", Host := "cdn.discordapp.com", Path := "/attachments/1/5/f.bin",
             Query := [("ex", "6553f100"), ("is", "6552a000"), ("hm", "new")] }
    else none

/-- The stored node of message 5, whose signature expired at the time 100. -/
def storedNode : Node :=
  { NId := 7, URL := "https://cdn.discordapp.com/attachments/1/5/f.bin", Size := 10, MId := 5,
    Ex := 100, Is := 50, Hm := "old" }

end ddrv

/-! ## rest.go: doReq, ReadAttachment

The HTTP client is a script: the list of the answers it gives to the requests
made, in order. A call that has used the whole script and makes one more
request ends in the fault `fuel`. -/

namespace ddrv

/-- What `client.Do(req)` returns to doReq: a response with its status code
(`header`: whether `resp.Header` is not nil), or a nil response with an error. -/
inductive Answer where
  | resp (StatusCode : Int) (header : Bool)
  | err
  deriving DecidableEq, Repr

/-- One pass through the body of doReq: the token that `r.token()` returned,
the values of the Authorization header of the request as it is sent, and the
keys given to `limiter.Acquire` and `limiter.Release`. -/
structure Attempt where
  token : String
  Authorization : List String
  Acquire : String
  Release : String
  deriving DecidableEq, Repr

def StatusTooManyRequests : Int := 429
def StatusInternalServerError : Int := 500
def StatusPartialContent : Int := 206

/-- Rest.doReq (rest.go). The request is the list of the values of its
Authorization header, to which `req.Header.Add` appends; the limiter is left
out, its two calls are recorded with their keys. The result: the client after
the call, the passes made, oldest first, and the answer returned. -/
def Rest.doReq (r : Rest) (bucketId : String) (authorization : List String) (retry : Bool) :
    List Answer → Except Fault (Rest × List Attempt × Answer)
  | [] => .error .fuel
  | answer :: script =>
    match r.token with
    | .error f => .error f
    | .ok (r, token) =>
      let bucketId := token ++ bucketId
      let authorization := authorization ++ [token]
      let attempt : Attempt :=
        { token := token, Authorization := authorization, Acquire := bucketId,
          Release := bucketId }
      match answer with
      | .resp StatusCode true =>
        if retry ∧ (StatusCode = StatusTooManyRequests ∨ StatusCode > StatusInternalServerError)
        then
          match Rest.doReq r bucketId authorization retry script with
          | .error f => .error f
          | .ok (r1, attempts, last) => .ok (r1, attempt :: attempts, last)
        else .ok (r, [attempt], answer)
      | _ => .ok (r, [attempt], answer)

/-- What `http.DefaultClient.Do(req)` returns to ReadAttachment: a response
with its status code and body, or an error. -/
inductive CDNAnswer where
  | resp (StatusCode : Int) (Body : List Byte)
  | err (e : Error)
  deriving DecidableEq, Repr

/-- A GET request of ReadAttachment: the node whose URL is asked for and the
Range header. -/
structure RangeRequest where
  att : Node
  Range : List Char
  deriving DecidableEq, Repr

/-- Rest.ReadAttachment (rest.go): the requests made, oldest first, and the
result returned, a body or an error. -/
def Rest.ReadAttachment (att : Node) (start end_ : Int) :
    List CDNAnswer → Except Fault (List RangeRequest × Except Error (List Byte))
  | [] => .error .fuel
  | answer :: script =>
    let req : RangeRequest :=
      { att := att,
        Range := "bytes=".toList ++ fmt.fmtInteger start ++ '-' :: fmt.fmtInteger end_ }
    match answer with
    | .err e => .ok ([req], .error e)
    | .resp StatusCode Body =>
      if StatusCode > StatusInternalServerError then
        match Rest.ReadAttachment att start end_ script with
        | .error f => .error f
        | .ok (reqs, res) => .ok (req :: reqs, res)
      else if StatusCode ≠ StatusPartialContent then
        .ok ([req], .error (.Status StatusPartialContent.toNat StatusCode.toNat))
      else .ok ([req], .ok Body)

end ddrv

/-! ## filesystem: file.go -/

namespace filesystem

/-- The errors that the methods of File return: those of filesystem.go, or the
error of the driver. -/
inductive Error where
  | ErrIsDir
  | ErrNotSupported
  | ErrInvalidSeek
  | driver (e : ddrv.Error)
  deriving DecidableEq, Repr

/-- The fields of File (file.go) that Seek, Read and ReadAt use. -/
structure File where
  dir : Bool
  size : Int
  flag : Nat
  off : Int
  data : List ddrv.Node
  streamRead : Option ddrv.Reader
  deriving DecidableEq, Repr

def O_RDONLY : Nat := 0
def SeekStart : Int := 0
def SeekCurrent : Int := 1
def SeekEnd : Int := 2

/-- CheckFlag (filesystem.go). -/
def CheckFlag (flag allowedFlags : Nat) : Bool := flag == (flag &&& allowedFlags)

/-- File.openReadStream. NewReader writes Start and End into the nodes of
`f.data`, whose array it shares. -/
def File.openReadStream (f : File) (startAt : Int) : File × Option Error :=
  match ddrv.NewReader f.data startAt with
  | (data, .error err) => ({ f with data := data }, some (.driver err))
  | (data, .ok stream) => ({ f with data := data, streamRead := some stream }, none)

/-- File.Seek (file.go): the file after the call, the position returned and
the error. -/
def File.Seek (f : File) (offset : Int) (whence : Int) : File × Int × Option Error :=
  if f.dir then (f, 0, some .ErrIsDir)
  else if !CheckFlag O_RDONLY f.flag then (f, 0, some .ErrNotSupported)
  else
    let pos : Int :=
      if whence = SeekStart then offset
      else if whence = SeekCurrent then ddrv.int64 (f.off + offset)
      else if whence = SeekEnd then ddrv.int64 (f.size - offset)
      else 0
    if pos < 0 then (f, 0, some .ErrInvalidSeek)
    else
      let closed : File × Option ddrv.Error :=
        match f.streamRead with
        | none => (f, none)
        | some stream => ({ f with streamRead := some stream.Close.1 }, stream.Close.2)
      match closed with
      | (f, some err) => (f, 0, some (.driver err))
      | (f, none) =>
        let f : File := { f with streamRead := none }
        match f.openReadStream pos with
        | (f, some err) => (f, 0, some err)
        | (f, none) => (f, pos, none)

/-- File.Read (file.go) on a buffer of `k` bytes: the file after the call, the
bytes read and the error. -/
def File.Read (svc : ddrv.Service) (fuel : Nat) (f : File) (k : Nat) :
    Except ddrv.Fault (File × List ddrv.Byte × Option Error) :=
  if f.dir then .ok (f, [], some .ErrIsDir)
  else
    let opened : File × Option Error :=
      if f.streamRead.isNone then f.openReadStream 0 else (f, none)
    match opened with
    | (f, some err) => .ok (f, [], some err)
    | (f, none) =>
      match f.streamRead with
      | none => .error .panic
      | some stream =>
        match ddrv.Reader.Read svc fuel stream k with
        | .error fault => .error fault
        | .ok (stream, p, err) =>
          let f : File := { f with streamRead := some stream }
          if err ≠ none ∧ err ≠ some .EOF then .ok (f, p, err.map .driver)
          else .ok ({ f with off := f.off + p.length }, p, err.map .driver)

/-- File.ReadAt (file.go). -/
def File.ReadAt (svc : ddrv.Service) (fuel : Nat) (f : File) (k : Nat) (off : Int) :
    Except ddrv.Fault (File × List ddrv.Byte × Option Error) :=
  if f.dir then .ok (f, [], some .ErrIsDir)
  else
    match f.Seek off SeekCurrent with
    | (f, _, some err) => .ok (f, [], some err)
    | (f, _, none) => File.Read svc fuel f k

/-- A file of the ten bytes 0..9 kept in one node, opened for reading. -/
def tenByteFile : File :=
  { dir := false, size := 10, flag := O_RDONLY, off := 0, data := [{ URL := "a", Size := 10 }],
    streamRead := none }

end filesystem

/-! # Properties -/

/-! ## Numerals: scanning reads back what printing wrote -/

namespace strconv

theorem toDigitsCore_eq (b : Nat) (hb : 2 ≤ b) :
    ∀ n f acc, n < f → Nat.toDigitsCore b f n acc = Nat.toDigits b n ++ acc := by
  intro n
  induction n using Nat.strong_induction_on with
  | _ n ih =>
    intro f acc hf
    obtain ⟨f1, rfl⟩ : ∃ f1, f = f1 + 1 := ⟨f - 1, by omega⟩
    unfold Nat.toDigits
    simp only [Nat.toDigitsCore]
    by_cases h0 : n / b = 0
    · simp [h0]
    · simp only [h0, if_false]
      have hpos : 0 < n := by
        rcases Nat.eq_zero_or_pos n with h | h
        · subst h; simp at h0
        · exact h
      have hlt : n / b < n := Nat.div_lt_self hpos (by omega)
      rw [ih (n / b) hlt f1 _ (by omega), ih (n / b) hlt n _ hlt]
      simp

theorem toDigits_small (b n : Nat) (h : n / b = 0) :
    Nat.toDigits b n = [Nat.digitChar (n % b)] := by
  unfold Nat.toDigits
  simp [Nat.toDigitsCore, h]

theorem toDigits_step (b : Nat) (hb : 2 ≤ b) (n : Nat) (h : n / b ≠ 0) :
    Nat.toDigits b n = Nat.toDigits b (n / b) ++ [Nat.digitChar (n % b)] := by
  have hpos : 0 < n := by
    rcases Nat.eq_zero_or_pos n with h1 | h1
    · subst h1; simp at h
    · exact h1
  have hlt : n / b < n := Nat.div_lt_self hpos (by omega)
  conv_lhs => unfold Nat.toDigits
  simp only [Nat.toDigitsCore, h, if_false]
  exact toDigitsCore_eq b hb (n / b) n _ hlt

/-- Every character `Nat.toDigits` writes is `digitChar k` for a digit `k` of the base. -/
theorem toDigits_mem (b : Nat) (hb : 2 ≤ b) (n : Nat) :
    ∀ c ∈ Nat.toDigits b n, ∃ k, k < b ∧ c = Nat.digitChar k := by
  induction n using Nat.strong_induction_on with
  | _ n ih =>
    intro c hc
    by_cases h0 : n / b = 0
    · rw [toDigits_small b n h0] at hc
      simp only [List.mem_singleton] at hc
      exact ⟨n % b, Nat.mod_lt _ (by omega), hc⟩
    · have hpos : 0 < n := by
        rcases Nat.eq_zero_or_pos n with h1 | h1
        · subst h1; simp at h0
        · exact h1
      rw [toDigits_step b hb n h0] at hc
      rcases List.mem_append.mp hc with hc | hc
      · exact ih (n / b) (Nat.div_lt_self hpos (by omega)) c hc
      · simp only [List.mem_singleton] at hc
        exact ⟨n % b, Nat.mod_lt _ (by omega), hc⟩

theorem toDigits_ne_nil (b : Nat) (hb : 2 ≤ b) (n : Nat) : Nat.toDigits b n ≠ [] := by
  by_cases h0 : n / b = 0
  · rw [toDigits_small b n h0]; simp
  · rw [toDigits_step b hb n h0]; simp

theorem digitValue_digitChar : ∀ k, k < 16 → digitValue (Nat.digitChar k) = some k := by
  decide

theorem parseLoop_append (base maxVal : Nat) (xs ys : List Char) (n : Nat) :
    parseLoop base maxVal n (xs ++ ys) =
      match parseLoop base maxVal n xs with
      | .error e => .error e
      | .ok v => parseLoop base maxVal v ys := by
  induction xs generalizing n with
  | nil => simp [parseLoop]
  | cons c cs ih =>
    simp only [List.cons_append, parseLoop]
    cases digitValue c with
    | none => simp
    | some d =>
      simp only
      split_ifs
      · rfl
      · rfl
      · exact ih _

/-- Scanning the digits that `Nat.toDigits` wrote gives the number back. -/
theorem parseLoop_toDigits (b maxVal : Nat) (hb : 2 ≤ b) (hb16 : b ≤ 16) :
    ∀ n, n ≤ maxVal → parseLoop b maxVal 0 (Nat.toDigits b n) = .ok n := by
  intro n
  induction n using Nat.strong_induction_on with
  | _ n ih =>
    intro hn
    have hmod : n % b < b := Nat.mod_lt _ (by omega)
    have hdv : digitValue (Nat.digitChar (n % b)) = some (n % b) :=
      digitValue_digitChar _ (by omega)
    by_cases h0 : n / b = 0
    · rw [toDigits_small b n h0]
      have hn' : n % b = n := by
        have := Nat.div_add_mod n b
        rw [h0] at this; simpa using this
      simp only [parseLoop, hdv]
      rw [if_neg (by omega), if_neg (by omega)]
      simp [hn']
    · have hpos : 0 < n := by
        rcases Nat.eq_zero_or_pos n with h1 | h1
        · subst h1; simp at h0
        · exact h1
      have hlt : n / b < n := Nat.div_lt_self hpos (by omega)
      rw [toDigits_step b hb n h0, parseLoop_append, ih (n / b) hlt (by omega)]
      simp only [parseLoop, hdv]
      have hsum : n / b * b + n % b = n := by
        have := Nat.div_add_mod n b
        rw [Nat.mul_comm] at this; exact this
      rw [if_neg (by omega), if_neg (by omega), hsum]

theorem digitChar_not_sign : ∀ k, k < 16 →
    Nat.digitChar k ≠ '+' ∧ Nat.digitChar k ≠ '-' := by
  decide

/-- `ParseInt` reads back what `FormatInt` wrote for a value that fits in
`bitSize` bits, without a sign. -/
theorem ParseInt_toDigits (b bitSize n : Nat) (hb : 2 ≤ b) (hb16 : b ≤ 16)
    (hbits : 0 < bitSize) (hn : n < 2 ^ (bitSize - 1)) :
    ParseInt (Nat.toDigits b n) b bitSize = .ok (n : Int) := by
  have hne := toDigits_ne_nil b hb n
  have hpow : 2 ^ bitSize = 2 * 2 ^ (bitSize - 1) := by
    obtain ⟨k, rfl⟩ : ∃ k, bitSize = k + 1 := ⟨bitSize - 1, by omega⟩
    simp [pow_succ, Nat.mul_comm]
  have hloop := parseLoop_toDigits b (2 ^ bitSize - 1) hb hb16 n (by omega)
  cases hd : Nat.toDigits b n with
  | nil => exact absurd hd hne
  | cons c cs =>
    obtain ⟨k, hk, hck⟩ := toDigits_mem b hb n c (by rw [hd]; simp)
    have hsign := digitChar_not_sign k (by omega)
    rw [← hck] at hsign
    rw [hd] at hloop
    simp only [ParseInt, hsign.1, hsign.2, or_self, if_false, ParseUint,
      List.cons_ne_nil, hloop, decide_False, Bool.not_false, true_and, Bool.false_eq_true,
      false_and]
    rw [if_neg (by omega)]

end strconv

/-! ## The engine facade and NewReader (C7, C8, C9) -/

namespace ddrv

theorem int64_of_small (x : Int) (h1 : - 2 ^ 63 ≤ x) (h2 : x < 2 ^ 63) : int64 x = x := by
  unfold int64
  omega

theorem sizes_sum_nonneg (cs : List Node) (hs : ∀ c ∈ cs, 0 ≤ c.Size) :
    0 ≤ (cs.map Node.Size).sum := by
  apply List.sum_nonneg
  intro x hx
  obtain ⟨c, hc, rfl⟩ := List.mem_map.mp hx
  exact hs c hc

theorem int64_int64_add (a b : Int) : int64 (int64 a + b) = int64 (a + b) := by
  unfold int64
  omega

/-- Whatever the sizes, the final offset of the first loop of NewReader is the
sum of the sizes brought back into the 64 bits. -/
theorem assignOffsets_snd_int64 (cs : List Node) (o : Int) :
    (assignOffsets (int64 o) cs).2 = int64 (o + (cs.map Node.Size).sum) := by
  induction cs generalizing o with
  | nil => simp [assignOffsets]
  | cons c cs ih =>
    have e : int64 (int64 (int64 o + c.Size - 1) + 1) = int64 (o + c.Size) := by
      rw [int64_int64_add, sub_add_cancel, int64_int64_add]
    simp only [assignOffsets, e, List.map_cons, List.sum_cons]
    rw [ih (o + c.Size), add_assoc]

/-- Whatever the sizes, NewReader fails, and then with EOF, exactly when pos is
greater than the int64 sum of the sizes. -/
theorem NewReader_eof_int64 (chunks : List Node) (pos : Int) :
    ((NewReader chunks pos).2 = .error .EOF ↔ pos > int64 (chunks.map Node.Size).sum) ∧
      ((∃ r, (NewReader chunks pos).2 = .ok r) ↔ pos ≤ int64 (chunks.map Node.Size).sum) := by
  have hs := assignOffsets_snd_int64 chunks 0
  rw [show int64 0 = 0 from rfl, zero_add] at hs
  unfold NewReader
  simp only [hs]
  by_cases h : pos > int64 (chunks.map Node.Size).sum
  · simp [h]
  · simp only [if_neg h]
    exact ⟨by simp [h], fun _ => by omega, fun _ => ⟨_, rfl⟩⟩

theorem parseChunkSize_invalid (c t : Int) (h : t > 3 ∨ t < 0) :
    parseChunkSize c t = .error (.InvalidTokenType t) := by
  unfold parseChunkSize
  simp only [TokenUserNitroBasic]
  rw [if_pos h]

theorem parseChunkSize_valid (c t : Int) (h : ¬ (t > 3 ∨ t < 0)) :
    parseChunkSize c t = .ok (if 0 < c ∧ c ≤ ceiling t then c else ceiling t) := by
  unfold parseChunkSize
  simp only [ceiling, TokenBot, TokenUser, TokenUserNitro, TokenUserNitroBasic,
    MaxChunkSize, MaxChunkSizeNitro, MaxChunkSizeNitroBasic]
  rw [if_neg h]
  obtain ht | ht | ht | ht : t = 0 ∨ t = 1 ∨ t = 2 ∨ t = 3 := by omega
  all_goals
    subst ht
    norm_num
    split_ifs <;> omega

/-- C8: New fails if and only if the token list is empty, the channel list is
empty, or the token type is none of Bot, User, UserNitro, UserNitroBasic; for
every other config it returns a driver. -/
theorem C8_new_fails_iff (cfg : Config) :
    ((∃ err, New cfg = .error err) ↔
        (cfg.Tokens = [] ∨ cfg.Channels = [] ∨
          ¬ (cfg.TokenType = TokenBot ∨ cfg.TokenType = TokenUser ∨
              cfg.TokenType = TokenUserNitro ∨ cfg.TokenType = TokenUserNitroBasic))) ∧
      ((∃ err, New cfg = .error err) ∨ (∃ d, New cfg = .ok d)) := by
  have hdich : (∃ err, New cfg = .error err) ∨ (∃ d, New cfg = .ok d) := by
    cases hN : New cfg with
    | error e => exact Or.inl ⟨e, rfl⟩
    | ok d => exact Or.inr ⟨d, rfl⟩
  refine ⟨?_, hdich⟩
  unfold New
  simp only [TokenBot, TokenUser, TokenUserNitro, TokenUserNitroBasic, List.length_eq_zero]
  constructor
  · rintro ⟨err, h⟩
    by_cases h1 : cfg.Tokens = [] ∨ cfg.Channels = []
    · rcases h1 with h1 | h1
      · exact Or.inl h1
      · exact Or.inr (Or.inl h1)
    · rw [if_neg h1] at h
      by_cases h2 : cfg.TokenType > 3 ∨ cfg.TokenType < 0
      · right; right; omega
      · rw [parseChunkSize_valid _ _ h2] at h
        cases h
  · intro h
    by_cases h1 : cfg.Tokens = [] ∨ cfg.Channels = []
    · rw [if_pos h1]; exact ⟨_, rfl⟩
    · rw [if_neg h1]
      have h2 : cfg.TokenType > 3 ∨ cfg.TokenType < 0 := by
        rcases h with h | h | h
        · exact absurd (Or.inl h) h1
        · exact absurd (Or.inr h) h1
        · omega
      rw [parseChunkSize_invalid _ _ h2]; exact ⟨_, rfl⟩

/-- C9: for every node list whose sizes sum to an int64 value (so that the int64
sum of NewReader is the sum of the sizes) and every pos, NewReader fails, and
then with EOF, if and only if pos is greater than the sum of the node sizes; for
every smaller or equal pos it returns a reader. -/
theorem C9_new_reader_eof_iff (chunks : List Node) (pos : Int)
    (hlow : - 2 ^ 63 ≤ (chunks.map Node.Size).sum) (hsum : (chunks.map Node.Size).sum < 2 ^ 63) :
    ((NewReader chunks pos).2 = .error .EOF ↔ pos > (chunks.map Node.Size).sum) ∧
      ((∃ err, (NewReader chunks pos).2 = .error err) ↔ pos > (chunks.map Node.Size).sum) ∧
      ((∃ r, (NewReader chunks pos).2 = .ok r) ↔ pos ≤ (chunks.map Node.Size).sum) := by
  have hs := assignOffsets_snd_int64 chunks 0
  rw [show int64 0 = 0 from rfl, zero_add, int64_of_small _ hlow hsum] at hs
  unfold NewReader
  simp only [hs]
  by_cases h : pos > (chunks.map Node.Size).sum
  · simp [h]
  · simp only [if_neg h]
    refine ⟨?_, ?_, ?_⟩
    · simp [h]
    · simp [h]
    · exact ⟨fun _ => by omega, fun _ => ⟨_, rfl⟩⟩

theorem C9_new_reader_eof_iff_witness :
    ((NewReader [{ Size := 10 }, { Size := 5 }] 15).2 = .error .EOF ↔
      (15 : Int) > ([({ Size := 10 } : Node), { Size := 5 }].map Node.Size).sum) ∧
    ((∃ err, (NewReader [{ Size := 10 }, { Size := 5 }] 15).2 = .error err) ↔
      (15 : Int) > ([({ Size := 10 } : Node), { Size := 5 }].map Node.Size).sum) ∧
    ((∃ r, (NewReader [{ Size := 10 }, { Size := 5 }] 15).2 = .ok r) ↔
      (15 : Int) ≤ ([({ Size := 10 } : Node), { Size := 5 }].map Node.Size).sum) :=
  C9_new_reader_eof_iff [{ Size := 10 }, { Size := 5 }] 15 (by decide) (by decide)

end ddrv

/-! ## Range headers (C10) -/

namespace fmt

theorem takeWhile_append_of_all {α : Type} (p : α → Bool) (l r : List α)
    (hl : ∀ x ∈ l, p x = true) (hr : ∀ c, r.head? = some c → p c = false) :
    (l ++ r).takeWhile p = l ∧ (l ++ r).dropWhile p = r := by
  induction l with
  | nil =>
    cases r with
    | nil => simp
    | cons c cs =>
      have := hr c rfl
      simp [List.takeWhile, List.dropWhile, this]
  | cons x xs ih =>
    have hx := hl x (by simp)
    have := ih (fun y hy => hl y (by simp [hy]))
    simp [List.takeWhile, List.dropWhile, hx, this.1, this.2]

theorem digitChar_decimal : ∀ k, k < 10 →
    (Nat.digitChar k).isDigit = true ∧ isSpace (Nat.digitChar k) = false ∧
      Nat.digitChar k ≠ '\r' ∧ Nat.digitChar k ≠ '\n' ∧ Nat.digitChar k ≠ '-' := by
  decide

/-- Input that starts with a decimal digit has no space to skip. -/
theorem SkipSpace_digit (k : Nat) (hk : k < 10) (cs : List Char) :
    SkipSpace (Nat.digitChar k :: cs) = .ok (Nat.digitChar k :: cs) := by
  obtain ⟨_, h2, h3, h4, _⟩ := digitChar_decimal k hk
  simp [SkipSpace, h2, h3, h4]

/-- `%d` reads back a non-negative number printed in decimal, up to the first
character that is neither a digit nor an underscore. -/
theorem scanInt_toDigits (n : Nat) (hn : n < 2 ^ 63) (rest : List Char)
    (hrest : ∀ c, rest.head? = some c → isNumberChar c = false) :
    scanInt (Nat.toDigits 10 n ++ rest) = .ok ((n : Int), rest) := by
  have hne := strconv.toDigits_ne_nil 10 (by omega) n
  have hall : ∀ x ∈ Nat.toDigits 10 n, isNumberChar x = true := by
    intro x hx
    obtain ⟨k, hk, rfl⟩ := strconv.toDigits_mem 10 (by omega) n x hx
    simp only [isNumberChar, (digitChar_decimal k hk).1, Bool.true_or]
  have htd := takeWhile_append_of_all isNumberChar (Nat.toDigits 10 n) rest hall hrest
  have hparse := strconv.ParseInt_toDigits 10 64 n (by omega) (by omega) (by omega)
    (by simpa using hn)
  cases hd : Nat.toDigits 10 n with
  | nil => exact absurd hd hne
  | cons c cs =>
    obtain ⟨k, hk, hck⟩ := strconv.toDigits_mem 10 (by omega) n c (by rw [hd]; simp)
    have hsign := strconv.digitChar_not_sign k (by omega)
    have hdig : isNumberChar (Nat.digitChar k) = true := by
      simp only [isNumberChar, (digitChar_decimal k hk).1, Bool.true_or]
    rw [hd] at htd hparse
    subst hck
    simp only [scanInt, List.cons_append, SkipSpace_digit k hk, hsign.1, hsign.2, or_self,
      if_false, hdig, not_true_eq_false, List.nil_append]
    rw [← List.cons_append, htd.1, htd.2, hparse]

end fmt

namespace fmt

theorem SkipSpace_toDigits (n : Nat) (rest : List Char) :
    SkipSpace (Nat.toDigits 10 n ++ rest) = .ok (Nat.toDigits 10 n ++ rest) := by
  have hne := strconv.toDigits_ne_nil 10 (by omega) n
  cases hd : Nat.toDigits 10 n with
  | nil => exact absurd hd hne
  | cons c cs =>
    obtain ⟨k, hk, hck⟩ := strconv.toDigits_mem 10 (by omega) n c (by rw [hd]; simp)
    subst hck
    exact SkipSpace_digit k hk _

theorem fmtInteger_nonneg (a : Int) (ha : 0 ≤ a) : fmtInteger a = Nat.toDigits 10 a.toNat := by
  unfold fmtInteger strconv.FormatInt
  rw [if_neg (by omega)]

/-- The format `%d` followed by the items `items`, on a printed number followed by
input that starts with neither a digit nor an underscore. -/
theorem doScanf_d_toDigits (n : Nat) (hn : n < 2 ^ 63) (items : List Item) (rest : List Char)
    (hrest : ∀ c, rest.head? = some c → isNumberChar c = false) :
    doScanf (.d :: items) (Nat.toDigits 10 n ++ rest) =
      match doScanf items rest with
      | .error e => .error e
      | .ok is => .ok ((n : Int) :: is) := by
  simp only [doScanf, SkipSpace_toDigits, scanInt_toDigits n hn rest hrest]

end fmt

namespace httprange

theorem head_toDigits_not_dash (n : Nat) (rest : List Char) :
    strings.HasPrefix (Nat.toDigits 10 n ++ rest) '-' = false := by
  have hne := strconv.toDigits_ne_nil 10 (by omega) n
  cases hd : Nat.toDigits 10 n with
  | nil => exact absurd hd hne
  | cons c cs =>
    obtain ⟨k, hk, hck⟩ := strconv.toDigits_mem 10 (by omega) n c (by rw [hd]; simp)
    have := (strconv.digitChar_not_sign k (by omega)).2
    subst hck
    simp [strings.HasPrefix, this]

theorem last_toDigits_not_dash (n : Nat) (pre : List Char) :
    strings.HasSuffix (pre ++ Nat.toDigits 10 n) '-' = false := by
  have hne := strconv.toDigits_ne_nil 10 (by omega) n
  have hlast : (pre ++ Nat.toDigits 10 n).getLast? = some ((Nat.toDigits 10 n).getLast hne) := by
    rw [List.getLast?_append_of_ne_nil _ hne, List.getLast?_eq_getLast _ hne]
  obtain ⟨k, hk, hck⟩ := strconv.toDigits_mem 10 (by omega) n _ (List.getLast_mem hne)
  have := (strconv.digitChar_not_sign k (by omega)).2
  simp only [strings.HasSuffix, hlast, hck]
  simpa using this

/-- What `Parse` does after the unit `bytes=` has been split off. -/
theorem SplitN2_bytes (p1 : List Char) :
    strings.SplitN2 ("bytes=".toList ++ p1) '=' = ["bytes".toList, p1] := by
  have h1 : "bytes=".toList = ['b', 'y', 't', 'e', 's', '='] := rfl
  have h2 : "bytes".toList = ['b', 'y', 't', 'e', 's'] := rfl
  rw [h1, h2]
  simp [strings.SplitN2, List.takeWhile, List.dropWhile]

end httprange

namespace httprange

theorem scan_d (a : Int) (ha : 0 ≤ a) (haS : a < 2 ^ 63) :
    fmt.doScanf [.d] (fmt.fmtInteger a) = .ok [a] := by
  have h := fmt.doScanf_d_toDigits a.toNat (by omega) [] [] (by simp)
  simp only [List.append_nil, fmt.doScanf, Int.toNat_of_nonneg ha] at h
  rw [fmt.fmtInteger_nonneg a ha]
  simpa [fmt.doScanf] using h

theorem scan_dash_d (a : Int) (ha : 0 ≤ a) (haS : a < 2 ^ 63) :
    fmt.doScanf [.lit '-', .d] ('-' :: fmt.fmtInteger a) = .ok [a] := by
  have h := scan_d a ha haS
  simp only [fmt.doScanf, if_true] at h ⊢
  exact h

theorem scan_d_dash (a : Int) (ha : 0 ≤ a) (haS : a < 2 ^ 63) :
    fmt.doScanf [.d, .lit '-'] (fmt.fmtInteger a ++ ['-']) = .ok [a] := by
  have h := fmt.doScanf_d_toDigits a.toNat (by omega) [.lit '-'] ['-']
    (by intro c hc; simp only [List.head?_cons, Option.some.injEq] at hc; subst hc; decide)
  rw [fmt.fmtInteger_nonneg a ha, h]
  simp [fmt.doScanf, Int.toNat_of_nonneg ha]

theorem scan_d_dash_d (a b : Int) (ha : 0 ≤ a) (haS : a < 2 ^ 63) (hb : 0 ≤ b)
    (hbS : b < 2 ^ 63) :
    fmt.doScanf [.d, .lit '-', .d] (fmt.fmtInteger a ++ '-' :: fmt.fmtInteger b) =
      .ok [a, b] := by
  have h := fmt.doScanf_d_toDigits a.toNat (by omega) [.lit '-', .d]
    ('-' :: fmt.fmtInteger b)
    (by intro c hc; simp only [List.head?_cons, Option.some.injEq] at hc; subst hc; decide)
  have h2 := scan_dash_d b hb hbS
  rw [fmt.fmtInteger_nonneg a ha, h, h2]
  simp [Int.toNat_of_nonneg ha]

theorem fmtInteger_no_leading_dash (a : Int) (ha : 0 ≤ a) (rest : List Char) :
    strings.HasPrefix (fmt.fmtInteger a ++ rest) '-' = false := by
  rw [fmt.fmtInteger_nonneg a ha]; exact head_toDigits_not_dash _ _

theorem fmtInteger_no_trailing_dash (a : Int) (ha : 0 ≤ a) (pre : List Char) :
    strings.HasSuffix (pre ++ fmt.fmtInteger a) '-' = false := by
  rw [fmt.fmtInteger_nonneg a ha]; exact last_toDigits_not_dash _ _

/-- C10: for every size S (an int64): Parse("bytes=a-b", S) with 0 ≤ a ≤ b < S
returns start a, length b-a+1 and header "bytes a-b/S"; Parse("bytes=a-", S) with
0 ≤ a < S returns start a, length S-a and header "bytes a-(S-1)/S";
Parse("bytes=-n", S) with 1 ≤ n ≤ S returns start S-n, length n and header
"bytes (S-n)-(S-1)/S". The numbers are written in decimal as `%d` prints them. -/
theorem C10_parse_three_forms (S a b n : Int) (hS : S < 2 ^ 63) :
    (0 ≤ a → a ≤ b → b < S →
      Parse ("bytes=".toList ++ (fmt.fmtInteger a ++ '-' :: fmt.fmtInteger b)) S =
        .ok { Start := a, Length := b - a + 1,
              Header := "bytes ".toList ++ fmt.fmtInteger a ++ "-".toList ++
                fmt.fmtInteger b ++ "/".toList ++ fmt.fmtInteger S }) ∧
    (0 ≤ a → a < S →
      Parse ("bytes=".toList ++ (fmt.fmtInteger a ++ ['-'])) S =
        .ok { Start := a, Length := S - a,
              Header := "bytes ".toList ++ fmt.fmtInteger a ++ "-".toList ++
                fmt.fmtInteger (S - 1) ++ "/".toList ++ fmt.fmtInteger S }) ∧
    (1 ≤ n → n ≤ S →
      Parse ("bytes=".toList ++ ('-' :: fmt.fmtInteger n)) S =
        .ok { Start := S - n, Length := n,
              Header := "bytes ".toList ++ fmt.fmtInteger (S - n) ++ "-".toList ++
                fmt.fmtInteger (S - 1) ++ "/".toList ++ fmt.fmtInteger S }) := by
  refine ⟨?_, ?_, ?_⟩
  · intro ha hab hbS
    have hb : 0 ≤ b := by omega
    have hsuf := fmtInteger_no_trailing_dash b hb (fmt.fmtInteger a ++ ['-'])
    simp only [List.append_assoc, List.singleton_append] at hsuf
    unfold Parse
    rw [SplitN2_bytes]
    simp only [fmtInteger_no_leading_dash a ha, hsuf, scan_d_dash_d a b ha (by omega) hb (by omega)]
    simp only [ne_eq, not_true_eq_false, if_false, Bool.false_eq_true]
    rw [if_neg (by omega)]
  · intro ha haS
    have hsuf : strings.HasSuffix (fmt.fmtInteger a ++ ['-']) '-' = true := by
      simp [strings.HasSuffix]
    unfold Parse
    rw [SplitN2_bytes]
    simp only [fmtInteger_no_leading_dash a ha, hsuf, scan_d_dash a ha (by omega)]
    simp only [ne_eq, not_true_eq_false, if_false, Bool.false_eq_true, if_true]
    rw [if_neg (by omega)]
    have : S - 1 - a + 1 = S - a := by omega
    rw [this]
  · intro hn hnS
    have hpre : strings.HasPrefix ('-' :: fmt.fmtInteger n) '-' = true := by
      simp [strings.HasPrefix]
    unfold Parse
    rw [SplitN2_bytes]
    simp only [hpre, scan_dash_d n (by omega) (by omega)]
    simp only [ne_eq, not_true_eq_false, if_false, if_true]
    rw [if_neg (by omega)]
    have : S - 1 - (S - n) + 1 = n := by omega
    rw [this]

theorem C10_parse_three_forms_witness :
    Parse "bytes=100-500".toList 4707476 =
        .ok ⟨100, 401, "bytes 100-500/4707476".toList⟩ ∧
      Parse "bytes=100-".toList 4707476 =
        .ok ⟨100, 4707376, "bytes 100-4707475/4707476".toList⟩ ∧
      Parse "bytes=-500".toList 4707476 =
        .ok ⟨4706976, 500, "bytes 4706976-4707475/4707476".toList⟩ :=
  ⟨(C10_parse_three_forms 4707476 100 500 500 (by decide)).1 (by decide) (by decide) (by decide),
   (C10_parse_three_forms 4707476 100 500 500 (by decide)).2.1 (by decide) (by decide),
   (C10_parse_three_forms 4707476 100 500 500 (by decide)).2.2 (by decide) (by decide)⟩

end httprange
/-! ## The URL codec (C5, C6) -/

namespace ddrv

theorem digitValue_of_digitChar_either : ∀ d, d < 16 →
    strconv.digitValue (Nat.digitChar d) = some d ∧
      strconv.digitValue (Nat.digitChar d).toUpper = some d := by
  decide

theorem digitValue_of_hexDigit (c : Char) (d : Nat) (h : hexDigit? c = some d) :
    strconv.digitValue c = some d ∧ d < 16 := by
  unfold hexDigit? at h
  have hmem := List.mem_of_find?_eq_some h
  have hp := List.find?_some h
  have hd : d < 16 := by simpa using hmem
  have := digitValue_of_digitChar_either d hd
  simp only [decide_eq_true_eq] at hp
  rcases hp with rfl | rfl
  · exact ⟨this.1, hd⟩
  · exact ⟨this.2, hd⟩

theorem hexDigit_of_digitValue (c : Char) (d : Nat) (h : strconv.digitValue c = some d)
    (hd : d < 16) : hexDigit? c = some d := by
  have hc : Char.ofNat c.toNat = c := Char.ofNat_toNat c
  unfold strconv.digitValue at h
  simp only at h
  generalize c.toNat = n at h hc
  subst hc
  split_ifs at h with h1 h2 h3
  · obtain ⟨h1a, h1b⟩ := h1
    simp only [Option.some.injEq] at h
    subst h
    interval_cases n <;> rfl
  · obtain ⟨h2a, h2b⟩ := h2
    simp only [Option.some.injEq] at h
    subst h
    have : n ≤ 0x66 := by omega
    interval_cases n <;> rfl
  · obtain ⟨h3a, h3b⟩ := h3
    simp only [Option.some.injEq] at h
    subst h
    have : n ≤ 0x46 := by omega
    interval_cases n <;> rfl

end ddrv
namespace ddrv

theorem hexDigits_cons (c : Char) (cs : List Char) (ds : List Nat) :
    hexDigits? (c :: cs) = some ds ↔
      ∃ d ds1, hexDigit? c = some d ∧ hexDigits? cs = some ds1 ∧ ds = d :: ds1 := by
  simp only [hexDigits?]
  cases h1 : hexDigit? c with
  | none => simp
  | some d =>
    cases h2 : hexDigits? cs with
    | none => simp
    | some ds1 =>
      simp only [Option.some.injEq]
      constructor
      · intro h; exact ⟨d, ds1, rfl, rfl, h.symm⟩
      · rintro ⟨d1, ds2, h3, h4, h5⟩; rw [h5, h3, h4]

theorem ofDigits_reverse_cons (d : Nat) (ds : List Nat) :
    Nat.ofDigits 16 (d :: ds).reverse = d * 16 ^ ds.length + Nat.ofDigits 16 ds.reverse := by
  rw [List.reverse_cons, Nat.ofDigits_append, Nat.ofDigits_singleton, List.length_reverse]
  ring

/-- The loop of `ParseUint` in base 16 succeeds exactly on strings of hexadecimal
digits whose value stays within `maxVal`, and returns that value. -/
theorem parseLoop_hex_iff (maxVal : Nat) (s : List Char) :
    ∀ (acc v : Nat), acc ≤ maxVal →
      (strconv.parseLoop 16 maxVal acc s = .ok v ↔
        ∃ ds, hexDigits? s = some ds ∧
          v = acc * 16 ^ ds.length + Nat.ofDigits 16 ds.reverse ∧ v ≤ maxVal) := by
  induction s with
  | nil =>
    intro acc v hacc
    simp only [strconv.parseLoop, hexDigits?, Except.ok.injEq, Option.some.injEq]
    constructor
    · intro h; subst h; exact ⟨[], rfl, by simp, hacc⟩
    · rintro ⟨ds, rfl, h, _⟩; simp at h; omega
  | cons c cs ih =>
    intro acc v hacc
    simp only [strconv.parseLoop]
    cases hdv : strconv.digitValue c with
    | none =>
      refine ⟨(fun h => nomatch h), ?_⟩
      rintro ⟨ds, h, _⟩
      obtain ⟨d, _, h1, _, _⟩ := (hexDigits_cons c cs ds).mp h
      have := (digitValue_of_hexDigit c d h1).1
      rw [hdv] at this; cases this
    | some d =>
      simp only
      by_cases hd : d ≥ 16
      · rw [if_pos hd]
        refine ⟨(fun h => nomatch h), ?_⟩
        rintro ⟨ds, h, _⟩
        obtain ⟨d1, _, h1, _, _⟩ := (hexDigits_cons c cs ds).mp h
        have := digitValue_of_hexDigit c d1 h1
        rw [hdv] at this
        simp only [Option.some.injEq] at this
        omega
      · rw [if_neg hd]
        have hhex := hexDigit_of_digitValue c d hdv (by omega)
        by_cases hr : acc * 16 + d > maxVal
        · rw [if_pos hr]
          refine ⟨(fun h => nomatch h), ?_⟩
          rintro ⟨ds, h, hv, hle⟩
          obtain ⟨d1, ds1, h1, _, h3⟩ := (hexDigits_cons c cs ds).mp h
          rw [hhex] at h1
          simp only [Option.some.injEq] at h1
          subst h1 h3
          rw [ofDigits_reverse_cons, List.length_cons, pow_succ] at hv
          have hp : 1 ≤ 16 ^ ds1.length := Nat.one_le_pow _ _ (by omega)
          have : (acc * 16 + d) * 1 ≤ (acc * 16 + d) * 16 ^ ds1.length :=
            Nat.mul_le_mul_left _ hp
          have e : (acc * 16 + d) * 16 ^ ds1.length =
              acc * (16 ^ ds1.length * 16) + d * 16 ^ ds1.length := by ring
          omega
        · rw [if_neg hr, ih (acc * 16 + d) v (by omega)]
          constructor
          · rintro ⟨ds, h1, h2, h3⟩
            refine ⟨d :: ds, (hexDigits_cons c cs _).mpr ⟨d, ds, hhex, h1, rfl⟩, ?_, h3⟩
            rw [ofDigits_reverse_cons, List.length_cons, pow_succ, h2]
            ring
          · rintro ⟨ds, h, hv, hle⟩
            obtain ⟨d1, ds1, h1, h2, h3⟩ := (hexDigits_cons c cs ds).mp h
            rw [hhex] at h1
            simp only [Option.some.injEq] at h1
            subst h1 h3
            refine ⟨ds1, h2, ?_, hle⟩
            rw [ofDigits_reverse_cons, List.length_cons, pow_succ] at hv
            rw [hv]
            ring

theorem ParseUint_hex_iff (bitSize : Nat) (s : List Char) (v : Nat) :
    strconv.ParseUint s 16 bitSize = .ok v ↔
      s ≠ [] ∧ hexValue? s = some v ∧ v ≤ 2 ^ bitSize - 1 := by
  unfold strconv.ParseUint hexValue?
  by_cases hs : s = []
  · simp [hs]
  · rw [if_neg hs, parseLoop_hex_iff _ s 0 v (Nat.zero_le _)]
    simp only [zero_mul, zero_add, ne_eq, hs, not_false_eq_true, Option.map_eq_some',
      true_and]
    constructor
    · rintro ⟨ds, h1, h2, h3⟩; exact ⟨⟨ds, h1, h2.symm⟩, h3⟩
    · rintro ⟨⟨ds, h1, h2⟩, h3⟩; exact ⟨ds, h1, h2.symm, h3⟩

/-- `strconv.ParseInt(s, 16, 32)` succeeds exactly on the base-16 numerals of
signed 32-bit integers, and returns the integer the numeral denotes. -/
theorem ParseInt_hex_iff (s : List Char) (v : Int) :
    strconv.ParseInt s 16 32 = .ok v ↔ IsBase16Int32 s v := by
  unfold IsBase16Int32 base16Int?
  cases s with
  | nil => simp [strconv.ParseInt]
  | cons c cs =>
    simp only [strconv.ParseInt]
    generalize hbody : (if c = '+' ∨ c = '-' then cs else c :: cs) = body
    cases hpu : strconv.ParseUint body 16 32 with
    | error e =>
      refine ⟨(fun h => nomatch h), ?_⟩
      rintro ⟨h1, h2, h3⟩
      by_cases hb : body = []
      · simp [hb] at h1
      · rw [if_neg hb] at h1
        obtain ⟨un, hun, hv⟩ := Option.map_eq_some'.mp h1
        have : strconv.ParseUint body 16 32 = .ok un := by
          rw [ParseUint_hex_iff]
          refine ⟨hb, hun, ?_⟩
          split_ifs at hv <;> omega
        rw [hpu] at this; cases this
    | ok un =>
      obtain ⟨hb, hun, hle⟩ := (ParseUint_hex_iff 32 body un).mp hpu
      simp only [if_neg hb, hun, Option.map_some', Option.some.injEq]
      by_cases hneg : c = '-'
      · simp only [hneg, decide_True, Bool.not_true, Bool.false_eq_true, false_and,
          if_false, true_and, if_true]
        by_cases h1 : un > 2 ^ (32 - 1)
        · rw [if_pos h1]
          refine ⟨(fun h => nomatch h), ?_⟩
          rintro ⟨h2, h3, h4⟩
          norm_num at h1
          omega
        · rw [if_neg h1]
          simp only [Except.ok.injEq]
          norm_num at h1
          constructor
          · intro h; subst h; refine ⟨rfl, ?_, ?_⟩ <;> omega
          · rintro ⟨h, _, _⟩; exact h
      · simp only [hneg, decide_False, Bool.not_false, true_and, Bool.false_eq_true,
          false_and, if_false]
        by_cases h1 : un ≥ 2 ^ (32 - 1)
        · rw [if_pos h1]
          refine ⟨(fun h => nomatch h), ?_⟩
          rintro ⟨h2, h3, h4⟩
          norm_num at h1
          omega
        · rw [if_neg h1]
          simp only [Except.ok.injEq]
          norm_num at h1
          constructor
          · intro h; subst h; refine ⟨rfl, ?_, ?_⟩ <;> omega
          · rintro ⟨h, _, _⟩; exact h

end ddrv
namespace ddrv

theorem Get_of_mem_nodup (q : List (String × String)) (k v : String)
    (hnodup : (q.map Prod.fst).Nodup) (hmem : (k, v) ∈ q) : url.Get q k = v := by
  induction q with
  | nil => simp at hmem
  | cons kv rest ih =>
    simp only [List.map_cons, List.nodup_cons] at hnodup
    unfold url.Get
    simp only [List.find?]
    by_cases hk : kv.1 = k
    · have hbeq : (kv.1 == k) = true := by simpa using hk
      simp only [hbeq]
      rcases List.mem_cons.mp hmem with h | h
      · rw [← h]
      · exfalso
        apply hnodup.1
        rw [hk]
        exact List.mem_map.mpr ⟨(k, v), h, rfl⟩
    · have hbeq : (kv.1 == k) = false := by simpa using hk
      simp only [hbeq]
      rcases List.mem_cons.mp hmem with h | h
      · rw [← h] at hk; exact absurd rfl hk
      · exact ih hnodup.2 h

theorem Get_of_perm (q l : List (String × String)) (k v : String) (hperm : q.Perm l)
    (hnodup : (l.map Prod.fst).Nodup) (hmem : (k, v) ∈ l) : url.Get q k = v :=
  Get_of_mem_nodup q k v ((hperm.map Prod.fst).nodup_iff.mpr hnodup) (hperm.mem_iff.mpr hmem)

theorem Get_of_missing (q : List (String × String)) (k : String)
    (h : ∀ kv ∈ q, kv.1 ≠ k) : url.Get q k = "" := by
  unfold url.Get
  have : q.find? (fun kv => kv.1 == k) = none := by
    rw [List.find?_eq_none]
    intro x hx
    simpa using h x hx
  rw [this]

theorem not_base16_empty (v : Int) : ¬ IsBase16Int32 ("" : String).toList v := by
  intro h
  have := h.1
  simp [base16Int?] at this

/-- `ParseInt` reads back what `FormatInt` wrote, for every value of a signed
integer of `bitSize` bits and every base from 2 to 16. -/
theorem ParseInt_FormatInt (b bitSize : Nat) (v : Int) (hb : 2 ≤ b) (hb16 : b ≤ 16)
    (hbits : 0 < bitSize) (hlo : - 2 ^ (bitSize - 1) ≤ v) (hhi : v < 2 ^ (bitSize - 1)) :
    strconv.ParseInt (strconv.FormatInt v b) b bitSize = .ok v := by
  unfold strconv.FormatInt
  by_cases hneg : v < 0
  · rw [if_pos hneg]
    have hpow : 2 ^ bitSize = 2 * 2 ^ (bitSize - 1) := by
      obtain ⟨k, rfl⟩ : ∃ k, bitSize = k + 1 := ⟨bitSize - 1, by omega⟩
      simp [pow_succ, Nat.mul_comm]
    have hcast : ((2 ^ (bitSize - 1) : Nat) : Int) = 2 ^ (bitSize - 1) := by push_cast; rfl
    have habs : v.natAbs ≤ 2 ^ (bitSize - 1) := by omega
    have hloop := strconv.parseLoop_toDigits b (2 ^ bitSize - 1) hb hb16 v.natAbs (by omega)
    have hne := strconv.toDigits_ne_nil b hb v.natAbs
    simp only [strconv.ParseInt, or_true, if_true, strconv.ParseUint, hne, if_false, hloop,
      decide_True, Bool.not_true, Bool.false_eq_true, false_and, true_and]
    rw [if_neg (by omega)]
    congr 1
    omega
  · rw [if_neg hneg]
    have hcast : ((2 ^ (bitSize - 1) : Nat) : Int) = 2 ^ (bitSize - 1) := by push_cast; rfl
    have := strconv.ParseInt_toDigits b bitSize v.toNat hb hb16 hbits (by omega)
    rw [this]
    congr 1
    omega

theorem keys_nodup (E I H : String) :
    (List.map Prod.fst [("ex", E), ("is", I), ("hm", H)]).Nodup := by
  simp only [List.map_cons, List.map_nil]
  decide

/-- C6: for every URL scheme://host/path?ex=E&is=I&hm=H where E and I are
base-16 numerals of signed 32-bit integers e and i, DecodeAttachmentURL returns
(scheme://host/path with no query, e, i, H); and for every URL in which ex or is
is missing, or is no base-16 numeral of a 32-bit integer, it fails (the process
exits) instead of returning default values. -/
theorem C6_decode_signed_url (scheme host path E I H : String) (e i : Int)
    (hE : IsBase16Int32 E.toList e) (hI : IsBase16Int32 I.toList i) :
    DecodeAttachmentURL ⟨scheme, host, path, [("ex", E), ("is", I), ("hm", H)]⟩ =
        .ok (⟨scheme, host, path, []⟩, e, i, H) ∧
      (⟨scheme, host, path, []⟩ : url.URL).String = scheme ++ "://" ++ host ++ path ∧
      (∀ u : url.URL,
        ((∀ kv ∈ u.Query, kv.1 ≠ "ex") ∨ (∀ kv ∈ u.Query, kv.1 ≠ "is")) →
          DecodeAttachmentURL u = .error .Fatal) ∧
      (∀ u : url.URL,
        ((∀ v, ¬ IsBase16Int32 (url.Get u.Query "ex").toList v) ∨
          (∀ v, ¬ IsBase16Int32 (url.Get u.Query "is").toList v)) →
          DecodeAttachmentURL u = .error .Fatal) := by
  have hfail : ∀ u : url.URL,
      ((∀ v, ¬ IsBase16Int32 (url.Get u.Query "ex").toList v) ∨
        (∀ v, ¬ IsBase16Int32 (url.Get u.Query "is").toList v)) →
        DecodeAttachmentURL u = .error .Fatal := by
    intro u h
    unfold DecodeAttachmentURL
    simp only
    cases hex : strconv.ParseInt (url.Get u.Query "ex").toList 16 32 with
    | error _ => rfl
    | ok ex =>
      cases his : strconv.ParseInt (url.Get u.Query "is").toList 16 32 with
      | error _ => rfl
      | ok is_ =>
        rcases h with h | h
        · exact absurd ((ParseInt_hex_iff _ _).mp hex) (h ex)
        · exact absurd ((ParseInt_hex_iff _ _).mp his) (h is_)
  refine ⟨?_, by simp [url.URL.String], ?_, hfail⟩
  · have h1 : url.Get [("ex", E), ("is", I), ("hm", H)] "ex" = E :=
      Get_of_mem_nodup _ _ _ (keys_nodup E I H) (by simp)
    have h2 : url.Get [("ex", E), ("is", I), ("hm", H)] "is" = I :=
      Get_of_mem_nodup _ _ _ (keys_nodup E I H) (by simp)
    have h3 : url.Get [("ex", E), ("is", I), ("hm", H)] "hm" = H :=
      Get_of_mem_nodup _ _ _ (keys_nodup E I H) (by simp)
    unfold DecodeAttachmentURL
    simp only [h1, h2, h3, (ParseInt_hex_iff _ _).mpr hE, (ParseInt_hex_iff _ _).mpr hI]
  · intro u h
    apply hfail
    rcases h with h | h
    · left; rw [Get_of_missing _ _ h]; exact not_base16_empty
    · right; rw [Get_of_missing _ _ h]; exact not_base16_empty

theorem C6_decode_signed_url_witness :
    IsBase16Int32 "65a0b1c2".toList 0x65a0b1c2 ∧ IsBase16Int32 "659f603d".toList 0x659f603d ∧
      (⟨"https", "cdn.discordapp.com", "/attachments/123/456/f.bin",
          [("ex", "65a0b1c2"), ("is", "659f603d"), ("hm", "deadbeef")]⟩ : url.URL).String =
        "https://cdn.discordapp.com/attachments/123/456/f.bin?ex=65a0b1c2&is=659f603d&hm=deadbeef" ∧
      DecodeAttachmentURL ⟨"https", "cdn.discordapp.com", "/attachments/123/456/f.bin",
          [("ex", "65a0b1c2"), ("is", "659f603d"), ("hm", "deadbeef")]⟩ =
        .ok (⟨"https", "cdn.discordapp.com", "/attachments/123/456/f.bin", []⟩,
          0x65a0b1c2, 0x659f603d, "deadbeef") :=
  ⟨⟨by decide, by decide, by decide⟩, ⟨by decide, by decide, by decide⟩, by decide,
    (C6_decode_signed_url "https" "cdn.discordapp.com" "/attachments/123/456/f.bin"
      "65a0b1c2" "659f603d" "deadbeef" 0x65a0b1c2 0x659f603d
      ⟨by decide, by decide, by decide⟩ ⟨by decide, by decide, by decide⟩).1⟩

end ddrv
namespace ddrv

/-- C5, as stated, fails: a signed URL whose ex is written with capital
hexadecimal digits decodes, and encoding the four results writes ex in lowercase,
which is a different URL whatever the order of the parameters; the same happens
with a leading zero. -/
theorem C5_counterexample_hex_spelling :
    (IsBase16Int32 "65A0B1C2".toList 0x65a0b1c2 ∧
      DecodeAttachmentURL ⟨"https", "cdn.discordapp.com", "/attachments/123/456/f.bin",
          [("ex", "65A0B1C2"), ("is", "659f603d"), ("hm", "deadbeef")]⟩ =
        .ok (⟨"https", "cdn.discordapp.com", "/attachments/123/456/f.bin", []⟩,
          0x65a0b1c2, 0x659f603d, "deadbeef") ∧
      ¬ SameUpToQueryOrder
        (EncodeAttachmentURL ⟨"https", "cdn.discordapp.com", "/attachments/123/456/f.bin", []⟩
          0x65a0b1c2 0x659f603d "deadbeef")
        ⟨"https", "cdn.discordapp.com", "/attachments/123/456/f.bin",
          [("ex", "65A0B1C2"), ("is", "659f603d"), ("hm", "deadbeef")]⟩) ∧
    (IsBase16Int32 "065a0b1c2".toList 0x65a0b1c2 ∧
      DecodeAttachmentURL ⟨"https", "cdn.discordapp.com", "/attachments/123/456/f.bin",
          [("ex", "065a0b1c2"), ("is", "659f603d"), ("hm", "deadbeef")]⟩ =
        .ok (⟨"https", "cdn.discordapp.com", "/attachments/123/456/f.bin", []⟩,
          0x65a0b1c2, 0x659f603d, "deadbeef") ∧
      ¬ SameUpToQueryOrder
        (EncodeAttachmentURL ⟨"https", "cdn.discordapp.com", "/attachments/123/456/f.bin", []⟩
          0x65a0b1c2 0x659f603d "deadbeef")
        ⟨"https", "cdn.discordapp.com", "/attachments/123/456/f.bin",
          [("ex", "065a0b1c2"), ("is", "659f603d"), ("hm", "deadbeef")]⟩) := by
  refine ⟨⟨⟨by decide, by decide, by decide⟩, rfl, ?_⟩, ⟨⟨by decide, by decide, by decide⟩, rfl, ?_⟩⟩
  · rintro ⟨_, _, _, hperm⟩
    have hmem : (("ex", "65a0b1c2") : String × String) ∈
        [(("ex", "65A0B1C2") : String × String), ("is", "659f603d"), ("hm", "deadbeef")] :=
      hperm.mem_iff.mp (by decide)
    revert hmem
    decide
  · rintro ⟨_, _, _, hperm⟩
    have hmem : (("ex", "65a0b1c2") : String × String) ∈
        [(("ex", "065a0b1c2") : String × String), ("is", "659f603d"), ("hm", "deadbeef")] :=
      hperm.mem_iff.mp (by decide)
    revert hmem
    decide

/-- C5 (amended): for every signed URL u whose query holds exactly the parameters
ex, is and hm, in any order, with ex and is written the way EncodeAttachmentURL
writes 32-bit integers (strconv.FormatInt in base 16: lowercase digits, no leading
zeros, no plus sign), DecodeAttachmentURL succeeds and EncodeAttachmentURL applied
to its four results gives back u, up to the order of the query parameters. -/
theorem C5_roundtrip_canonical_numerals (u : url.URL) (e i : Int) (H : String)
    (he : - 2 ^ 31 ≤ e ∧ e < 2 ^ 31) (hi : - 2 ^ 31 ≤ i ∧ i < 2 ^ 31)
    (hq : u.Query.Perm [("ex", String.mk (strconv.FormatInt e 16)),
      ("is", String.mk (strconv.FormatInt i 16)), ("hm", H)]) :
    DecodeAttachmentURL u = .ok (⟨u.Scheme, u.Host, u.Path, []⟩, e, i, H) ∧
      SameUpToQueryOrder (EncodeAttachmentURL ⟨u.Scheme, u.Host, u.Path, []⟩ e i H) u := by
  have hnd := keys_nodup (String.mk (strconv.FormatInt e 16))
    (String.mk (strconv.FormatInt i 16)) H
  have h1 : url.Get u.Query "ex" = String.mk (strconv.FormatInt e 16) :=
    Get_of_perm u.Query _ "ex" _ hq hnd (by simp)
  have h2 : url.Get u.Query "is" = String.mk (strconv.FormatInt i 16) :=
    Get_of_perm u.Query _ "is" _ hq hnd (by simp)
  have h3 : url.Get u.Query "hm" = H := Get_of_perm u.Query _ "hm" _ hq hnd (by simp)
  have pe := ParseInt_FormatInt 16 32 e (by omega) (by omega) (by omega) he.1 he.2
  have pi := ParseInt_FormatInt 16 32 i (by omega) (by omega) (by omega) hi.1 hi.2
  constructor
  · unfold DecodeAttachmentURL
    simp only [h1, h2, h3, String.toList, pe, pi]
  · refine ⟨rfl, rfl, rfl, ?_⟩
    simp only [EncodeAttachmentURL]
    exact ((List.Perm.swap _ _ _).cons _).trans hq.symm

theorem C5_roundtrip_canonical_numerals_witness :
    SameUpToQueryOrder
      (EncodeAttachmentURL ⟨"https", "cdn.discordapp.com", "/attachments/123/456/f.bin", []⟩
        0x65a0b1c2 0x659f603d "deadbeef")
      ⟨"https", "cdn.discordapp.com", "/attachments/123/456/f.bin",
        [("hm", "deadbeef"), ("ex", "65a0b1c2"), ("is", "659f603d")]⟩ :=
  (C5_roundtrip_canonical_numerals
    ⟨"https", "cdn.discordapp.com", "/attachments/123/456/f.bin",
      [("hm", "deadbeef"), ("ex", "65a0b1c2"), ("is", "659f603d")]⟩
    0x65a0b1c2 0x659f603d "deadbeef" (by decide) (by decide)
    (by decide)).2

end ddrv
/-! ## The sequential writer (C1) -/

namespace ddrv

/-- The loop of Write on an open writer whose service accepts every upload:
it ends without error, every chunk it hands over is a full chunk, and the bytes
are kept in order. -/
theorem writeLoop_spec (svc : Service) (hsvc : ∀ b, ∃ node, svc.CreateAttachment b = .ok node)
    (C : Nat) (hC : 0 < C) :
    ∀ (fuel : Nat) (p cur : List Byte) (del : List Chunk), cur.length ≤ C →
      p.length + (if cur.length ≥ C then 1 else 0) ≤ fuel →
      ∃ cur1 full,
        Writer.writeLoop svc fuel
            ⟨C, cur.length, false, some ⟨cur, false⟩, del⟩ p =
          .ok (⟨C, cur1.length, false, some ⟨cur1, false⟩, del ++ full⟩, none) ∧
        cur1.length ≤ C ∧
        (∀ c ∈ full, c.data.length = C ∧ svc.CreateAttachment c.data = .ok c.node) ∧
        (full.map Chunk.data).flatten ++ cur1 = cur ++ p ∧
        (p ≠ [] → cur1 ≠ []) ∧ (p = [] → full = []) := by
  intro fuel
  induction fuel with
  | zero =>
    intro p cur del hcur hfuel
    cases p with
    | nil => exact ⟨cur, [], by simp [Writer.writeLoop], hcur, by simp, by simp, by simp, by simp⟩
    | cons b bs => simp at hfuel
  | succ fuel ih =>
    intro p cur del hcur hfuel
    cases p with
    | nil => exact ⟨cur, [], by simp [Writer.writeLoop], hcur, by simp, by simp, by simp, by simp⟩
    | cons b bs =>
      by_cases hover : cur.length + (b :: bs).length > C
      · -- the chunk is filled and flushed
        have hn : ((b :: bs).take (C - cur.length)).length = C - cur.length := by
          rw [List.length_take]; omega
        obtain ⟨node, hnode⟩ := hsvc (cur ++ (b :: bs).take (C - cur.length))
        have hfuel1 : ((b :: bs).drop (C - cur.length)).length +
            (if ([] : List Byte).length ≥ C then 1 else 0) ≤ fuel := by
          rw [List.length_drop]
          have : ¬ (([] : List Byte).length ≥ C) := by simp; omega
          rw [if_neg this]
          split_ifs at hfuel <;> simp at hfuel ⊢ <;> omega
        obtain ⟨cur1, full, hrun, h1, h2, h3, h4, _⟩ :=
          ih ((b :: bs).drop (C - cur.length)) []
            (del ++ [⟨node, cur ++ (b :: bs).take (C - cur.length)⟩]) (by simp) hfuel1
        refine ⟨cur1, ⟨node, cur ++ (b :: bs).take (C - cur.length)⟩ :: full, ?_, h1, ?_, ?_, ?_,
          by simp⟩
        · simp only [Writer.writeLoop, hover, if_true, PipeWriter.Write, Bool.false_eq_true,
            if_false, Writer.flush, hnode, Writer.next, Bool.not_false, hn]
          rw [if_neg (by omega)]
          simp only [List.length_nil] at hrun
          rw [hrun]
          simp
        · intro c hc
          rcases List.mem_cons.mp hc with rfl | hc
          · refine ⟨?_, hnode⟩
            simp only [List.length_append, hn]
            omega
          · exact h2 c hc
        · simp only [List.map_cons, List.flatten_cons, List.append_assoc]
          rw [h3]
          simp
        · intro _
          apply h4
          intro h
          have := congrArg List.length h
          rw [List.length_drop] at this
          simp at this
          simp at hover
          omega
      · -- the bytes fit in the current chunk
        refine ⟨cur ++ (b :: bs), [], ?_, ?_, by simp, by simp, by simp, by simp⟩
        · simp only [Writer.writeLoop, hover, if_false, PipeWriter.Write, Bool.false_eq_true,
            List.drop_length, List.append_nil, List.length_append]
        · simp only [List.length_append]; omega

end ddrv
namespace ddrv

theorem Write_open (svc : Service) (fuel C : Nat) (cur p : List Byte) (del : List Chunk) :
    Writer.Write svc fuel ⟨C, cur.length, false, some ⟨cur, false⟩, del⟩ p =
      match Writer.writeLoop svc fuel ⟨C, cur.length, false, some ⟨cur, false⟩, del⟩ p with
      | .error f => .error f
      | .ok (w1, err) => .ok (w1, p.length, err) := by
  simp [Writer.Write]

theorem Write_fresh (svc : Service) (fuel C : Nat) (p : List Byte) :
    Writer.Write svc fuel (NewWriter C) p =
      Writer.Write svc fuel ⟨C, ([] : List Byte).length, false, some ⟨[], false⟩, []⟩ p := by
  simp [Writer.Write, NewWriter, Writer.next]

/-- A sequence of Write calls on an open writer whose service accepts every
upload. -/
theorem writeAll_spec (svc : Service) (hsvc : ∀ b, ∃ node, svc.CreateAttachment b = .ok node)
    (C : Nat) (hC : 0 < C) (fuel : Nat) :
    ∀ (writes : List (List Byte)) (cur : List Byte) (del : List Chunk), cur.length ≤ C →
      (∀ p ∈ writes, p.length + 1 ≤ fuel) → (cur = [] → del = []) →
      ∃ cur1 full,
        Writer.writeAll svc fuel ⟨C, cur.length, false, some ⟨cur, false⟩, del⟩ writes =
          .ok (⟨C, cur1.length, false, some ⟨cur1, false⟩, del ++ full⟩, none) ∧
        cur1.length ≤ C ∧
        (∀ c ∈ full, c.data.length = C ∧ svc.CreateAttachment c.data = .ok c.node) ∧
        (full.map Chunk.data).flatten ++ cur1 = cur ++ writes.flatten ∧
        (cur1 = [] → del ++ full = []) := by
  intro writes
  induction writes with
  | nil =>
    intro cur del hcur _ hdel
    exact ⟨cur, [], by simp [Writer.writeAll], hcur, by simp, by simp, by simpa using hdel⟩
  | cons p ps ih =>
    intro cur del hcur hfuel hdel
    have hp : p.length + (if cur.length ≥ C then 1 else 0) ≤ fuel := by
      have := hfuel p (by simp)
      split_ifs <;> omega
    obtain ⟨cur1, full1, hrun1, h1, h2, h3, h4, h5⟩ :=
      writeLoop_spec svc hsvc C hC fuel p cur del hcur hp
    have hdel1 : cur1 = [] → del ++ full1 = [] := by
      intro hc
      by_cases hpe : p = []
      · have hf := h5 hpe
        subst hpe hf
        simp only [List.map_nil, List.flatten_nil, List.nil_append, List.append_nil] at h3
        subst h3
        simpa using hdel hc
      · exact absurd hc (h4 hpe)
    obtain ⟨cur2, full2, hrun2, k1, k2, k3, k4⟩ :=
      ih cur1 (del ++ full1) h1 (fun q hq => hfuel q (by simp [hq])) hdel1
    refine ⟨cur2, full1 ++ full2, ?_, k1, ?_, ?_, ?_⟩
    · simp only [Writer.writeAll, Write_open, hrun1, hrun2, List.append_assoc]
    · intro c hc
      rcases List.mem_append.mp hc with hc | hc
      · exact h2 c hc
      · exact k2 c hc
    · simp only [List.map_append, List.flatten_append, List.append_assoc, List.flatten_cons]
      rw [k3, ← List.append_assoc, h3, List.append_assoc]
    · simpa [List.append_assoc] using k4

theorem sum_length_full (C : Nat) (full : List Chunk) (h : ∀ c ∈ full, c.data.length = C) :
    ((full.map Chunk.data).map List.length).sum = full.length * C := by
  induction full with
  | nil => simp
  | cons c cs ih =>
    simp only [List.map_cons, List.sum_cons, List.length_cons]
    rw [ih (fun x hx => h x (by simp [hx])), h c (by simp)]
    ring

theorem ceil_div_count (C k r : Nat) (hr : 0 < r) (hrC : r ≤ C) :
    (k * C + r + C - 1) / C = k + 1 := by
  apply Nat.div_eq_of_lt_le
  · rw [Nat.add_mul]; omega
  · rw [Nat.succ_mul, Nat.add_mul]; omega

end ddrv
namespace ddrv

/-- A whole session of the sequential writer with at least one Write call, on a
service that accepts every upload: the chunks handed over are full chunks
followed by one last chunk holding the rest. -/
theorem session_spec (svc : Service) (hsvc : ∀ b, ∃ node, svc.CreateAttachment b = .ok node)
    (C : Nat) (hC : 0 < C) (fuel : Nat) (writes : List (List Byte)) (hw : writes ≠ [])
    (hfuel : ∀ p ∈ writes, p.length + 1 ≤ fuel) :
    ∃ w full last,
      Writer.session svc fuel C writes = .ok (w, none) ∧
      w.delivered = full ++ [last] ∧
      (∀ c ∈ full, c.data.length = C) ∧
      last.data.length ≤ C ∧
      (writes.flatten ≠ [] → last.data ≠ []) ∧
      (last.data = [] → full = []) ∧
      (w.delivered.map Chunk.data).flatten = writes.flatten ∧
      (∀ c ∈ w.delivered, svc.CreateAttachment c.data = .ok c.node) := by
  cases writes with
  | nil => exact absurd rfl hw
  | cons p ps =>
    obtain ⟨cur1, full, hrun, h1, h2, h3, h4⟩ :=
      writeAll_spec svc hsvc C hC fuel (p :: ps) [] [] (by simp) hfuel (by simp)
    obtain ⟨node, hnode⟩ := hsvc cur1
    have hfresh : Writer.writeAll svc fuel (NewWriter C) (p :: ps) =
        Writer.writeAll svc fuel ⟨C, ([] : List Byte).length, false, some ⟨[], false⟩, []⟩
          (p :: ps) := by
      simp only [Writer.writeAll, Write_fresh]
    simp only [List.nil_append] at hrun h3 h4
    refine ⟨⟨C, 0, true, some ⟨cur1, true⟩, full ++ [⟨node, cur1⟩]⟩, full, ⟨node, cur1⟩, ?_, rfl,
      fun c hc => (h2 c hc).1, h1, ?_, h4, ?_, ?_⟩
    · simp only [Writer.session, hfresh, hrun, Writer.Close, Bool.false_eq_true, if_false,
        Writer.flush, hnode]
    · intro hne hc
      simp only at hc
      have := h4 hc
      subst this hc
      simp only [List.map_nil, List.flatten_nil, List.append_nil] at h3
      exact hne h3.symm
    · simp only [List.map_append, List.flatten_append, List.map_cons, List.map_nil,
        List.flatten_cons, List.flatten_nil, List.append_nil]
      exact h3
    · intro c hc
      rcases List.mem_append.mp hc with hc | hc
      · exact (h2 c hc).2
      · simp only [List.mem_singleton] at hc
        subst hc
        exact hnode

/-- C1, as stated, fails for the empty stream: one Write call with an empty
slice followed by Close hands one chunk of zero bytes to on_chunk, not
ceil(0/C) = 0 chunks. -/
theorem C1_counterexample_empty_stream :
    ∃ w, Writer.session storeAll 1 1 [[]] = .ok (w, none) ∧
      w.delivered.map Chunk.data = [[]] ∧
      w.delivered.length ≠ (([[]] : List (List Byte)).flatten.length + 1 - 1) / 1 :=
  ⟨_, rfl, rfl, by decide⟩

/-- C1 (amended): for every byte stream of length L delivered to the sequential
Writer through a sequence of at least one Write call followed by Close, every
chunk size C > 0 and every service that accepts the uploads, the session ends
without error and hands ceil(L/C) chunks to on_chunk when L > 0 and one chunk of
zero bytes when L = 0; every chunk except possibly the last holds exactly C
bytes, the chunk sizes sum to L, the payloads concatenated in callback order
equal the input, and each chunk is the node the service returned for its bytes. -/
theorem C1_sequential_chunking (svc : Service)
    (hsvc : ∀ b, ∃ node, svc.CreateAttachment b = .ok node)
    (C : Nat) (hC : 0 < C) (fuel : Nat) (writes : List (List Byte)) (hw : writes ≠ [])
    (hfuel : writes.flatten.length + 1 ≤ fuel) :
    ∃ w, Writer.session svc fuel C writes = .ok (w, none) ∧
      w.delivered.length = max 1 ((writes.flatten.length + C - 1) / C) ∧
      (∀ i (h : i < w.delivered.length), i + 1 < w.delivered.length →
        (w.delivered.get ⟨i, h⟩).data.length = C) ∧
      (w.delivered.map fun c => c.data.length).sum = writes.flatten.length ∧
      (w.delivered.map Chunk.data).flatten = writes.flatten ∧
      (∀ c ∈ w.delivered, svc.CreateAttachment c.data = .ok c.node) := by
  have hfuel1 : ∀ p ∈ writes, p.length + 1 ≤ fuel := by
    intro p hp
    have : p.length ≤ writes.flatten.length := by
      rw [List.length_flatten]
      exact List.single_le_sum (by simp) _ (List.mem_map.mpr ⟨p, hp, rfl⟩)
    omega
  obtain ⟨w, full, last, hrun, hdel, h1, h2, h3, h4, h5, h6⟩ :=
    session_spec svc hsvc C hC fuel writes hw hfuel1
  have hsum : (w.delivered.map fun c => c.data.length).sum = writes.flatten.length := by
    rw [← h5, List.length_flatten, List.map_map]
    rfl
  have hcount : writes.flatten.length = full.length * C + last.data.length := by
    rw [← hsum, hdel]
    have := sum_length_full C full h1
    simp only [List.map_map] at this
    simp only [List.map_append, List.sum_append, List.map_cons, List.map_nil, List.sum_cons,
      List.sum_nil, add_zero]
    rw [← this]
    rfl
  refine ⟨w, hrun, ?_, ?_, hsum, h5, h6⟩
  · rw [hdel, List.length_append, List.length_singleton]
    by_cases hl : last.data = []
    · have hf := h4 hl
      subst hf
      simp only [hl, List.length_nil, zero_mul, add_zero] at hcount
      have : (0 + C - 1) / C = 0 := by
        apply Nat.div_eq_of_lt; omega
      rw [hcount, this]
      simp
    · have hpos : 0 < last.data.length := List.length_pos.mpr hl
      rw [hcount, ceil_div_count C full.length last.data.length hpos h2]
      simp
  · intro i h hi
    rw [hdel, List.length_append, List.length_singleton] at hi
    have hi' : i < full.length := by omega
    have hget : w.delivered.get ⟨i, h⟩ = full.get ⟨i, hi'⟩ := by
      simp only [List.get_eq_getElem, hdel]
      exact List.getElem_append_left hi'
    rw [hget]
    exact h1 _ (List.get_mem _ _ _)

theorem C1_sequential_chunking_witness :
    ∃ w, Writer.session storeAll 9 3 [[1, 2], [3, 4, 5, 6, 7], [8]] = .ok (w, none) ∧
      w.delivered.length =
        max 1 ((([[1, 2], [3, 4, 5, 6, 7], [8]] : List (List Byte)).flatten.length + 3 - 1) / 3) ∧
      (∀ i (h : i < w.delivered.length), i + 1 < w.delivered.length →
        (w.delivered.get ⟨i, h⟩).data.length = 3) ∧
      (w.delivered.map fun c => c.data.length).sum =
        ([[1, 2], [3, 4, 5, 6, 7], [8]] : List (List Byte)).flatten.length ∧
      (w.delivered.map Chunk.data).flatten =
        ([[1, 2], [3, 4, 5, 6, 7], [8]] : List (List Byte)).flatten ∧
      (∀ c ∈ w.delivered, storeAll.CreateAttachment c.data = .ok c.node) :=
  C1_sequential_chunking storeAll (fun b => ⟨_, rfl⟩) 3 (by decide) 9
    [[1, 2], [3, 4, 5, 6, 7], [8]] (by decide) (by decide)

end ddrv
/-! ## The parallel writer (C3, C4) and the reader at the end of the file (C2) -/

namespace ddrv

theorem pipe_Read_nil (k : Nat) : breader.pipe.Read [] k = ([], [], some .EOF) := rfl

theorem pipe_Read_cons (w : List Byte) (ws : List (List Byte)) (k : Nat) :
    breader.pipe.Read (w :: ws) k =
      (if w.drop k = [] then ws else w.drop k :: ws, w.take k, none) := rfl

/-- BReader.Read on the pipe fills the buffer with the next `C` bytes of the
stream, whatever the Write calls they came in, and reports EOF exactly when the
stream ends before the buffer is full. -/
theorem readLoop_pipe (C : Nat) :
    ∀ (pending : List (List Byte)) (fuel : Nat) (cur : List Byte), cur.length ≤ C →
      pending.length + 1 ≤ fuel →
      ∃ pending1,
        breader.readLoop breader.pipe fuel pending C cur =
          .ok (pending1, cur ++ pending.flatten.take (C - cur.length),
            if cur.length + pending.flatten.length < C then some .EOF else none) ∧
        pending1.flatten = pending.flatten.drop (C - cur.length) ∧
        (cur.length + pending.flatten.length < C → pending1 = []) ∧
        (pending = [] → pending1 = []) ∧
        pending1.length ≤ pending.length := by
  intro pending
  induction pending with
  | nil =>
    intro fuel cur hcur hfuel
    obtain ⟨f, rfl⟩ : ∃ f, fuel = f + 1 := ⟨fuel - 1, by omega⟩
    refine ⟨[], ?_, by simp, by simp, by simp, by simp⟩
    by_cases hlt : cur.length < C
    · simp [breader.readLoop, pipe_Read_nil, hlt]
    · simp [breader.readLoop, hlt]
  | cons w ws ih =>
    intro fuel cur hcur hfuel
    obtain ⟨f, rfl⟩ : ∃ f, fuel = f + 1 := ⟨fuel - 1, by omega⟩
    simp only [List.length_cons] at hfuel
    by_cases hlt : cur.length < C
    · by_cases hdrop : w.drop (C - cur.length) = []
      · have hwlen : w.length ≤ C - cur.length := List.drop_eq_nil_iff.mp hdrop
        have htake : w.take (C - cur.length) = w := List.take_of_length_le hwlen
        obtain ⟨p1, hrun, h1, h2, h3, h4⟩ := ih f (cur ++ w)
          (by simp only [List.length_append]; omega) (by omega)
        refine ⟨p1, ?_, ?_, ?_, by simp, by simp only [List.length_cons]; omega⟩
        · simp only [breader.readLoop, hlt, if_true, pipe_Read_cons, hdrop, htake, hrun,
            List.length_append, List.flatten_cons, List.append_assoc]
          have e1 : (w ++ ws.flatten).take (C - cur.length) =
              w ++ ws.flatten.take (C - (cur.length + w.length)) := by
            rw [List.take_append_eq_append_take, htake]
            congr 2
            omega
          have e2 : (cur.length + (w.length + ws.flatten.length) < C) ↔
              (cur.length + w.length + ws.flatten.length < C) := by omega
          rw [e1]
          simp only [e2]
        · rw [h1, List.flatten_cons, List.drop_append_eq_append_drop, hdrop, List.nil_append,
            List.length_append]
          congr 1
          omega
        · intro h
          apply h2
          simp only [List.flatten_cons, List.length_append] at h ⊢
          omega
      · have hwlen : C - cur.length < w.length := by
          by_contra hcon
          exact hdrop (List.drop_eq_nil_iff.mpr (by omega))
        have hfull : ¬ ((cur ++ w.take (C - cur.length)).length < C) := by
          simp only [List.length_append, List.length_take]
          omega
        refine ⟨w.drop (C - cur.length) :: ws, ?_, ?_, ?_, by simp, by simp⟩
        · simp only [breader.readLoop, hlt, if_true, pipe_Read_cons, hdrop, if_false]
          have hres : breader.readLoop breader.pipe f (w.drop (C - cur.length) :: ws) C
              (cur ++ w.take (C - cur.length)) =
              .ok (w.drop (C - cur.length) :: ws, cur ++ w.take (C - cur.length), none) := by
            cases f <;> simp only [breader.readLoop, hfull, if_false]
          rw [hres]
          have e1 : (w :: ws).flatten.take (C - cur.length) = w.take (C - cur.length) := by
            rw [List.flatten_cons, List.take_append_eq_append_take]
            have : C - cur.length - w.length = 0 := by omega
            rw [this]
            simp
          have e2 : ¬ (cur.length + (w :: ws).flatten.length < C) := by
            simp only [List.flatten_cons, List.length_append]
            omega
          rw [e1, if_neg e2]
        · rw [List.flatten_cons, List.flatten_cons, List.drop_append_eq_append_drop]
          have : C - cur.length - w.length = 0 := by omega
          rw [this]
          simp
        · intro h
          simp only [List.flatten_cons, List.length_append] at h
          omega
    · have hC : C - cur.length = 0 := by omega
      refine ⟨w :: ws, ?_, by simp [hC], ?_, by simp, by simp⟩
      · simp only [breader.readLoop, hlt, if_false, hC, List.take_zero, List.append_nil]
        rw [if_neg (by omega)]
      · intro h; omega

end ddrv
namespace ddrv

theorem blocks_nil (C : Nat) : blocks C [] = [] := by
  rw [blocks]; simp

theorem blocks_cons (C : Nat) (hC : 0 < C) (s : List Byte) (hs : s ≠ []) :
    blocks C s = s.take C :: blocks C (s.drop C) := by
  rw [blocks, if_pos ⟨hC, hs⟩]

theorem sum_held_set (ws : List Worker) (i : Nat) (wk x : Worker) (h : ws[i]? = some wk) :
    ((ws.set i x).map Worker.held).sum + wk.held = (ws.map Worker.held).sum + x.held := by
  induction ws generalizing i with
  | nil => simp at h
  | cons a as ih =>
    cases i with
    | zero =>
      simp only [List.getElem?_cons_zero, Option.some.injEq] at h
      subst h
      simp only [List.set_cons_zero, List.map_cons, List.sum_cons]
      abel
    | succ j =>
      simp only [List.getElem?_cons_succ] at h
      have := ih j h
      simp only [List.set_cons_succ, List.map_cons, List.sum_cons]
      rw [add_assoc, this, add_assoc]

theorem mem_set_cases (ws : List Worker) (i : Nat) (x wk : Worker) (h : wk ∈ ws.set i x) :
    wk = x ∨ wk ∈ ws := by
  rcases List.mem_or_eq_of_mem_set h with h | h
  · exact Or.inr h
  · exact Or.inl h

theorem mem_of_getElem? (ws : List Worker) (i : Nat) (wk : Worker) (h : ws[i]? = some wk) :
    wk ∈ ws :=
  List.getElem?_mem h

end ddrv
namespace ddrv

/-- Every atomic step of a worker keeps the invariant of the parallel writer,
when the service accepts every upload. -/
theorem step_inv (svc : Service) (hsvc : ∀ b, ∃ node, svc.CreateAttachment b = .ok node)
    (fuel C : Nat) (hC : 0 < C) (s : List Byte) (w : NWriter) (hinv : NWriter.Inv fuel C s w)
    (i : Nat) :
    ∃ w1, NWriter.step svc fuel w i = .ok w1 ∧ NWriter.Inv fuel C s w1 ∧
      w1.workers.length = w.workers.length := by
  cases hget : w.workers[i]? with
  | none => exact ⟨w, by simp only [NWriter.step, hget], hinv, rfl⟩
  | some wk =>
    have hmem := mem_of_getElem? _ _ _ hget
    cases wk with
    | done => exact ⟨w, by simp only [NWriter.step, hget], hinv, rfl⟩
    | top =>
      obtain ⟨p1, hrun, h1, h2, h3, h4⟩ := readLoop_pipe C w.pipe fuel [] (by simp) hinv.fuel_ok
      simp only [List.length_nil, Nat.sub_zero, List.nil_append, Nat.zero_add] at hrun h1 h2
      have hsum := sum_held_set w.workers i .top
      by_cases hb : (w.pipe.flatten.take C).length > 0
      · -- a buffer was read
        have hne : w.pipe.flatten ≠ [] := by
          intro h; rw [h] at hb; simp at hb
        simp only [NWriter.step, hget, hinv.err_none, ne_eq, not_true_eq_false, if_false,
          breader.Read, hinv.chunkSize_eq, hrun, hb, if_true]
        refine ⟨_, rfl, ?_, by simp⟩
        have hs := hsum (.read (w.pipe.flatten.take C)
          (if w.pipe.flatten.length < C then some .EOF else none)) hget
        simp only [Worker.held, add_zero] at hs
        refine ⟨rfl, hinv.open_, rfl, hinv.delivered_nil, ?_, ?_, ?_, ?_⟩
        · simp only; have := hinv.fuel_ok; omega
        · simp only [hs, h1]
          rw [← hinv.parts, blocks_cons C hC _ hne, ← Multiset.cons_coe,
            ← Multiset.singleton_add]
          abel
        · intro wk hwk hsaw
          simp only at hwk ⊢
          rcases mem_set_cases _ _ _ _ hwk with rfl | hwk
          · apply h2
            simp only [Worker.sawEOF] at hsaw
            by_contra hcon
            rw [if_neg hcon] at hsaw
            exact hsaw rfl
          · exact h3 (hinv.eof_pipe wk hwk hsaw)
        · intro wk hwk
          simp only at hwk
          rcases mem_set_cases _ _ _ _ hwk with rfl | hwk
          · simp only [Worker.errOk]
            split_ifs <;> simp
          · exact hinv.errs wk hwk
      · -- the pipe is closed and empty
        have hflat : w.pipe.flatten = [] := by
          by_contra hcon
          apply hb
          rw [List.length_take]
          have := List.length_pos.mpr hcon
          omega
        have hlt : w.pipe.flatten.length < C := by rw [hflat]; simpa using hC
        have hp1 : p1 = [] := h2 hlt
        simp only [NWriter.step, hget, hinv.err_none, ne_eq, not_true_eq_false, if_false,
          breader.Read, hinv.chunkSize_eq, hrun, hb, hlt, if_true, NWriter.afterChunk]
        refine ⟨_, rfl, ?_, by simp⟩
        have hs := hsum .done hget
        simp only [Worker.held, add_zero] at hs
        refine ⟨rfl, hinv.open_, rfl, hinv.delivered_nil, ?_, ?_, ?_, ?_⟩
        · simp only; have := hinv.fuel_ok; omega
        · simp only [hs, hp1, List.flatten_nil]
          rw [← hinv.parts, hflat]
        · intro wk hwk _
          exact hp1
        · intro wk hwk
          simp only at hwk
          rcases mem_set_cases _ _ _ _ hwk with rfl | hwk
          · simp [Worker.errOk]
          · exact hinv.errs wk hwk
    | read buff err =>
      simp only [NWriter.step, hget]
      refine ⟨_, rfl, ?_, by simp⟩
      have hs := sum_held_set w.workers i (.read buff err)
        (.numbered (w.chunkCounter + 1) buff err) hget
      simp only [Worker.held, add_left_inj] at hs
      refine ⟨hinv.chunkSize_eq, hinv.open_, hinv.err_none, hinv.delivered_nil, hinv.fuel_ok,
        ?_, ?_, ?_⟩
      · simp only [hs]; exact hinv.parts
      · intro wk hwk hsaw
        simp only at hwk ⊢
        rcases mem_set_cases _ _ _ _ hwk with rfl | hwk
        · exact hinv.eof_pipe (.read buff err) hmem hsaw
        · exact hinv.eof_pipe wk hwk hsaw
      · intro wk hwk
        simp only at hwk
        rcases mem_set_cases _ _ _ _ hwk with rfl | hwk
        · exact hinv.errs (.read buff err) hmem
        · exact hinv.errs wk hwk
    | numbered cIdx buff err =>
      obtain ⟨att, hatt⟩ := hsvc buff
      have herrs := hinv.errs _ hmem
      simp only [Worker.errOk] at herrs
      have hparts : ∀ x : Worker, x.held = 0 →
          (↑((w.chunks ++ [({ node := ({ att with Start := cIdx } : Node), data := buff } :
              Chunk)]).map Chunk.data) +
            ((w.workers.set i x).map Worker.held).sum +
            ↑(blocks C w.pipe.flatten) : Multiset (List Byte)) = ↑(blocks C s) := by
        intro x hx
        have hs := sum_held_set w.workers i (.numbered cIdx buff err) x hget
        rw [hx] at hs
        simp only [Worker.held, add_zero] at hs
        rw [← hinv.parts, ← hs]
        simp only [List.map_append, List.map_cons, List.map_nil, ← Multiset.coe_add,
          Multiset.coe_singleton]
        abel
      rcases herrs with rfl | rfl
      · simp only [NWriter.step, hget, hatt, NWriter.afterChunk]
        refine ⟨_, rfl, ?_, by simp⟩
        refine ⟨hinv.chunkSize_eq, hinv.open_, hinv.err_none, hinv.delivered_nil, hinv.fuel_ok,
          hparts .top rfl, ?_, ?_⟩
        · intro wk hwk hsaw
          simp only at hwk ⊢
          rcases mem_set_cases _ _ _ _ hwk with rfl | hwk
          · exact absurd hsaw (by simp [Worker.sawEOF])
          · exact hinv.eof_pipe wk hwk hsaw
        · intro wk hwk
          simp only at hwk
          rcases mem_set_cases _ _ _ _ hwk with rfl | hwk
          · simp [Worker.errOk]
          · exact hinv.errs wk hwk
      · simp only [NWriter.step, hget, hatt, NWriter.afterChunk, ne_eq, not_true_eq_false,
          if_false]
        refine ⟨_, rfl, ?_, by simp⟩
        refine ⟨hinv.chunkSize_eq, hinv.open_, hinv.err_none, hinv.delivered_nil, hinv.fuel_ok,
          hparts .done rfl, ?_, ?_⟩
        · intro wk hwk hsaw
          simp only at hwk ⊢
          exact hinv.eof_pipe _ hmem (by simp [Worker.sawEOF])
        · intro wk hwk
          simp only at hwk
          rcases mem_set_cases _ _ _ _ hwk with rfl | hwk
          · simp [Worker.errOk]
          · exact hinv.errs wk hwk

end ddrv
namespace ddrv

theorem run_inv (svc : Service) (hsvc : ∀ b, ∃ node, svc.CreateAttachment b = .ok node)
    (fuel C : Nat) (hC : 0 < C) (s : List Byte) (schedule : List Nat) :
    ∀ w, NWriter.Inv fuel C s w →
      ∃ w1, NWriter.run svc fuel w schedule = .ok w1 ∧ NWriter.Inv fuel C s w1 ∧
        w1.workers.length = w.workers.length := by
  induction schedule with
  | nil => intro w hinv; exact ⟨w, rfl, hinv, rfl⟩
  | cons i rest ih =>
    intro w hinv
    obtain ⟨w1, hstep, hinv1, hlen1⟩ := step_inv svc hsvc fuel C hC s w hinv i
    obtain ⟨w2, hrun, hinv2, hlen2⟩ := ih w1 hinv1
    exact ⟨w2, by simp only [NWriter.run, hstep, hrun], hinv2, by omega⟩

theorem foldl_Write (writes : List (List Byte)) (w : NWriter) (hc : w.closed = false)
    (he : w.err = none) :
    writes.foldl (fun w p => (NWriter.Write w p).1) w = { w with pipe := w.pipe ++ writes } := by
  induction writes generalizing w with
  | nil => simp
  | cons p ps ih =>
    simp only [List.foldl_cons]
    have h1 : (NWriter.Write w p).1 = { w with pipe := w.pipe ++ [p] } := by
      simp [NWriter.Write, hc, he]
    rw [h1, ih { w with pipe := w.pipe ++ [p] } hc he]
    simp

theorem inv_start (fuel C K : Nat) (writes : List (List Byte)) (hfuel : writes.length + 1 ≤ fuel) :
    NWriter.Inv fuel C writes.flatten
      (writes.foldl (fun w p => (NWriter.Write w p).1) (NewNWriter C K)) := by
  rw [foldl_Write writes (NewNWriter C K) rfl rfl]
  refine ⟨rfl, rfl, rfl, rfl, ?_, ?_, ?_, ?_⟩
  · simpa [NewNWriter] using hfuel
  · simp [NewNWriter, Worker.held]
  · intro wk hwk hsaw
    simp only [NewNWriter] at hwk
    have := List.eq_of_mem_replicate hwk
    subst this
    exact absurd hsaw (by simp [Worker.sawEOF])
  · intro wk hwk
    simp only [NewNWriter] at hwk
    have := List.eq_of_mem_replicate hwk
    subst this
    simp [Worker.errOk]

theorem held_sum_done (ws : List Worker) (h : ∀ wk ∈ ws, wk = .done) :
    (ws.map Worker.held).sum = 0 := by
  induction ws with
  | nil => simp
  | cons a as ih =>
    have ha := h a (by simp)
    subst ha
    simp only [List.map_cons, List.sum_cons, Worker.held, zero_add]
    exact ih (fun wk hwk => h wk (by simp [hwk]))

/-- The blocks of a stream are the only way to cut it into full chunks followed
by a last chunk that is neither empty nor too long. -/
theorem blocks_unique (C : Nat) (hC : 0 < C) (full : List (List Byte)) (last : List Byte)
    (hfull : ∀ c ∈ full, c.length = C) (hpos : last ≠ []) (hle : last.length ≤ C) :
    blocks C (full.flatten ++ last) = full ++ [last] := by
  induction full with
  | nil =>
    simp only [List.flatten_nil, List.nil_append]
    rw [blocks_cons C hC last hpos, List.take_of_length_le hle, List.drop_eq_nil_of_le hle,
      blocks_nil]
  | cons a rest ih =>
    have ha : a.length = C := hfull a (by simp)
    have hne : (a :: rest).flatten ++ last ≠ [] := by simp [hpos]
    rw [blocks_cons C hC _ hne]
    have e1 : ((a :: rest).flatten ++ last).take C = a := by
      rw [List.flatten_cons, List.append_assoc, List.take_append_eq_append_take, ha,
        List.take_of_length_le (by omega)]
      simp
    have e2 : ((a :: rest).flatten ++ last).drop C = rest.flatten ++ last := by
      rw [List.flatten_cons, List.append_assoc, List.drop_append_eq_append_drop, ha,
        List.drop_eq_nil_of_le (by omega)]
      simp
    rw [e1, e2, ih (fun c hc => hfull c (by simp [hc]))]
    simp

end ddrv
namespace ddrv

/-- The sequential writer hands over the blocks of a non-empty stream. -/
theorem session_blocks (svc : Service) (hsvc : ∀ b, ∃ node, svc.CreateAttachment b = .ok node)
    (C : Nat) (hC : 0 < C) (fuel : Nat) (writes : List (List Byte))
    (hne : writes.flatten ≠ []) (hfuel : ∀ p ∈ writes, p.length + 1 ≤ fuel) :
    ∃ w, Writer.session svc fuel C writes = .ok (w, none) ∧
      w.delivered.map Chunk.data = blocks C writes.flatten := by
  have hw : writes ≠ [] := by
    intro h; rw [h] at hne; simp at hne
  obtain ⟨w, full, last, hrun, hdel, h1, h2, h3, _, h5, _⟩ :=
    session_spec svc hsvc C hC fuel writes hw hfuel
  refine ⟨w, hrun, ?_⟩
  have hflat : (full.map Chunk.data).flatten ++ last.data = writes.flatten := by
    rw [← h5, hdel]; simp
  rw [← hflat, blocks_unique C hC (full.map Chunk.data) last.data ?_ (h3 hne) h2, hdel]
  · simp
  · intro c hc
    obtain ⟨x, hx, rfl⟩ := List.mem_map.mp hc
    exact h1 x hx

/-- A session of the parallel writer that returns: the workers have emptied the
pipe, and the result is that of Close. -/
theorem session_returned (svc : Service) (fuel C K : Nat) (writes : List (List Byte))
    (schedule : List Nat) (nw : NWriter) (e : Option Error)
    (h : NWriter.session svc fuel C K writes schedule = .ok (nw, e)) :
    ∃ w1, NWriter.run svc fuel
        (writes.foldl (fun w p => (NWriter.Write w p).1) (NewNWriter C K)) schedule = .ok w1 ∧
      w1.pipe = [] ∧ NWriter.Close w1 = .ok (nw, e) := by
  unfold NWriter.session at h
  simp only at h
  rcases hr : NWriter.run svc fuel
      (writes.foldl (fun w p => (NWriter.Write w p).1) (NewNWriter C K)) schedule with f | w1
  · simp only [hr] at h
    cases h
  · simp only [hr] at h
    by_cases hp : w1.pipe = []
    · rw [if_pos hp] at h
      exact ⟨w1, rfl, hp, h⟩
    · rw [if_neg hp] at h
      cases h

theorem session_of_run (svc : Service) (fuel C K : Nat) (writes : List (List Byte))
    (schedule : List Nat) (w1 : NWriter)
    (hr : NWriter.run svc fuel
        (writes.foldl (fun w p => (NWriter.Write w p).1) (NewNWriter C K)) schedule = .ok w1)
    (hp : w1.pipe = []) :
    NWriter.session svc fuel C K writes schedule = NWriter.Close w1 := by
  unfold NWriter.session
  simp only [hr, if_pos hp]

/-- A session of the parallel writer that returns has recorded no error and has
handed over, in some order, the blocks of the stream. -/
theorem nsession_blocks (svc : Service) (hsvc : ∀ b, ∃ node, svc.CreateAttachment b = .ok node)
    (C : Nat) (hC : 0 < C) (K : Nat) (hK : 0 < K) (fuel : Nat) (writes : List (List Byte))
    (hfuel : writes.length + 1 ≤ fuel) (schedule : List Nat) (nw : NWriter) (e : Option Error)
    (hrun : NWriter.session svc fuel C K writes schedule = .ok (nw, e)) :
    e = none ∧ (nw.delivered.map Chunk.data).Perm (blocks C writes.flatten) := by
  have hinv0 := inv_start fuel C K writes hfuel
  obtain ⟨w1, hrun1, hinv, hlen⟩ := run_inv svc hsvc fuel C hC writes.flatten schedule _ hinv0
  have hlenK : w1.workers.length = K := by
    rw [hlen, foldl_Write writes (NewNWriter C K) rfl rfl]
    simp [NewNWriter]
  obtain ⟨w1', hr', _, hrun⟩ := session_returned svc fuel C K writes schedule nw e hrun
  rw [hrun1] at hr'
  simp only [Except.ok.injEq] at hr'
  subst hr'
  simp only [NWriter.Close, hinv.open_, Bool.false_eq_true, if_false] at hrun
  by_cases hall : w1.workers.all (· == .done) = true
  · rw [if_pos hall] at hrun
    simp only [Except.ok.injEq, Prod.mk.injEq] at hrun
    obtain ⟨hnw, he⟩ := hrun
    have hdone : ∀ wk ∈ w1.workers, wk = .done := by
      intro wk hwk
      have := List.all_eq_true.mp hall wk hwk
      simpa using this
    obtain ⟨wk, hwk⟩ : ∃ wk, wk ∈ w1.workers := by
      cases hws : w1.workers with
      | nil => rw [hws] at hlenK; simp at hlenK; omega
      | cons a _ => exact ⟨a, by simp⟩
    have hpipe : w1.pipe = [] := by
      apply hinv.eof_pipe wk hwk
      rw [hdone wk hwk]
      simp [Worker.sawEOF]
    have hparts := hinv.parts
    rw [held_sum_done _ hdone, hpipe, List.flatten_nil, blocks_nil] at hparts
    simp only [add_zero, Multiset.coe_nil] at hparts
    have hperm : (w1.chunks.map Chunk.data).Perm (blocks C writes.flatten) :=
      Multiset.coe_eq_coe.mp hparts
    refine ⟨by rw [← he]; exact hinv.err_none, ?_⟩
    rw [← hnw]
    simp only [hinv.delivered_nil, List.nil_append]
    exact ((List.perm_insertionSort _ w1.chunks).map Chunk.data).trans hperm
  · rw [if_neg hall] at hrun
    cases hrun

end ddrv
namespace ddrv

/-- A step of a worker that is not done changes that worker alone and brings it
nearer to the end of its work. -/
theorem step_progress (svc : Service) (fuel C : Nat) (hC : 0 < C) (s : List Byte) (w : NWriter)
    (hinv : NWriter.Inv fuel C s w) (i : Nat) (wk : Worker) (hget : w.workers[i]? = some wk)
    (hnd : wk ≠ .done) :
    ∃ w1 x, NWriter.step svc fuel w i = .ok w1 ∧ w1.workers = w.workers.set i x ∧
      (x = .done ∨ 3 * w1.pipe.flatten.length + x.phase < 3 * w.pipe.flatten.length + wk.phase) ∧
      w1.pipe.flatten.length ≤ w.pipe.flatten.length := by
  cases wk with
  | done => exact absurd rfl hnd
  | top =>
    obtain ⟨p1, hrun, h1, h2, h3, h4⟩ := readLoop_pipe C w.pipe fuel [] (by simp) hinv.fuel_ok
    simp only [List.length_nil, Nat.sub_zero, List.nil_append, Nat.zero_add] at hrun h1 h2
    by_cases hb : (w.pipe.flatten.take C).length > 0
    · have hpos : 0 < w.pipe.flatten.length := by
        rw [List.length_take] at hb; omega
      simp only [NWriter.step, hget, hinv.err_none, ne_eq, not_true_eq_false, if_false,
        breader.Read, hinv.chunkSize_eq, hrun, hb, if_true]
      refine ⟨_, _, rfl, rfl, Or.inr ?_, ?_⟩
      · simp only [h1, List.length_drop, Worker.phase]
        omega
      · simp only [h1, List.length_drop]
        omega
    · have hflat : w.pipe.flatten = [] := by
        by_contra hcon
        apply hb
        rw [List.length_take]
        have := List.length_pos.mpr hcon
        omega
      have hlt : w.pipe.flatten.length < C := by rw [hflat]; simpa using hC
      simp only [NWriter.step, hget, hinv.err_none, ne_eq, not_true_eq_false, if_false,
        breader.Read, hinv.chunkSize_eq, hrun, hb, hlt, if_true, NWriter.afterChunk]
      refine ⟨_, _, rfl, rfl, Or.inl rfl, ?_⟩
      simp [h2 hlt]
  | read buff err =>
    simp only [NWriter.step, hget]
    refine ⟨_, _, rfl, rfl, Or.inr ?_, le_refl _⟩
    simp only [Worker.phase]
    omega
  | numbered cIdx buff err =>
    cases hatt : svc.CreateAttachment buff with
    | error werr =>
      simp only [NWriter.step, hget, hatt]
      exact ⟨_, _, rfl, rfl, Or.inl rfl, le_refl _⟩
    | ok att =>
      cases err with
      | none =>
        simp only [NWriter.step, hget, hatt, NWriter.afterChunk]
        refine ⟨_, _, rfl, rfl, Or.inr ?_, le_refl _⟩
        simp only [Worker.phase]
        omega
      | some e0 =>
        simp only [NWriter.step, hget, hatt, NWriter.afterChunk]
        exact ⟨_, _, rfl, rfl, Or.inl rfl, le_refl _⟩

theorem step_done (svc : Service) (fuel : Nat) (w : NWriter) (i : Nat)
    (hget : w.workers[i]? = some .done) : NWriter.step svc fuel w i = .ok w := by
  simp only [NWriter.step, hget]

/-- A worker that takes enough steps on its own gets done, and leaves the other
workers as they were. -/
theorem run_alone (svc : Service) (hsvc : ∀ b, ∃ node, svc.CreateAttachment b = .ok node)
    (fuel C : Nat) (hC : 0 < C) (s : List Byte) (i : Nat) :
    ∀ (n : Nat) (w : NWriter) (wk : Worker), NWriter.Inv fuel C s w →
      w.workers[i]? = some wk →
      (wk = .done ∨ 3 * w.pipe.flatten.length + wk.phase < n) →
      ∃ w1, NWriter.run svc fuel w (List.replicate n i) = .ok w1 ∧ NWriter.Inv fuel C s w1 ∧
        w1.workers[i]? = some .done ∧ (∀ j, j ≠ i → w1.workers[j]? = w.workers[j]?) ∧
        w1.pipe.flatten.length ≤ w.pipe.flatten.length := by
  intro n
  induction n with
  | zero =>
    intro w wk hinv hget hm
    rcases hm with rfl | hm
    · exact ⟨w, rfl, hinv, hget, fun _ _ => rfl, le_refl _⟩
    · omega
  | succ n ih =>
    intro w wk hinv hget hm
    by_cases hd : wk = .done
    · subst hd
      obtain ⟨w1, hrun, hinv1, hg1, hothers, hle⟩ := ih w .done hinv hget (Or.inl rfl)
      exact ⟨w1, by simp only [List.replicate_succ, NWriter.run, step_done svc fuel w i hget, hrun],
        hinv1, hg1, hothers, hle⟩
    · obtain ⟨w1, x, hstep, hws, hmeas, hle⟩ := step_progress svc fuel C hC s w hinv i wk hget hd
      obtain ⟨w1', hstep', hinv1, _⟩ := step_inv svc hsvc fuel C hC s w hinv i
      have hw1 : w1' = w1 := by
        rw [hstep] at hstep'
        simpa using hstep'.symm
      subst hw1
      have hilt : i < w.workers.length := by
        rcases List.getElem?_eq_some.mp hget with ⟨h, _⟩
        exact h
      have hget1 : w1'.workers[i]? = some x := by
        rw [hws]
        simp [List.getElem?_set_self, hilt]
      have hm1 : x = .done ∨ 3 * w1'.pipe.flatten.length + x.phase < n := by
        rcases hmeas with h | h
        · exact Or.inl h
        · rcases hm with h0 | h0
          · exact absurd h0 hd
          · right; omega
      obtain ⟨w2, hrun, hinv2, hg2, hothers, hle2⟩ := ih w1' x hinv1 hget1 hm1
      refine ⟨w2, by simp only [List.replicate_succ, NWriter.run, hstep, hrun], hinv2, hg2, ?_,
        by omega⟩
      intro j hj
      rw [hothers j hj, hws, List.getElem?_set_ne (Ne.symm hj)]

theorem run_append (svc : Service) (fuel : Nat) (s1 s2 : List Nat) (w w1 : NWriter)
    (h : NWriter.run svc fuel w s1 = .ok w1) :
    NWriter.run svc fuel w (s1 ++ s2) = NWriter.run svc fuel w1 s2 := by
  induction s1 generalizing w with
  | nil =>
    simp only [NWriter.run, Except.ok.injEq] at h
    subst h; rfl
  | cons i rest ih =>
    simp only [NWriter.run, List.cons_append] at h ⊢
    cases hstep : NWriter.step svc fuel w i with
    | error f => rw [hstep] at h; cases h
    | ok w0 =>
      rw [hstep] at h
      simp only at h ⊢
      exact ih w0 h

/-- Letting the workers run one after the other, each for `n` steps, gets the
first `k` of them done. -/
theorem run_oneByOne (svc : Service) (hsvc : ∀ b, ∃ node, svc.CreateAttachment b = .ok node)
    (fuel C : Nat) (hC : 0 < C) (s : List Byte) (n : Nat) (w : NWriter)
    (hinv : NWriter.Inv fuel C s w) (hn : 3 * w.pipe.flatten.length < n)
    (htop : ∀ j, j < w.workers.length → w.workers[j]? = some .top) :
    ∀ k, k ≤ w.workers.length →
      ∃ w1, NWriter.run svc fuel w (oneByOne k n) = .ok w1 ∧ NWriter.Inv fuel C s w1 ∧
        w1.workers.length = w.workers.length ∧
        (∀ j, j < k → w1.workers[j]? = some .done) ∧
        (∀ j, k ≤ j → j < w.workers.length → w1.workers[j]? = some .top) ∧
        w1.pipe.flatten.length ≤ w.pipe.flatten.length := by
  intro k
  induction k with
  | zero =>
    intro _
    exact ⟨w, rfl, hinv, rfl, fun j hj => by omega, fun j _ hj => htop j hj, le_refl _⟩
  | succ k ih =>
    intro hk
    obtain ⟨w1, hrun1, hinv1, hlen1, hdone1, htop1, hle1⟩ := ih (by omega)
    have hgetk : w1.workers[k]? = some .top := htop1 k (le_refl _) (by omega)
    obtain ⟨w2, hrun2, hinv2, hg2, hothers, hle2⟩ :=
      run_alone svc hsvc fuel C hC s k n w1 .top hinv1 hgetk
        (Or.inr (by simp only [Worker.phase]; omega))
    have hsched : oneByOne (k + 1) n = oneByOne k n ++ List.replicate n k := by
      simp [oneByOne, List.range_succ]
    refine ⟨w2, by rw [hsched, run_append svc fuel _ _ w w1 hrun1, hrun2], hinv2, ?_, ?_, ?_,
      by omega⟩
    · obtain ⟨w2', hr, _, hl⟩ := run_inv svc hsvc fuel C hC s (List.replicate n k) w1 hinv1
      rw [hrun2] at hr
      simp only [Except.ok.injEq] at hr
      subst hr
      omega
    · intro j hj
      by_cases hjk : j = k
      · subst hjk; exact hg2
      · rw [hothers j hjk]; exact hdone1 j (by omega)
    · intro j hj hjl
      rw [hothers j (by omega)]
      exact htop1 j (by omega) hjl

end ddrv
namespace ddrv

/-- With at least one worker there is a schedule on which the session of the
parallel writer returns, without error. -/
theorem nsession_returns (svc : Service) (hsvc : ∀ b, ∃ node, svc.CreateAttachment b = .ok node)
    (C : Nat) (hC : 0 < C) (K : Nat) (hK : 0 < K) (fuel : Nat) (writes : List (List Byte))
    (hfuel : writes.length + 1 ≤ fuel) :
    ∃ nw, NWriter.session svc fuel C K writes (oneByOne K (3 * writes.flatten.length + 1)) =
      .ok (nw, none) := by
  have hinv0 := inv_start fuel C K writes hfuel
  have hw0 := foldl_Write writes (NewNWriter C K) rfl rfl
  have hws : (writes.foldl (fun w p => (NWriter.Write w p).1) (NewNWriter C K)).workers =
      List.replicate K .top := by rw [hw0]; rfl
  have hpipe : (writes.foldl (fun w p => (NWriter.Write w p).1) (NewNWriter C K)).pipe =
      writes := by rw [hw0]; simp [NewNWriter]
  obtain ⟨w1, hrun, hinv, hlen, hdone, _, _⟩ :=
    run_oneByOne svc hsvc fuel C hC writes.flatten (3 * writes.flatten.length + 1) _ hinv0
      (by rw [hpipe]; omega)
      (by
        intro j hj
        rw [hws] at hj ⊢
        simp only [List.length_replicate] at hj
        simp [List.getElem?_replicate, hj])
      K (by rw [hws]; simp)
  have hlenK : w1.workers.length = K := by rw [hlen, hws]; simp
  have hall : w1.workers.all (· == .done) = true := by
    rw [List.all_eq_true]
    intro wk hwk
    obtain ⟨j, hj, hjw⟩ := List.getElem_of_mem hwk
    have := hdone j (by omega)
    rw [List.getElem?_eq_getElem hj, hjw] at this
    simp only [Option.some.injEq] at this
    simp [this]
  have hpipe1 : w1.pipe = [] := by
    have h0 := hdone 0 hK
    apply hinv.eof_pipe .done (List.getElem?_mem h0)
    simp [Worker.sawEOF]
  rw [session_of_run svc fuel C K writes _ w1 hrun hpipe1]
  simp only [NWriter.Close, hinv.open_, Bool.false_eq_true, if_false, hall, if_true,
    hinv.err_none]
  exact ⟨_, rfl⟩

/-- C3, as stated, fails twice. For the empty stream written with one Write call
the sequential Writer hands over one chunk of zero bytes and the parallel writer
none. And with two workers, when the worker that read the second block takes its
sequence number first, the chunks in sequence-number order concatenate to the
bytes in the wrong order. -/
theorem C3_counterexample_empty_and_race :
    (∃ w nw, Writer.session storeAll 2 1 [[]] = .ok (w, none) ∧
      NWriter.session storeAll 2 1 2 [[]] [0, 1] = .ok (nw, none) ∧
      ¬ (nw.delivered.map Chunk.data).Perm (w.delivered.map Chunk.data)) ∧
    (∃ w nw, Writer.session storeAll 3 1 [[1, 2]] = .ok (w, none) ∧
      NWriter.session storeAll 3 1 2 [[1, 2]] [0, 1, 1, 0, 1, 0, 0, 1] = .ok (nw, none) ∧
      nw.delivered.map (fun c => c.node.Start) = [1, 2] ∧
      (nw.delivered.map Chunk.data).flatten ≠ (w.delivered.map Chunk.data).flatten) :=
  ⟨⟨_, _, rfl, rfl, by decide⟩, ⟨_, _, rfl, rfl, rfl, by decide⟩⟩

theorem sum_number_set (ws : List Worker) (i : Nat) (wk x : Worker) (h : ws[i]? = some wk) :
    ((ws.set i x).map Worker.number).sum + wk.number =
      (ws.map Worker.number).sum + x.number := by
  induction ws generalizing i with
  | nil => simp at h
  | cons a as ih =>
    cases i with
    | zero =>
      simp only [List.getElem?_cons_zero, Option.some.injEq] at h
      subst h
      simp only [List.set_cons_zero, List.map_cons, List.sum_cons]
      abel
    | succ j =>
      simp only [List.getElem?_cons_succ] at h
      have := ih j h
      simp only [List.set_cons_succ, List.map_cons, List.sum_cons]
      rw [add_assoc, this, add_assoc]

theorem number_sum_done (ws : List Worker) (h : ∀ wk ∈ ws, wk = .done) :
    (ws.map Worker.number).sum = 0 := by
  induction ws with
  | nil => simp
  | cons a as ih =>
    have ha := h a (by simp)
    subst ha
    simp only [List.map_cons, List.sum_cons, Worker.number, zero_add]
    exact ih (fun wk hwk => h wk (by simp [hwk]))

/-- On a service that accepts every upload, a step of a worker keeps the
sequence numbers in use: those of the chunks recorded and those held by the
workers are the numbers 1 to `chunkCounter`, each once. -/
theorem step_numbers (svc : Service) (hsvc : ∀ b, ∃ node, svc.CreateAttachment b = .ok node)
    (fuel : Nat) (w w1 : NWriter) (i : Nat) (n : Nat) (hcnt : w.chunkCounter = n)
    (hnum : (↑(w.chunks.map (fun c => c.node.Start)) + (w.workers.map Worker.number).sum :
      Multiset Int) = ↑((List.range n).map (fun (j : Nat) => (j : Int) + 1)))
    (hstep : NWriter.step svc fuel w i = .ok w1) :
    ∃ n1 : Nat, w1.chunkCounter = n1 ∧
      (↑(w1.chunks.map (fun c => c.node.Start)) + (w1.workers.map Worker.number).sum :
        Multiset Int) = ↑((List.range n1).map (fun (j : Nat) => (j : Int) + 1)) := by
  have hafter : ∀ (v : NWriter) (e : Option Error), ∃ x : Worker, x.number = 0 ∧
      (NWriter.afterChunk v i e).workers = v.workers.set i x ∧
      (NWriter.afterChunk v i e).chunks = v.chunks ∧
      (NWriter.afterChunk v i e).chunkCounter = v.chunkCounter := by
    intro v e
    cases e with
    | none => exact ⟨.top, rfl, rfl, rfl, rfl⟩
    | some e => exact ⟨.done, rfl, rfl, rfl, rfl⟩
  unfold NWriter.step at hstep
  rcases hwk : w.workers[i]? with _ | wk
  · simp only [hwk] at hstep
    cases hstep
    exact ⟨n, hcnt, hnum⟩
  · cases wk with
    | done =>
      simp only [hwk] at hstep
      cases hstep
      exact ⟨n, hcnt, hnum⟩
    | top =>
      simp only [hwk] at hstep
      by_cases he : w.err ≠ none
      · rw [if_pos he] at hstep
        cases hstep
        refine ⟨n, hcnt, ?_⟩
        have := sum_number_set w.workers i .top .done hwk
        simp only [Worker.number, add_zero] at this
        show (↑(w.chunks.map (fun c => c.node.Start)) +
          ((w.workers.set i .done).map Worker.number).sum : Multiset Int) = _
        rw [this]
        exact hnum
      · rw [if_neg he] at hstep
        rcases hr : breader.Read breader.pipe fuel w.pipe w.chunkSize with f | ⟨pipe1, buff, err⟩
        · simp only [hr] at hstep
          cases hstep
        · simp only [hr] at hstep
          by_cases hb : buff.length > 0
          · rw [if_pos hb] at hstep
            cases hstep
            refine ⟨n, hcnt, ?_⟩
            have := sum_number_set w.workers i .top (.read buff err) hwk
            simp only [Worker.number, add_zero] at this
            show (↑(w.chunks.map (fun c => c.node.Start)) +
              ((w.workers.set i (.read buff err)).map Worker.number).sum : Multiset Int) = _
            rw [this]
            exact hnum
          · rw [if_neg hb] at hstep
            cases hstep
            obtain ⟨x, hx, a1, a2, a3⟩ := hafter { w with pipe := pipe1 } err
            refine ⟨n, by rw [a3]; exact hcnt, ?_⟩
            have := sum_number_set w.workers i .top x hwk
            rw [hx] at this
            simp only [Worker.number, add_zero] at this
            rw [a1, a2]
            show (↑(w.chunks.map (fun c => c.node.Start)) +
              ((w.workers.set i x).map Worker.number).sum : Multiset Int) = _
            rw [this]
            exact hnum
    | read buff err =>
      simp only [hwk] at hstep
      cases hstep
      refine ⟨n + 1, by show w.chunkCounter + 1 = _; rw [hcnt]; push_cast; rfl, ?_⟩
      have := sum_number_set w.workers i (.read buff err) (.numbered (w.chunkCounter + 1) buff err)
        hwk
      simp only [Worker.number, add_zero] at this
      show (↑(w.chunks.map (fun c => c.node.Start)) +
        ((w.workers.set i (.numbered (w.chunkCounter + 1) buff err)).map Worker.number).sum :
          Multiset Int) = _
      rw [this, ← add_assoc, hnum, hcnt, List.range_succ, List.map_append]
      rfl
    | numbered cIdx buff err =>
      simp only [hwk] at hstep
      obtain ⟨attachment, hs⟩ := hsvc buff
      simp only [hs] at hstep
      cases hstep
      obtain ⟨x, hx, a1, a2, a3⟩ := hafter
        { w with chunks := w.chunks ++ [{ node := { attachment with Start := cIdx },
                                          data := buff }] } err
      refine ⟨n, by rw [a3]; exact hcnt, ?_⟩
      have := sum_number_set w.workers i (.numbered cIdx buff err) x hwk
      rw [hx] at this
      simp only [Worker.number, add_zero] at this
      rw [a1, a2]
      show (↑((w.chunks ++ [({ node := { attachment with Start := cIdx }, data := buff } :
          Chunk)]).map (fun c => c.node.Start)) +
        ((w.workers.set i x).map Worker.number).sum : Multiset Int) = _
      rw [← hnum, ← this, List.map_append, ← Multiset.coe_add]
      simp only [List.map_cons, List.map_nil, Multiset.coe_singleton]
      abel

/-- What a step of a worker keeps true of the parallel writer: every chunk
recorded is the node that the service returned for its bytes, with the sequence
number in `Start`; nothing has been handed to `onChunk`; the writer is open. -/
theorem step_nodes (svc : Service) (fuel : Nat) (w w1 : NWriter) (i : Nat)
    (hn : ∀ c ∈ w.chunks, ∃ att, svc.CreateAttachment c.data = .ok att ∧
      c.node = { att with Start := c.node.Start })
    (hd : w.delivered = []) (hc : w.closed = false)
    (hstep : NWriter.step svc fuel w i = .ok w1) :
    (∀ c ∈ w1.chunks, ∃ att, svc.CreateAttachment c.data = .ok att ∧
      c.node = { att with Start := c.node.Start }) ∧
    w1.delivered = [] ∧ w1.closed = false := by
  have hafter : ∀ (v : NWriter) (e : Option Error),
      (NWriter.afterChunk v i e).chunks = v.chunks ∧
      (NWriter.afterChunk v i e).delivered = v.delivered ∧
      (NWriter.afterChunk v i e).closed = v.closed := by
    intro v e
    cases e <;> exact ⟨rfl, rfl, rfl⟩
  unfold NWriter.step at hstep
  rcases hwk : w.workers[i]? with _ | wk
  · simp only [hwk] at hstep
    cases hstep
    exact ⟨hn, hd, hc⟩
  · cases wk with
    | done =>
      simp only [hwk] at hstep
      cases hstep
      exact ⟨hn, hd, hc⟩
    | top =>
      simp only [hwk] at hstep
      by_cases he : w.err ≠ none
      · rw [if_pos he] at hstep
        cases hstep
        exact ⟨hn, hd, hc⟩
      · rw [if_neg he] at hstep
        rcases hr : breader.Read breader.pipe fuel w.pipe w.chunkSize with f | ⟨pipe1, buff, err⟩
        · simp only [hr] at hstep
          cases hstep
        · simp only [hr] at hstep
          by_cases hb : buff.length > 0
          · rw [if_pos hb] at hstep
            cases hstep
            exact ⟨hn, hd, hc⟩
          · rw [if_neg hb] at hstep
            cases hstep
            obtain ⟨a1, a2, a3⟩ := hafter { w with pipe := pipe1 } err
            rw [a1, a2, a3]
            exact ⟨hn, hd, hc⟩
    | read buff err =>
      simp only [hwk] at hstep
      cases hstep
      exact ⟨hn, hd, hc⟩
    | numbered cIdx buff err =>
      simp only [hwk] at hstep
      rcases hs : svc.CreateAttachment buff with werr | attachment
      · simp only [hs] at hstep
        cases hstep
        exact ⟨hn, hd, hc⟩
      · simp only [hs] at hstep
        cases hstep
        obtain ⟨a1, a2, a3⟩ := hafter
          { w with chunks := w.chunks ++ [{ node := { attachment with Start := cIdx },
                                            data := buff }] } err
        rw [a1, a2, a3]
        refine ⟨?_, hd, hc⟩
        intro c hcm
        simp only [List.mem_append, List.mem_singleton] at hcm
        rcases hcm with hcm | hcm
        · exact hn c hcm
        · subst hcm
          exact ⟨attachment, hs, rfl⟩

theorem run_nodes (svc : Service) (fuel : Nat) (schedule : List Nat) :
    ∀ (w w1 : NWriter),
      (∀ c ∈ w.chunks, ∃ att, svc.CreateAttachment c.data = .ok att ∧
        c.node = { att with Start := c.node.Start }) →
      w.delivered = [] → w.closed = false →
      NWriter.run svc fuel w schedule = .ok w1 →
      (∀ c ∈ w1.chunks, ∃ att, svc.CreateAttachment c.data = .ok att ∧
        c.node = { att with Start := c.node.Start }) ∧
      w1.delivered = [] ∧ w1.closed = false := by
  induction schedule with
  | nil =>
    intro w w1 hn hd hc hrun
    cases hrun
    exact ⟨hn, hd, hc⟩
  | cons i rest ih =>
    intro w w1 hn hd hc hrun
    simp only [NWriter.run] at hrun
    rcases hs : NWriter.step svc fuel w i with f | w2
    · simp only [hs] at hrun
      cases hrun
    · simp only [hs] at hrun
      obtain ⟨h1, h2, h3⟩ := step_nodes svc fuel w w2 i hn hd hc hs
      exact ih w2 w1 h1 h2 h3 hrun

/-- A session of the parallel writer that returns has handed to `onChunk`, in
the order of their sequence numbers, chunks that are each the node that the
service returned for its bytes, with the sequence number in `Start`. -/
theorem nsession_nodes (svc : Service) (fuel C K : Nat) (writes : List (List Byte))
    (schedule : List Nat) (nw : NWriter) (e : Option Error)
    (hrun : NWriter.session svc fuel C K writes schedule = .ok (nw, e)) :
    (∀ c ∈ nw.delivered, ∃ att, svc.CreateAttachment c.data = .ok att ∧
      c.node = { att with Start := c.node.Start }) ∧
    (nw.delivered.map (fun c => c.node.Start)).Sorted (· ≤ ·) := by
  have hw0 := foldl_Write writes (NewNWriter C K) rfl rfl
  obtain ⟨w1, hr, _, hrun⟩ := session_returned svc fuel C K writes schedule nw e hrun
  · obtain ⟨h1, h2, h3⟩ := run_nodes svc fuel schedule _ w1
      (by rw [hw0]; intro c hc; cases hc) (by rw [hw0]; rfl) (by rw [hw0]; rfl) hr
    unfold NWriter.Close at hrun
    rw [h3] at hrun
    simp only [Bool.false_eq_true, if_false] at hrun
    split at hrun
    · cases hrun
      simp only [h2, List.nil_append]
      constructor
      · intro c hc
        exact h1 c ((List.perm_insertionSort _ _).mem_iff.mp hc)
      · haveI : IsTotal Chunk (fun a b => a.node.Start ≤ b.node.Start) :=
          ⟨fun a b => le_total a.node.Start b.node.Start⟩
        haveI : IsTrans Chunk (fun a b => a.node.Start ≤ b.node.Start) :=
          ⟨fun a b c hab hbc => le_trans hab hbc⟩
        have hsorted := List.sorted_insertionSort
          (fun (a b : Chunk) => a.node.Start ≤ b.node.Start) w1.chunks
        exact List.pairwise_map.mpr hsorted
    · cases hrun

theorem run_numbers (svc : Service) (hsvc : ∀ b, ∃ node, svc.CreateAttachment b = .ok node)
    (fuel : Nat) (schedule : List Nat) :
    ∀ (w w1 : NWriter) (n : Nat), w.chunkCounter = n →
      (↑(w.chunks.map (fun c => c.node.Start)) + (w.workers.map Worker.number).sum :
        Multiset Int) = ↑((List.range n).map (fun (j : Nat) => (j : Int) + 1)) →
      NWriter.run svc fuel w schedule = .ok w1 →
      ∃ n1 : Nat, w1.chunkCounter = n1 ∧
        (↑(w1.chunks.map (fun c => c.node.Start)) + (w1.workers.map Worker.number).sum :
          Multiset Int) = ↑((List.range n1).map (fun (j : Nat) => (j : Int) + 1)) := by
  induction schedule with
  | nil =>
    intro w w1 n hcnt hnum hrun
    cases hrun
    exact ⟨n, hcnt, hnum⟩
  | cons i rest ih =>
    intro w w1 n hcnt hnum hrun
    simp only [NWriter.run] at hrun
    rcases hs : NWriter.step svc fuel w i with f | w2
    · simp only [hs] at hrun
      cases hrun
    · simp only [hs] at hrun
      obtain ⟨n2, h1, h2⟩ := step_numbers svc hsvc fuel w w2 i n hcnt hnum hs
      exact ih w2 w1 n2 h1 h2 hrun

/-- On a service that accepts every upload, a session of the parallel writer
that returns has handed to `onChunk` chunks whose sequence numbers, in the order
of the calls, are 1, 2, 3 and so on. -/
theorem nsession_numbers (svc : Service)
    (hsvc : ∀ b, ∃ node, svc.CreateAttachment b = .ok node) (fuel C K : Nat)
    (writes : List (List Byte)) (schedule : List Nat) (nw : NWriter) (e : Option Error)
    (hrun : NWriter.session svc fuel C K writes schedule = .ok (nw, e)) :
    nw.delivered.map (fun c => c.node.Start) =
      (List.range nw.delivered.length).map (fun (j : Nat) => (j : Int) + 1) := by
  obtain ⟨_, hsorted⟩ := nsession_nodes svc fuel C K writes schedule nw e hrun
  have hw0 := foldl_Write writes (NewNWriter C K) rfl rfl
  obtain ⟨w1, hr, _, hrun⟩ := session_returned svc fuel C K writes schedule nw e hrun
  · obtain ⟨_, h2, h3⟩ := run_nodes svc fuel schedule _ w1
      (by rw [hw0]; intro c hc; cases hc) (by rw [hw0]; rfl) (by rw [hw0]; rfl) hr
    obtain ⟨n, _, hnum⟩ := run_numbers svc hsvc fuel schedule _ w1 0
      (by rw [hw0]; rfl)
      (by
        rw [hw0]
        simp only [NewNWriter, List.map_nil, List.range_zero, List.map_replicate, Worker.number,
          List.sum_replicate, smul_zero, add_zero])
      hr
    unfold NWriter.Close at hrun
    rw [h3] at hrun
    simp only [Bool.false_eq_true, if_false] at hrun
    split at hrun
    · rename_i hall
      have hdone : ∀ wk ∈ w1.workers, wk = .done := by
        intro wk hwk
        have := List.all_eq_true.mp hall wk hwk
        simpa using this
      rw [number_sum_done _ hdone, add_zero] at hnum
      have hperm0 : (w1.chunks.map (fun c => c.node.Start)).Perm
          ((List.range n).map (fun (j : Nat) => (j : Int) + 1)) := Multiset.coe_eq_coe.mp hnum
      cases hrun
      simp only [h2, List.nil_append] at hsorted ⊢
      have hperm : ((w1.chunks.insertionSort
          (fun a b => a.node.Start ≤ b.node.Start)).map (fun c => c.node.Start)).Perm
          ((List.range n).map (fun (j : Nat) => (j : Int) + 1)) :=
        ((List.perm_insertionSort _ _).map _).trans hperm0
      have hrange : ((List.range n).map (fun (j : Nat) => (j : Int) + 1)).Sorted (· ≤ ·) := by
        apply List.pairwise_map.mpr
        exact (List.pairwise_lt_range n).imp (fun h => by omega)
      have heq := List.eq_of_perm_of_sorted hperm hsorted hrange
      have hlen : (w1.chunks.insertionSort (fun a b => a.node.Start ≤ b.node.Start)).length = n := by
        have := congrArg List.length heq
        simpa using this
      rw [hlen]
      exact heq
    · cases hrun

/-- C3 (amended): for every non-empty input byte stream, every chunk size C > 0,
every number K ≥ 1 of workers and every service that accepts the uploads, the
sequential Writer fed the stream returns, there is an interleaving of the
workers on which the parallel writer fed the same stream returns, and on every
interleaving on which it returns it has recorded no error and has handed
on_chunk the same multiset of chunks as the sequential Writer: the same byte
blocks, each with the node that the service returned for it, the field Start
apart, in which the parallel writer puts the sequence number of the chunk: the
chunks reach on_chunk with the numbers 1, 2, 3, ... in this order. -/
theorem C3_parallel_same_multiset (svc : Service)
    (hsvc : ∀ b, ∃ node, svc.CreateAttachment b = .ok node)
    (C K : Nat) (hC : 0 < C) (hK : 0 < K) (writes : List (List Byte))
    (hne : writes.flatten ≠ []) (fuel : Nat)
    (hfuel : writes.flatten.length + writes.length + 1 ≤ fuel) :
    ∃ w, Writer.session svc fuel C writes = .ok (w, none) ∧
      (∀ c ∈ w.delivered, svc.CreateAttachment c.data = .ok c.node) ∧
      (∃ schedule nw, NWriter.session svc fuel C K writes schedule = .ok (nw, none)) ∧
      ∀ schedule nw e, NWriter.session svc fuel C K writes schedule = .ok (nw, e) →
        e = none ∧ (nw.delivered.map Chunk.data).Perm (w.delivered.map Chunk.data) ∧
        (nw.delivered.map (fun c => (({ c.node with Start := 0 } : Node), c.data))).Perm
          (w.delivered.map (fun c => (({ c.node with Start := 0 } : Node), c.data))) ∧
        (∀ c ∈ nw.delivered, ∃ att, svc.CreateAttachment c.data = .ok att ∧
          c.node = { att with Start := c.node.Start }) ∧
        nw.delivered.map (fun c => c.node.Start) =
          (List.range nw.delivered.length).map (fun (j : Nat) => (j : Int) + 1) := by
  have hfuel1 : ∀ p ∈ writes, p.length + 1 ≤ fuel := by
    intro p hp
    have : p.length ≤ writes.flatten.length := by
      rw [List.length_flatten]
      exact List.single_le_sum (by simp) _ (List.mem_map.mpr ⟨p, hp, rfl⟩)
    omega
  have hw0 : writes ≠ [] := by
    intro h; rw [h] at hne; simp at hne
  obtain ⟨w, hw, hblocks⟩ := session_blocks svc hsvc C hC fuel writes hne hfuel1
  obtain ⟨w', _, _, hw', _, _, _, _, _, _, hnodes'⟩ :=
    session_spec svc hsvc C hC fuel writes hw0 hfuel1
  have hww : w' = w := by
    rw [hw] at hw'
    simp only [Except.ok.injEq, Prod.mk.injEq, and_true] at hw'
    exact hw'.symm
  subst hww
  obtain ⟨nw0, hnw0⟩ := nsession_returns svc hsvc C hC K hK fuel writes (by omega)
  refine ⟨w', hw, hnodes', ⟨_, nw0, hnw0⟩, ?_⟩
  intro schedule nw e hrun
  obtain ⟨he, hperm⟩ := nsession_blocks svc hsvc C hC K hK fuel writes (by omega) schedule nw e hrun
  obtain ⟨hn, _⟩ := nsession_nodes svc fuel C K writes schedule nw e hrun
  have hnumbers := nsession_numbers svc hsvc fuel C K writes schedule nw e hrun
  rw [← hblocks] at hperm
  refine ⟨he, hperm, ?_, hn, hnumbers⟩
  have e1 : nw.delivered.map (fun c => (({ c.node with Start := 0 } : Node), c.data)) =
      (nw.delivered.map Chunk.data).map (fun d =>
        ((match svc.CreateAttachment d with
          | .ok att => ({ att with Start := 0 } : Node)
          | .error _ => {}), d)) := by
    rw [List.map_map]
    apply List.map_congr_left
    intro c hc
    obtain ⟨att, h1, h2⟩ := hn c hc
    simp only [Function.comp, h1]
    rw [h2]
  have e2 : w'.delivered.map (fun c => (({ c.node with Start := 0 } : Node), c.data)) =
      (w'.delivered.map Chunk.data).map (fun d =>
        ((match svc.CreateAttachment d with
          | .ok att => ({ att with Start := 0 } : Node)
          | .error _ => {}), d)) := by
    rw [List.map_map]
    apply List.map_congr_left
    intro c hc
    simp only [Function.comp, hnodes' c hc]
  rw [e1, e2]
  exact hperm.map _

theorem C3_parallel_same_multiset_witness :
    ∃ w, Writer.session storeAll 12 3 [[1, 2], [3, 4, 5, 6, 7], [8]] = .ok (w, none) ∧
      (∀ c ∈ w.delivered, storeAll.CreateAttachment c.data = .ok c.node) ∧
      (∃ schedule nw,
        NWriter.session storeAll 12 3 2 [[1, 2], [3, 4, 5, 6, 7], [8]] schedule = .ok (nw, none)) ∧
      ∀ schedule nw e,
        NWriter.session storeAll 12 3 2 [[1, 2], [3, 4, 5, 6, 7], [8]] schedule = .ok (nw, e) →
          e = none ∧ (nw.delivered.map Chunk.data).Perm (w.delivered.map Chunk.data) ∧
          (nw.delivered.map (fun c => (({ c.node with Start := 0 } : Node), c.data))).Perm
            (w.delivered.map (fun c => (({ c.node with Start := 0 } : Node), c.data))) ∧
          (∀ c ∈ nw.delivered, ∃ att, storeAll.CreateAttachment c.data = .ok att ∧
            c.node = { att with Start := c.node.Start }) ∧
          nw.delivered.map (fun c => c.node.Start) =
            (List.range nw.delivered.length).map (fun (j : Nat) => (j : Int) + 1) :=
  C3_parallel_same_multiset storeAll (fun _ => ⟨_, rfl⟩) 3 2 (by decide) (by decide)
    [[1, 2], [3, 4, 5, 6, 7], [8]] (by decide) 12 (by decide)

/-- C4 fails on the code: with chunk size 1, two workers and the stream [1, 2],
worker 0 reads the block [1], worker 1 reads the block [2], worker 1 takes
sequence number 1 and worker 0 sequence number 2; Close sorts by these numbers
and hands on_chunk the block [2] before the block [1]. -/
theorem C4_sequence_numbers_race :
    ∃ nw, NWriter.session storeAll 3 1 2 [[1, 2]] [0, 1, 1, 0, 1, 0, 0, 1] = .ok (nw, none) ∧
      nw.delivered.map (fun c => (c.node.Start, c.data)) = [(1, [2]), (2, [1])] ∧
      (nw.delivered.map Chunk.data).flatten = [2, 1] :=
  ⟨_, rfl, rfl, rfl⟩

/-- C2 fails on the code at pos = |F| for a file that is not empty: for one node
of 10 bytes and pos = 10, NewReader keeps the node in its working list; whatever
the service, the first Read then makes the request ReadAttachment(node, 10, 9),
that is the range bytes=10-9, and returns the error of that request, not EOF; a
CDN that answers 206 only to satisfiable ranges gives such an error. For an
empty file the first Read returns EOF, and below the end of the file the bytes
from pos onward are delivered. -/
theorem C2_read_at_end_of_file :
    (NewReader [{ URL := "a", Size := 10 }] 10).2 =
        .ok ⟨[{ URL := "a", Size := 10, Start := 0, End := 9 }], 0, false, none, 10⟩ ∧
    (∀ (svc : Service) (e : Error),
      svc.ReadAttachment { URL := "a", Size := 10, Start := 0, End := 9 } 10 9 = .error e →
      Reader.Read svc 8 ⟨[{ URL := "a", Size := 10, Start := 0, End := 9 }], 0, false, none, 10⟩ 4 =
        .ok (⟨[{ URL := "a", Size := 10, Start := 0, End := 9 }], 0, false, none, 10⟩, [],
          some e)) ∧
    (rangeService tenBytes).ReadAttachment { URL := "a", Size := 10, Start := 0, End := 9 } 10 9 =
        .error (.Status 206 416) ∧
    (∃ r r1, (NewReader [] 0).2 = .ok r ∧
      Reader.Read (rangeService tenBytes) 8 r 4 = .ok (r1, [], some .EOF)) ∧
    (∃ r r1, (NewReader [{ URL := "a", Size := 10 }] 7).2 = .ok r ∧
      Reader.Read (rangeService tenBytes) 8 r 4 = .ok (r1, [7, 8, 9], some .EOF)) := by
  refine ⟨rfl, ?_, rfl, ⟨_, _, rfl, rfl⟩, ⟨_, _, rfl, rfl⟩⟩
  intro svc e h
  simp [Reader.Read, Reader.next, h]

end ddrv

/-! ## The limit reader (C12, C13) -/

namespace lreader

theorem Read_zero {σ : Type} (src : breader.Source σ) (l : lreader σ) (k : Nat)
    (h : l.remain ≤ 0) : Read src l k = (l, [], some .EOF) := by
  unfold Read; rw [if_pos h]

/-- One Read of a limit reader with bytes left, over a source that yields its
content: either it ends the stream with the rest of the first `remain` bytes,
or it returns a non-empty start of them and leaves the reader with what is
left. -/
theorem Read_step {σ : Type} (src : breader.Source σ) (content : σ → List ddrv.Byte)
    (hy : Yields src content) (l : lreader σ) (k : Nat) (hk : 0 < k) (hr : 0 < l.remain) :
    (∃ l1, Read src l k = (l1, (content l.r).take l.remain.toNat, some .EOF) ∧ l1.remain = 0) ∨
    (∃ l1 b, Read src l k = (l1, b, none) ∧ b ≠ [] ∧ 0 < l1.remain ∧
      l1.remain = l.remain - b.length ∧ b ++ content l1.r = content l.r ∧
      l1.closed = l.closed) := by
  have hk1 : 0 < (if (k : Int) > l.remain then l.remain.toNat else k) := by
    split
    · omega
    · exact hk
  have hk2 : ((if (k : Int) > l.remain then l.remain.toNat else k : Nat) : Int) ≤ l.remain := by
    split
    · omega
    · omega
  unfold Read
  rw [if_neg (not_le.mpr hr)]
  generalize (if (k : Int) > l.remain then l.remain.toNat else k) = k1 at hk1 hk2
  have hb := hy.bytes l.r k1
  have hbound := hy.bound l.r k1
  have herr := hy.error l.r k1
  have heof := hy.eof l.r k1
  have hprog := hy.progress l.r k1 hk1
  rcases hsrc : src.Read l.r k1 with ⟨r1, b, err⟩
  rw [hsrc] at hb hbound herr heof hprog
  simp only at hb hbound herr heof hprog
  simp only [hsrc]
  rcases herr with herr | herr
  · subst herr
    have hne : b ≠ [] := fun h => by simpa using hprog h
    simp only [reduceCtorEq, if_false]
    by_cases hz : l.remain - (b.length : Int) = 0
    · left
      refine ⟨{ r := r1, remain := l.remain - b.length, closed := l.closed }, ?_, hz⟩
      rw [if_pos hz]
      have : l.remain.toNat = b.length := by omega
      rw [← hb, this, List.take_left]
    · right
      refine ⟨{ r := r1, remain := l.remain - b.length, closed := l.closed }, b, ?_, hne, ?_, rfl, hb, rfl⟩
      · rw [if_neg hz]
      · show 0 < l.remain - (b.length : Int)
        omega
  · subst herr
    left
    simp only [if_true]
    refine ⟨{ r := r1, remain := 0, closed := true }, ?_, rfl⟩
    have hc := heof rfl
    rw [hc, List.append_nil] at hb
    rw [← hb, List.take_of_length_le (by omega)]


/-- Reading a limit reader to exhaustion over a source that yields its content
gives the first `remain` bytes of the content and then EOF, in at most
`remain + 1` calls. -/
theorem readAll_spec {σ : Type} (src : breader.Source σ) (content : σ → List ddrv.Byte)
    (hy : Yields src content) (k : Nat) (hk : 0 < k) :
    ∀ (fuel : Nat) (l : lreader σ), 0 ≤ l.remain → l.remain.toNat < fuel →
      ∃ l1, readAll src fuel l k = .ok (l1, (content l.r).take l.remain.toNat, .EOF) ∧
        l1.remain = 0 := by
  intro fuel
  induction fuel with
  | zero => intro l _ h; omega
  | succ fuel ih =>
    intro l h0 hf
    by_cases hr : 0 < l.remain
    · rcases Read_step src content hy l k hk hr with ⟨l1, h1, h2⟩ | ⟨l1, b, h1, hne, hpos, hrem, hb, _⟩
      · exact ⟨l1, by simp only [readAll, h1], h2⟩
      · have hlen : 0 < b.length := List.length_pos.mpr hne
        obtain ⟨l2, h3, h4⟩ := ih l1 (le_of_lt hpos) (by omega)
        refine ⟨l2, ?_, h4⟩
        simp only [readAll, h1, h3]
        have : l.remain.toNat = b.length + l1.remain.toNat := by omega
        rw [← hb, this, List.take_append]
    · have hz : l.remain = 0 := by omega
      refine ⟨l, ?_, hz⟩
      simp only [readAll, Read_zero src l k (le_of_eq hz), hz]
      rfl

theorem buffer_yields : Yields buffer id := by
  constructor
  · intro s k
    simp only [buffer, id]
    split
    · split <;> simp [*]
    · simp
  · intro s k
    simp only [buffer]
    split
    · split <;> simp
    · simp
  · intro s k
    simp only [buffer]
    split
    · split <;> simp
    · simp
  · intro s k
    simp only [buffer, id]
    split
    · split <;> simp
    · simp
  · intro s k hk
    simp only [buffer]
    split
    · rw [if_neg (by omega)]; simp
    · rename_i hs
      intro h
      simp only [List.take_eq_nil_iff] at h
      rcases h with h | h
      · omega
      · exact absurd h hs

/-- C12: over every source that yields its content (K bytes in total) and for
every limit n, reading the limit reader to exhaustion with a non-empty buffer
returns, within n + 1 calls of Read, exactly the first min(K, n) bytes of the
source and then EOF, so never more than n bytes; with limit 0 the first Read
returns no byte and EOF. -/
theorem C12_limit_reader_yields_first_bytes {σ : Type} (src : breader.Source σ)
    (content : σ → List ddrv.Byte) (hy : Yields src content) (r : σ) (n k fuel : Nat)
    (hk : 0 < k) (hf : n < fuel) :
    (∃ l1, readAll src fuel (New r n) k = .ok (l1, (content r).take n, .EOF)) ∧
    ((content r).take n).length = min (content r).length n ∧
    ((content r).take n).length ≤ n ∧
    Read src (New r 0) k = (New r 0, [], some .EOF) := by
  refine ⟨?_, ?_, ?_, ?_⟩
  · obtain ⟨l1, h1, _⟩ := readAll_spec src content hy k hk fuel (New r n)
      (by simp [New]) (by simpa [New] using hf)
    exact ⟨l1, by simpa [New] using h1⟩
  · rw [List.length_take, Nat.min_comm]
  · rw [List.length_take]; exact Nat.min_le_left _ _
  · exact Read_zero src (New r 0) k (le_refl _)

theorem C12_limit_reader_yields_first_bytes_witness :
    (∃ l1, readAll buffer 6 (New [84, 104, 105, 115, 32, 105, 115, 32] 5) 3 =
      .ok (l1, [84, 104, 105, 115, 32], .EOF)) ∧
    ([84, 104, 105, 115, 32] : List ddrv.Byte).length = min 8 5 ∧
    ([84, 104, 105, 115, 32] : List ddrv.Byte).length ≤ 5 ∧
    Read buffer (New [84, 104, 105, 115, 32, 105, 115, 32] 0) 3 =
      (New [84, 104, 105, 115, 32, 105, 115, 32] 0, [], some .EOF) :=
  C12_limit_reader_yields_first_bytes buffer id buffer_yields
    [84, 104, 105, 115, 32, 105, 115, 32] 5 3 6 (by decide) (by decide)

end lreader

namespace lreader

/-- C13: the underlying ReadCloser is closed only when it reports EOF itself.
A limit reader of limit 5 over the 21 bytes of lreader_test.go delivers its 5
bytes and EOF in one Read, every further Read returns no byte and EOF, and
Close has not been called on the source; it is called when the source runs out
before the limit (limit 50). -/
theorem C13_source_left_open_at_limit :
    (Read buffer (New testInput 5) 21).2 = ([84, 104, 105, 115, 32], some .EOF) ∧
    (Read buffer (New testInput 5) 21).1.remain = 0 ∧
    (Read buffer (New testInput 5) 21).1.closed = false ∧
    (∀ k : Nat, Read buffer (Read buffer (New testInput 5) 21).1 k =
      ((Read buffer (New testInput 5) 21).1, [], some .EOF)) ∧
    (∃ l2, readAll buffer 3 (New testInput 50) 21 = .ok (l2, testInput, .EOF) ∧
      l2.closed = true) := by
  exact ⟨rfl, rfl, rfl, fun _ => rfl, ⟨_, rfl, rfl⟩⟩

end lreader

/-! ## The full-buffer reader (C14) -/

namespace breader

/-- The loop of BReader.Read over a source that hands out its content in order:
with enough steps allowed it returns; the buffer holds, after what it held, the
next bytes of the source, which is left right behind them; it is full when no
error is returned; and an error returned is the one of the last Read of the
source, made on the part of the buffer still free. -/
theorem readLoop_spec {σ : Type} (src : Source σ) (content : σ → List ddrv.Byte)
    (rank : σ → Nat) (hsrc : Serves src content rank) (k : Nat) :
    ∀ (fuel : Nat) (s : σ) (cur : List ddrv.Byte), cur.length ≤ k →
      (k - cur.length) + rank s < fuel →
      ∃ s1 b err, readLoop src fuel s k cur = .ok (s1, cur ++ b, err) ∧
        b ++ content s1 = content s ∧ (cur ++ b).length ≤ k ∧
        (err = none → (cur ++ b).length = k) ∧
        (err ≠ none → ∃ s0 done b0, b = done ++ b0 ∧ done ++ content s0 = content s ∧
          (cur ++ done).length < k ∧
          src.Read s0 (k - (cur ++ done).length) = (s1, b0, err)) := by
  intro fuel
  induction fuel with
  | zero => intro s cur _ h; omega
  | succ fuel ih =>
    intro s cur hc hf
    by_cases hlt : cur.length < k
    · have hb := hsrc.bytes s (k - cur.length)
      have hbound := hsrc.bound s (k - cur.length)
      have hrank := hsrc.rank_le s (k - cur.length)
      have hidle := hsrc.idle s (k - cur.length) (by omega)
      rcases hsrc1 : src.Read s (k - cur.length) with ⟨s1, b, _ | err⟩
      · rw [hsrc1] at hb hbound hrank hidle
        simp only at hb hbound hrank hidle
        have hmeasure : (k - (cur ++ b).length) + rank s1 < fuel := by
          rw [List.length_append]
          by_cases hbe : b = []
          · have := hidle hbe trivial
            rw [hbe]
            simp only [List.length_nil]
            omega
          · have : 0 < b.length := List.length_pos.mpr hbe
            omega
        obtain ⟨s2, b2, err, h1, h2, h3, h4, h5⟩ :=
          ih s1 (cur ++ b) (by rw [List.length_append]; omega) hmeasure
        refine ⟨s2, b ++ b2, err, ?_, ?_, ?_, ?_, ?_⟩
        · simp only [readLoop, if_pos hlt, hsrc1, h1, List.append_assoc]
        · rw [List.append_assoc, h2, hb]
        · rw [← List.append_assoc]; exact h3
        · intro he; rw [← List.append_assoc]; exact h4 he
        · intro he
          obtain ⟨s0, done, b0, e1, e2, e3, e4⟩ := h5 he
          refine ⟨s0, b ++ done, b0, ?_, ?_, ?_, ?_⟩
          · rw [e1, List.append_assoc]
          · rw [List.append_assoc, e2, hb]
          · rw [← List.append_assoc]; exact e3
          · rw [← List.append_assoc]; exact e4
      · rw [hsrc1] at hb hbound
        simp only at hb hbound
        refine ⟨s1, b, some err, ?_, hb, ?_, ?_, ?_⟩
        · simp only [readLoop, if_pos hlt, hsrc1]
        · rw [List.length_append]; omega
        · intro h; cases h
        · intro _
          exact ⟨s, [], b, rfl, rfl, by simpa using hlt, by simpa using hsrc1⟩
    · refine ⟨s, [], none, ?_, rfl, by simpa using hc, ?_, ?_⟩
      · simp only [readLoop, if_neg hlt, List.append_nil]
      · intro _; rw [List.append_nil]; omega
      · intro h; exact absurd rfl h

/-- The read end of a pipe hands out, in order, the bytes of the Write calls
still to be read; a Read that returns nothing has served a Write of no bytes. -/
theorem pipe_serves : Serves pipe List.flatten List.length := by
  constructor
  · intro s k
    cases s with
    | nil => rfl
    | cons w ws =>
      show w.take k ++ List.flatten (if w.drop k = [] then ws else w.drop k :: ws) =
        List.flatten (w :: ws)
      by_cases h : w.drop k = []
      · rw [if_pos h, List.flatten_cons]
        have := List.take_append_drop k w
        rw [h, List.append_nil] at this
        rw [this]
      · rw [if_neg h, List.flatten_cons, List.flatten_cons, ← List.append_assoc,
          List.take_append_drop]
  · intro s k
    cases s with
    | nil => exact Nat.zero_le _
    | cons w ws =>
      show (w.take k).length ≤ k
      rw [List.length_take]
      exact Nat.min_le_left _ _
  · intro s k
    cases s with
    | nil => exact le_refl _
    | cons w ws =>
      show (if w.drop k = [] then ws else w.drop k :: ws).length ≤ (w :: ws).length
      split <;> simp
  · intro s k hk hb _
    cases s with
    | nil => cases ‹(pipe.Read [] k).2.2 = none›
    | cons w ws =>
      have hb1 : w.take k = [] := hb
      have hw : w = [] := by
        rcases List.take_eq_nil_iff.mp hb1 with h | h
        · omega
        · exact h
      show (if w.drop k = [] then ws else w.drop k :: ws).length < (w :: ws).length
      rw [hw]
      simp

/-- C14: over every source that hands out its content in order (with a bound on
the Reads that return nothing without an error), BReader.Read on a buffer of k
bytes returns. The bytes it returns are the next bytes of the source, in order,
and the source is left right behind them; they are k bytes whenever no error is
returned; and fewer than k bytes come only together with an error, which is the
error that the last Read of the source returned, on the part of the buffer
still free. -/
theorem C14_breader_fills_buffer {σ : Type} (src : Source σ)
    (content : σ → List ddrv.Byte) (rank : σ → Nat) (hsrc : Serves src content rank)
    (fuel k : Nat) (s : σ) (hf : k + rank s < fuel) :
    ∃ s1 b err, Read src fuel s k = .ok (s1, b, err) ∧
      b ++ content s1 = content s ∧ b.length ≤ k ∧
      (err = none → b.length = k) ∧
      (b.length < k → err ≠ none) ∧
      (err ≠ none → ∃ s0 done b0, b = done ++ b0 ∧ done ++ content s0 = content s ∧
        done.length < k ∧ src.Read s0 (k - done.length) = (s1, b0, err)) := by
  obtain ⟨s1, b, err, h1, h2, h3, h4, h5⟩ :=
    readLoop_spec src content rank hsrc k fuel s [] (Nat.zero_le _) (by simpa using hf)
  simp only [List.nil_append] at h1 h3 h4 h5
  refine ⟨s1, b, err, h1, h2, h3, h4, ?_, h5⟩
  intro hlt he
  have := h4 he
  omega

theorem C14_breader_fills_buffer_witness :
    ∃ s1 b err, Read pipe 9 [[1, 2], [], [3, 4, 5], [6]] 4 = .ok (s1, b, err) ∧
      b ++ List.flatten s1 = List.flatten [[1, 2], [], [3, 4, 5], [6]] ∧ b.length ≤ 4 ∧
      (err = none → b.length = 4) ∧
      (b.length < 4 → err ≠ none) ∧
      (err ≠ none → ∃ s0 done b0, b = done ++ b0 ∧
        done ++ List.flatten s0 = List.flatten [[1, 2], [], [3, 4, 5], [6]] ∧
        done.length < 4 ∧ pipe.Read s0 (4 - done.length) = (s1, b0, err)) :=
  C14_breader_fills_buffer pipe List.flatten List.length pipe_serves 9 4
    [[1, 2], [], [3, 4, 5], [6]] (by decide)

end breader

/-! ## Round robin over tokens and channels (C17) -/

namespace ddrv

theorem token_spec (r : Rest) (h : r.lastTokenIdx < r.tokens.length) :
    ∃ t, r.tokens[r.lastTokenIdx]? = some t ∧
      r.token = .ok ({ r with lastTokenIdx := (r.lastTokenIdx + 1) % r.tokens.length }, t) := by
  refine ⟨r.tokens[r.lastTokenIdx], List.getElem?_eq_getElem h, ?_⟩
  unfold Rest.token
  rw [List.getElem?_eq_getElem h]
  simp only
  rw [if_neg (by omega)]

theorem channel_spec (r : Rest) (h : r.lastChIdx < r.channels.length) :
    ∃ c, r.channels[r.lastChIdx]? = some c ∧
      r.channel = .ok ({ r with lastChIdx := (r.lastChIdx + 1) % r.channels.length }, c) := by
  refine ⟨r.channels[r.lastChIdx], List.getElem?_eq_getElem h, ?_⟩
  unfold Rest.channel
  rw [List.getElem?_eq_getElem h]
  simp only
  rw [if_neg (by omega)]

theorem range_succ_map {α : Type} (f : Nat → α) (k : Nat) :
    (List.range (k + 1)).map f = f 0 :: (List.range k).map (fun j => f (j + 1)) := by
  rw [List.range_succ_eq_map, List.map_cons, List.map_map]
  rfl

theorem tokenCalls_spec : ∀ (k : Nat) (r : Rest), r.lastTokenIdx < r.tokens.length →
    ∃ r1 ts, Rest.tokenCalls k r = .ok (r1, ts) ∧
      ts.map some =
        (List.range k).map (fun j => r.tokens[(r.lastTokenIdx + j) % r.tokens.length]?) ∧
      r1.tokens = r.tokens ∧ r1.lastTokenIdx = (r.lastTokenIdx + k) % r.tokens.length := by
  intro k
  induction k with
  | zero =>
    intro r h
    exact ⟨r, [], rfl, rfl, rfl, (Nat.mod_eq_of_lt h).symm⟩
  | succ k ih =>
    intro r h
    obtain ⟨t, ht, htok⟩ := token_spec r h
    have hN : 0 < r.tokens.length := by omega
    obtain ⟨r1, ts, h1, h2, h3, h4⟩ :=
      ih { r with lastTokenIdx := (r.lastTokenIdx + 1) % r.tokens.length } (Nat.mod_lt _ hN)
    refine ⟨r1, t :: ts, ?_, ?_, h3, ?_⟩
    · simp only [Rest.tokenCalls, htok, h1]
    · rw [range_succ_map, List.map_cons, h2]
      simp only [Nat.add_zero, Nat.mod_eq_of_lt h, ht, Nat.mod_add_mod, List.cons.injEq,
        true_and]
      apply List.map_congr_left
      intro j _
      rw [show r.lastTokenIdx + 1 + j = r.lastTokenIdx + (j + 1) by omega]
    · rw [h4]
      simp only [Nat.mod_add_mod]
      rw [show r.lastTokenIdx + 1 + k = r.lastTokenIdx + (k + 1) by omega]

theorem channelCalls_spec : ∀ (k : Nat) (r : Rest), r.lastChIdx < r.channels.length →
    ∃ r1 cs, Rest.channelCalls k r = .ok (r1, cs) ∧
      cs.map some =
        (List.range k).map (fun j => r.channels[(r.lastChIdx + j) % r.channels.length]?) ∧
      r1.channels = r.channels ∧ r1.lastChIdx = (r.lastChIdx + k) % r.channels.length := by
  intro k
  induction k with
  | zero =>
    intro r h
    exact ⟨r, [], rfl, rfl, rfl, (Nat.mod_eq_of_lt h).symm⟩
  | succ k ih =>
    intro r h
    obtain ⟨c, hc, hch⟩ := channel_spec r h
    have hN : 0 < r.channels.length := by omega
    obtain ⟨r1, cs, h1, h2, h3, h4⟩ :=
      ih { r with lastChIdx := (r.lastChIdx + 1) % r.channels.length } (Nat.mod_lt _ hN)
    refine ⟨r1, c :: cs, ?_, ?_, h3, ?_⟩
    · simp only [Rest.channelCalls, hch, h1]
    · rw [range_succ_map, List.map_cons, h2]
      simp only [Nat.add_zero, Nat.mod_eq_of_lt h, hc, Nat.mod_add_mod, List.cons.injEq,
        true_and]
      apply List.map_congr_left
      intro j _
      rw [show r.lastChIdx + 1 + j = r.lastChIdx + (j + 1) by omega]
    · rw [h4]
      simp only [Nat.mod_add_mod]
      rw [show r.lastChIdx + 1 + k = r.lastChIdx + (k + 1) by omega]

/-- One turn more than the list is long: the list, then its first element. -/
theorem round_trip {α : Type} (l : List α) (h : l ≠ []) :
    (List.range (l.length + 1)).map (fun j => l[j % l.length]?) =
      (l ++ l.take 1).map some := by
  have hN : 0 < l.length := List.length_pos.mpr h
  apply List.ext_getElem?
  intro i
  by_cases hi : i < l.length + 1
  · rw [List.getElem?_map, List.getElem?_map, List.getElem?_range hi]
    simp only [Option.map_some']
    by_cases hi2 : i < l.length
    · rw [Nat.mod_eq_of_lt hi2, List.getElem?_append_left hi2]
      rw [List.getElem?_eq_getElem hi2]; rfl
    · have : i = l.length := by omega
      subst this
      rw [Nat.mod_self, List.getElem?_append_right (le_refl _), Nat.sub_self]
      cases l with
      | nil => exact absurd rfl h
      | cons a l => simp
  · rw [List.getElem?_eq_none (by simp; omega), List.getElem?_eq_none]
    simp only [List.length_map, List.length_append, List.length_take]
    omega

end ddrv

namespace ddrv

/-- C17: for every non-empty list l of N tokens, k successive calls of
Rest.token on a new client return l[0 mod N], l[1 mod N], ..., l[(k-1) mod N]
and leave the cursor at k mod N, inside [0, N); N + 1 calls return the whole
list and then its first token again. Rest.channel does the same over a
non-empty list of channels. -/
theorem C17_round_robin (l other : List String) (chunkSize : Int) (nitro : Bool) (k : Nat)
    (hl : l ≠ []) :
    (∃ r1 ts, Rest.tokenCalls k (NewRest l other chunkSize nitro) = .ok (r1, ts) ∧
      ts.map some = (List.range k).map (fun j => l[j % l.length]?) ∧
      r1.lastTokenIdx = k % l.length ∧ r1.lastTokenIdx < l.length) ∧
    (∃ r1, Rest.tokenCalls (l.length + 1) (NewRest l other chunkSize nitro) =
      .ok (r1, l ++ l.take 1)) ∧
    (∃ r1 cs, Rest.channelCalls k (NewRest other l chunkSize nitro) = .ok (r1, cs) ∧
      cs.map some = (List.range k).map (fun j => l[j % l.length]?) ∧
      r1.lastChIdx = k % l.length ∧ r1.lastChIdx < l.length) ∧
    (∃ r1, Rest.channelCalls (l.length + 1) (NewRest other l chunkSize nitro) =
      .ok (r1, l ++ l.take 1)) := by
  have hN : 0 < l.length := List.length_pos.mpr hl
  have inj : Function.Injective (List.map (some : String → Option String)) :=
    List.map_injective_iff.mpr (Option.some_injective _)
  refine ⟨?_, ?_, ?_, ?_⟩
  · obtain ⟨r1, ts, h1, h2, _, h4⟩ := tokenCalls_spec k (NewRest l other chunkSize nitro) hN
    simp only [NewRest, Nat.zero_add] at h2 h4
    exact ⟨r1, ts, h1, h2, h4, by rw [h4]; exact Nat.mod_lt _ hN⟩
  · obtain ⟨r1, ts, h1, h2, _, _⟩ :=
      tokenCalls_spec (l.length + 1) (NewRest l other chunkSize nitro) hN
    simp only [NewRest, Nat.zero_add] at h2
    rw [round_trip l hl] at h2
    exact ⟨r1, by rw [h1, inj h2]⟩
  · obtain ⟨r1, cs, h1, h2, _, h4⟩ := channelCalls_spec k (NewRest other l chunkSize nitro) hN
    simp only [NewRest, Nat.zero_add] at h2 h4
    exact ⟨r1, cs, h1, h2, h4, by rw [h4]; exact Nat.mod_lt _ hN⟩
  · obtain ⟨r1, cs, h1, h2, _, _⟩ :=
      channelCalls_spec (l.length + 1) (NewRest other l chunkSize nitro) hN
    simp only [NewRest, Nat.zero_add] at h2
    rw [round_trip l hl] at h2
    exact ⟨r1, by rw [h1, inj h2]⟩

theorem C17_round_robin_witness :
    (∃ r1 ts, Rest.tokenCalls 4 (NewRest ["t0", "t1", "t2"] ["c0"] 1024 false) = .ok (r1, ts) ∧
      ts.map some = (List.range 4).map (fun j => ["t0", "t1", "t2"][j % 3]?) ∧
      r1.lastTokenIdx = 4 % 3 ∧ r1.lastTokenIdx < 3) ∧
    (∃ r1, Rest.tokenCalls 4 (NewRest ["t0", "t1", "t2"] ["c0"] 1024 false) =
      .ok (r1, ["t0", "t1", "t2", "t0"])) ∧
    (∃ r1 cs, Rest.channelCalls 4 (NewRest ["c0"] ["t0", "t1", "t2"] 1024 false) = .ok (r1, cs) ∧
      cs.map some = (List.range 4).map (fun j => ["t0", "t1", "t2"][j % 3]?) ∧
      r1.lastChIdx = 4 % 3 ∧ r1.lastChIdx < 3) ∧
    (∃ r1, Rest.channelCalls 4 (NewRest ["c0"] ["t0", "t1", "t2"] 1024 false) =
      .ok (r1, ["t0", "t1", "t2", "t0"])) :=
  C17_round_robin ["t0", "t1", "t2"] ["c0"] 1024 false 4 (by decide)

end ddrv

/-! ## The locker (C18, C19) -/

namespace locker

theorem Acquire_spec (l : Locker) (id : String) (hw : l.Idle) :
    ∃ l1, l.Acquire id = .ok l1 ∧ l1.Idle ∧
      ∀ j, l1.count j = l.count j + if j = id then 1 else 0 := by
  have hlock : ((l.mutexes id).getD {}).locked = false := by
    cases h : l.mutexes id with
    | none => rfl
    | some ref => exact (hw id ref h).1
  have hcount : 0 ≤ ((l.mutexes id).getD {}).count := by
    cases h : l.mutexes id with
    | none => exact le_refl _
    | some ref => exact le_of_lt (hw id ref h).2
  refine ⟨_, by simp only [Locker.Acquire, hlock]; rfl, ?_, ?_⟩
  · intro j ref hj
    simp only [Locker.store] at hj
    by_cases hji : j = id
    · rw [if_pos hji] at hj
      cases hj
      exact ⟨rfl, by show 0 < _ + 1; omega⟩
    · rw [if_neg hji] at hj
      exact hw j ref hj
  · intro j
    by_cases hji : j = id
    · subst hji
      simp only [Locker.count, Locker.store, if_true]
      cases h : l.mutexes j with
      | none => rfl
      | some ref =>
        have := (hw j ref h).2
        simp only [Option.getD_some]
        omega
    · simp only [Locker.count, Locker.store, if_neg hji, Nat.add_zero]

theorem Release_spec (l : Locker) (id : String) (hw : l.Idle) :
    ∃ l1, l.Release id = .ok l1 ∧ l1.Idle ∧
      ∀ j, l1.count j = l.count j - if j = id then 1 else 0 := by
  cases h : l.mutexes id with
  | none =>
    refine ⟨l, by simp only [Locker.Release, h], hw, ?_⟩
    intro j
    by_cases hji : j = id
    · subst hji
      simp only [Locker.count, h, if_true]
    · simp only [if_neg hji, Nat.sub_zero]
  | some ref =>
    obtain ⟨hl, hc⟩ := hw id ref h
    by_cases h1 : ref.count - 1 = 0
    · refine ⟨l.store id none, ?_, ?_, ?_⟩
      · simp only [Locker.Release, h, hl, hc, h1]
        rfl
      · intro j r hj
        simp only [Locker.store] at hj
        by_cases hji : j = id
        · rw [if_pos hji] at hj; cases hj
        · rw [if_neg hji] at hj; exact hw j r hj
      · intro j
        by_cases hji : j = id
        · subst hji
          simp only [Locker.count, Locker.store, if_true, h]
          omega
        · simp only [Locker.count, Locker.store, if_neg hji, Nat.sub_zero]
    · refine ⟨l.store id (some { locked := false, count := ref.count - 1 }), ?_, ?_, ?_⟩
      · simp only [Locker.Release, h, hl, hc, h1]
        rfl
      · intro j r hj
        simp only [Locker.store] at hj
        by_cases hji : j = id
        · rw [if_pos hji] at hj
          cases hj
          exact ⟨rfl, by show 0 < ref.count - 1; omega⟩
        · rw [if_neg hji] at hj; exact hw j r hj
      · intro j
        by_cases hji : j = id
        · subst hji
          simp only [Locker.count, Locker.store, if_true, h]
          omega
        · simp only [Locker.count, Locker.store, if_neg hji, Nat.sub_zero]

end locker

namespace locker

theorem New_idle : New.Idle := by
  intro id ref h
  cases h

/-- Calls made one after the other on an idle Locker all return. -/
theorem run_idle : ∀ (cs : List Call) (l : Locker), l.Idle →
    ∃ l1, l.run cs = .ok l1 ∧ l1.Idle := by
  intro cs
  induction cs with
  | nil => intro l hw; exact ⟨l, rfl, hw⟩
  | cons c cs ih =>
    intro l hw
    cases c with
    | Acquire j =>
      obtain ⟨l1, h1, hw1, _⟩ := Acquire_spec l j hw
      obtain ⟨l2, h2, hw2⟩ := ih l1 hw1
      exact ⟨l2, by simp only [Locker.run, Locker.call, h1, h2], hw2⟩
    | Release j =>
      obtain ⟨l1, h1, hw1, _⟩ := Release_spec l j hw
      obtain ⟨l2, h2, hw2⟩ := ih l1 hw1
      exact ⟨l2, by simp only [Locker.run, Locker.call, h1, h2], hw2⟩

/-- C19: Acquire does not keep the mutex of the id: it locks it, adds one to
the count and unlocks it before returning. After any sequence of calls made one
after the other, an Acquire(id) returns at once whether or not earlier
Acquire(id) calls have been released; two Acquire("a") calls on a new Locker
both return with no Release in between, leaving the mutex free and the count
at 2. -/
theorem C19_second_acquire_completes :
    (∃ l, New.run [.Acquire "a", .Acquire "a"] = .ok l ∧
      l.mutexes "a" = some { locked := false, count := 2 }) ∧
    (∀ (cs : List Call) (id : String), ∃ l, New.run (cs ++ [.Acquire id]) = .ok l) := by
  refine ⟨⟨_, rfl, rfl⟩, ?_⟩
  intro cs id
  obtain ⟨l, h, _⟩ := run_idle (cs ++ [.Acquire id]) New New_idle
  exact ⟨l, h⟩

end locker

/-! ## The rate limiter (C15, C16) -/

namespace ddrv

theorem getBucket_some (l : Limiter) (path : String) (store : Bool) (b : bucket)
    (hb : l.buckets path = some b) : l.getBucket path store = (l, some b) := by
  simp only [Limiter.getBucket, hb]

theorem store_same (l : Limiter) (path : String) (b : bucket) :
    (l.store path b).buckets path = some b := by
  simp only [Limiter.store, if_true]

theorem store_other (l : Limiter) (path q : String) (b : bucket) (h : q ≠ path) :
    (l.store path b).buckets q = l.buckets q := by
  simp only [Limiter.store, if_neg h]

/-- Acquire on a bucket that is in the map with its mutex free. -/
theorem Acquire_free (l : Limiter) (path : String) (now : Int) (b : bucket)
    (hb : l.buckets path = some b) (hl : b.locked = false) :
    ∃ l2, l.Acquire path now = .ok (l2,
      (if l.global > now then [int64 (Sub l.global now + ExtraDelay)] else []) ++
      (if b.remaining = 0 ∧ b.reset > now then [int64 (Sub b.reset now + ExtraDelay)]
        else [])) := by
  unfold Limiter.Acquire
  rw [getBucket_some l path true b hb]
  simp only [hl, Bool.false_eq_true, if_false]
  by_cases h1 : b.remaining = 0 ∧ b.reset > now
  · rw [if_pos h1, if_pos h1]
    exact ⟨_, rfl⟩
  · rw [if_neg h1, if_neg h1, List.append_nil]
    exact ⟨_, rfl⟩

/-- Acquire on a key with no bucket in the map: the new bucket has one request
left. -/
theorem Acquire_absent (l : Limiter) (path : String) (now : Int)
    (hb : l.buckets path = none) :
    ∃ l2, l.Acquire path now = .ok (l2,
      if l.global > now then [int64 (Sub l.global now + ExtraDelay)] else []) := by
  unfold Limiter.Acquire
  simp only [Limiter.getBucket, hb, if_true]
  exact ⟨_, rfl⟩


theorem Sub_of_small (t u : Int) (h1 : - 2 ^ 63 ≤ t - u) (h2 : t - u < 2 ^ 63) :
    Sub t u = t - u := by
  unfold Sub
  omega

/-- C15: a bucket whose mutex is held is released with headers that carry
X-RateLimit-Remaining: 0 and an X-RateLimit-Reset read as the instant r, one
second (give or take a millisecond) after the time now, and no Retry-After.
Release returns, and the next Acquire on the same bucket at the time now
returns after a last sleep of r - now + 500 ms, which is at least 1000 ms. -/
theorem C15_sleep_until_bucket_reset (parseReset : List Char → Option Int) (l : Limiter)
    (path : String) (b : bucket) (headers : Header) (now released r : Int)
    (hb : l.buckets path = some b) (hl : b.locked = true)
    (hrem : headers.Remaining = "0".toList) (hretry : headers.RetryAfter = [])
    (hreset : headers.Reset ≠ []) (hp : parseReset headers.Reset = some r)
    (hr1 : now + Second - Millisecond ≤ r) (hr2 : r ≤ now + Second + Millisecond) :
    ∃ l1 l2 slept, Limiter.Release parseReset l path (some headers) released = .ok l1 ∧
      l1.Acquire path now = .ok (l2, slept) ∧
      slept.getLast? = some (r - now + 2 * ExtraDelay) ∧
      1000 * Millisecond ≤ r - now + 2 * ExtraDelay := by
  have hrel : Limiter.Release parseReset l path (some headers) released =
      .ok (l.store path { locked := false, reset := r + ExtraDelay, remaining := 0 }) := by
    unfold Limiter.Release
    rw [getBucket_some l path false b hb]
    simp only [hretry, hrem, hp, hreset, ne_eq, not_true_eq_false, if_false, not_false_eq_true,
      if_true, Limiter.unlock, hl]
    rfl
  obtain ⟨l2, hacq⟩ := Acquire_free
    (l.store path { locked := false, reset := r + ExtraDelay, remaining := 0 }) path now
    { locked := false, reset := r + ExtraDelay, remaining := 0 } (store_same _ _ _) rfl
  have hc : (0 : Nat) = 0 ∧ r + ExtraDelay > now := by
    refine ⟨rfl, ?_⟩
    simp only [Second, Millisecond, ExtraDelay] at *
    omega
  have hd : int64 (Sub (r + ExtraDelay) now + ExtraDelay) = r - now + 2 * ExtraDelay := by
    simp only [Second, Millisecond, ExtraDelay] at *
    rw [Sub_of_small _ _ (by omega) (by omega), int64_of_small _ (by omega) (by omega)]
    omega
  refine ⟨_, l2, _, hrel, hacq, ?_, ?_⟩
  · simp only [hc, and_self, if_true, hd, List.getLast?_append, List.getLast?_singleton]
    rfl
  · simp only [Second, Millisecond, ExtraDelay] at *
    omega

theorem C15_sleep_until_bucket_reset_witness :
    ∃ l1 l2 slept,
      Limiter.Release (fun _ => some 1700000001000000000)
        (NewLimiter.store "k" { locked := true, remaining := 0 }) "k"
        (some { Remaining := "0".toList, Reset := "1700000001.000".toList })
        1700000000100000000 = .ok l1 ∧
      l1.Acquire "k" 1700000000000000000 = .ok (l2, slept) ∧
      slept.getLast? = some (1700000001000000000 - 1700000000000000000 + 2 * ExtraDelay) ∧
      1000 * Millisecond ≤ 1700000001000000000 - 1700000000000000000 + 2 * ExtraDelay :=
  C15_sleep_until_bucket_reset (fun _ => some 1700000001000000000)
    (NewLimiter.store "k" { locked := true, remaining := 0 }) "k"
    { locked := true, remaining := 0 }
    { Remaining := "0".toList, Reset := "1700000001.000".toList }
    1700000000000000000 1700000000100000000 1700000001000000000
    rfl rfl rfl rfl (by decide) rfl (by decide) (by decide)

end ddrv

namespace ddrv

/-- Release with Retry-After: 2 and a non-empty X-RateLimit-Global on a bucket
whose mutex is held: the global pause ends two seconds after `now`, the mutex of
the bucket is free and its reset time is the one it had. -/
theorem Release_global (parseReset : List Char → Option Int) (l : Limiter) (path : String)
    (b : bucket) (headers : Header) (now : Int)
    (hb : l.buckets path = some b) (hl : b.locked = true)
    (hretry : headers.RetryAfter = "2".toList) (hglobal : headers.Global ≠ []) :
    ∃ u, Limiter.Release parseReset l path (some headers) now =
      .ok (Limiter.store { l with global := now + 2 * Second } path
        { locked := false, reset := b.reset, remaining := u }) := by
  have hparse : strconv.ParseInt "2".toList 10 64 = .ok 2 := rfl
  have hat : now + int64 (2 * Second) = now + 2 * Second := by
    rw [int64_of_small _ (by simp only [Second, Millisecond]; omega)
      (by simp only [Second, Millisecond]; omega)]
  have h2 : ("2".toList = ([] : List Char)) = False := eq_false (by decide)
  unfold Limiter.Release
  rw [getBucket_some l path false b hb]
  simp only [hretry, hparse, hglobal, hat, h2, ne_eq, not_false_eq_true, if_true,
    Limiter.unlock, hl]
  by_cases hr : headers.Remaining = []
  · simp only [hr, not_true_eq_false, if_false]
    exact ⟨_, rfl⟩
  · simp only [hr, not_false_eq_true, if_true]
    cases strconv.ParseUint headers.Remaining 10 64 with
    | error e => exact ⟨_, rfl⟩
    | ok u => exact ⟨_, rfl⟩

/-- C16: a bucket whose mutex is held is released at the time now with headers
that carry Retry-After: 2 and a non-empty X-RateLimit-Global. Release returns,
with the global pause set to now + 2 s and the reset time of the bucket left as
it was; the next Acquire at the time now, on the same key or on any other key
whose mutex is free, returns after a first sleep of 2250 ms, which is at least
2000 ms. -/
theorem C16_global_pause (parseReset : List Char → Option Int) (l : Limiter)
    (path q : String) (b : bucket) (headers : Header) (now : Int)
    (hb : l.buckets path = some b) (hl : b.locked = true)
    (hretry : headers.RetryAfter = "2".toList) (hglobal : headers.Global ≠ [])
    (hq : q ≠ path → ∀ bq, l.buckets q = some bq → bq.locked = false) :
    ∃ l1 b1 l2 slept, Limiter.Release parseReset l path (some headers) now = .ok l1 ∧
      l1.global = now + 2 * Second ∧
      l1.buckets path = some b1 ∧ b1.reset = b.reset ∧
      l1.Acquire q now = .ok (l2, slept) ∧
      slept.head? = some (2 * Second + ExtraDelay) ∧
      2000 * Millisecond ≤ 2 * Second + ExtraDelay := by
  obtain ⟨u, hrel⟩ := Release_global parseReset l path b headers now hb hl hretry hglobal
  have hg : now + 2 * Second > now := by simp only [Second, Millisecond]; omega
  have hd : int64 (Sub (now + 2 * Second) now + ExtraDelay) = 2 * Second + ExtraDelay := by
    simp only [Second, Millisecond, ExtraDelay]
    rw [Sub_of_small _ _ (by omega) (by omega), int64_of_small _ (by omega) (by omega)]
    omega
  have hfin : 2000 * Millisecond ≤ 2 * Second + ExtraDelay := by decide
  have key : ∀ l1 : Limiter, l1.global = now + 2 * Second →
      (∀ bq, l1.buckets q = some bq → bq.locked = false) →
      ∃ l2 slept, l1.Acquire q now = .ok (l2, slept) ∧
        slept.head? = some (2 * Second + ExtraDelay) := by
    intro l1 h1 h2
    cases hbq : l1.buckets q with
    | none =>
      obtain ⟨l2, h⟩ := Acquire_absent l1 q now hbq
      refine ⟨l2, _, h, ?_⟩
      rw [h1, if_pos hg, hd]
      rfl
    | some bq =>
      obtain ⟨l2, h⟩ := Acquire_free l1 q now bq hbq (h2 bq hbq)
      refine ⟨l2, _, h, ?_⟩
      rw [h1, if_pos hg, hd]
      rfl
  obtain ⟨l2, slept, h3, h4⟩ := key (Limiter.store { l with global := now + 2 * Second } path
      { locked := false, reset := b.reset, remaining := u }) rfl (by
    intro bq hbq
    by_cases hqp : q = path
    · subst hqp
      rw [store_same] at hbq
      cases hbq
      rfl
    · rw [store_other _ _ _ _ hqp] at hbq
      exact hq hqp bq hbq)
  exact ⟨_, _, l2, slept, hrel, rfl, store_same _ _ _, rfl, h3, h4, hfin⟩

theorem C16_global_pause_witness :
    ∃ l1 b1 l2 slept,
      Limiter.Release (fun _ => none)
        (NewLimiter.store "k" { locked := true, reset := 5, remaining := 0 }) "k"
        (some { Global := "true".toList, RetryAfter := "2".toList }) 1700000000000000000 =
          .ok l1 ∧
      l1.global = 1700000000000000000 + 2 * Second ∧
      l1.buckets "k" = some b1 ∧
      b1.reset = ({ locked := true, reset := 5, remaining := 0 } : bucket).reset ∧
      l1.Acquire "other" 1700000000000000000 = .ok (l2, slept) ∧
      slept.head? = some (2 * Second + ExtraDelay) ∧
      2000 * Millisecond ≤ 2 * Second + ExtraDelay :=
  C16_global_pause (fun _ => none)
    (NewLimiter.store "k" { locked := true, reset := 5, remaining := 0 }) "k" "other"
    { locked := true, reset := 5, remaining := 0 }
    { Global := "true".toList, RetryAfter := "2".toList } 1700000000000000000
    rfl rfl rfl (by decide) (fun _ bq h => nomatch h)

end ddrv

/-! ## Malformed range headers (C11) -/

namespace httprange

/-- C11: the "n-m" branch of Parse returns the error of Sscanf as it is, while
the "-n" and "n-" branches and the check of the unit return ErrInvalid. With
non-numeric bounds ("bytes=abc") Parse fails with the "expected integer" error
of Sscanf, and with a missing bound ("bytes=5", "bytes=") with another error of
Sscanf, none of which is ErrInvalid; "bytes=-abc", "bytes=abc-" and "invalid"
fail with ErrInvalid. -/
theorem C11_scan_error_instead_of_ErrInvalid :
    Parse "bytes=abc".toList 4707476 = .error (.Scan .ExpectedInteger) ∧
    (∃ e, Parse "bytes=5".toList 4707476 = .error (.Scan e)) ∧
    (∃ e, Parse "bytes=".toList 4707476 = .error (.Scan e)) ∧
    Parse "bytes=-abc".toList 4707476 = .error .ErrInvalid ∧
    Parse "bytes=abc-".toList 4707476 = .error .ErrInvalid ∧
    Parse "invalid".toList 4707476 = .error .ErrInvalid ∧
    Error.Scan .ExpectedInteger ≠ Error.ErrInvalid :=
  ⟨rfl, ⟨_, rfl⟩, ⟨_, rfl⟩, rfl, rfl, rfl, by decide⟩

end httprange

/-! ## The nodes that GetNodes returns (C20) -/

namespace postgres

/-- C20: GetNodes returns the copies of the nodes that it made before the
refresh, and UpdateNodes refreshes the variables that `expired` points to, not
these copies. For a file with one stored node that expired at the time 100 and
a remote that refreshes it at the time 200, UpdateNodes gives the node its new
signature and the provider writes it to the database, but the node returned by
GetNodes, in postgres and in boltdb, has the old `ex`, `is` and `hm` and is
still expired; whatever the remote and the stored nodes, the nodes returned are
the stored ones. -/
theorem C20_returned_nodes_are_stale :
    ddrv.UpdateNodes ddrv.answering 200 [ddrv.storedNode] =
      .ok [{ ddrv.storedNode with Ex := 1700000000, Is := 1699913728, Hm := "new" }] ∧
    GetNodes ddrv.answering 200 200 [ddrv.storedNode] =
      .ok ([scan ddrv.storedNode],
        [{ ddrv.storedNode with Ex := 1700000000, Is := 1699913728, Hm := "new" }]) ∧
    boltdb.GetNodes ddrv.answering 200 200 [ddrv.storedNode] =
      .ok ([ddrv.storedNode],
        [{ ddrv.storedNode with Ex := 1700000000, Is := 1699913728, Hm := "new" }]) ∧
    (scan ddrv.storedNode).Ex = 100 ∧ (scan ddrv.storedNode).Hm = "old" ∧
    (200 : Int) > (scan ddrv.storedNode).Ex ∧
    (∀ (env : ddrv.Remote) (t1 t2 : Int) (db : List ddrv.Node),
      match GetNodes env t1 t2 db with
      | .ok (nodes, _) => nodes = db.map scan
      | .error _ => True) ∧
    (∀ (env : ddrv.Remote) (t1 t2 : Int) (db : List ddrv.Node),
      match boltdb.GetNodes env t1 t2 db with
      | .ok (nodes, _) => nodes = db
      | .error _ => True) := by
  refine ⟨rfl, rfl, rfl, rfl, rfl, by decide, ?_, ?_⟩
  · intro env t1 t2 db
    rcases h : ddrv.UpdateNodes env t2
      (List.filter (fun node => decide (t1 > node.Ex)) (db.map scan)) with e | expired
    · simp only [GetNodes, h]
    · simp only [GetNodes, h]
  · intro env t1 t2 db
    rcases h : ddrv.UpdateNodes env t2
      (List.filter (fun node => decide (t1 > node.Ex)) db) with e | expired
    · simp only [boltdb.GetNodes, h]
    · simp only [boltdb.GetNodes, h]

end postgres

/-! ## Closed writers and readers (C21), Close without Write (C28) -/

namespace ddrv

/-- Close of the sequential Writer, when it returns, leaves the Writer closed. -/
theorem Writer_Close_closed (svc : Service) (w w1 : Writer) (err : Option Error)
    (h : Writer.Close svc w = .ok (w1, err)) : w1.closed = true := by
  unfold Writer.Close at h
  by_cases hc : w.closed = true
  · rw [if_pos hc] at h
    cases h
    exact hc
  · rw [if_neg hc] at h
    unfold Writer.flush at h
    cases hp : w.pwriter with
    | none => simp only [hp] at h; cases h
    | some pw =>
      simp only [hp] at h
      by_cases hpc : pw.closed = true
      · rw [if_pos hpc] at h; cases h
      · rw [if_neg hpc] at h
        cases hs : svc.CreateAttachment pw.data with
        | error e =>
          simp only [hs] at h
          cases h
          rfl
        | ok chunk =>
          simp only [hs, Bool.false_eq_true, if_false] at h
          cases h
          rfl

/-- Close of the parallel writer, when it returns, leaves the writer closed. -/
theorem NWriter_Close_closed (w w1 : NWriter) (err : Option Error)
    (h : NWriter.Close w = .ok (w1, err)) : w1.closed = true := by
  unfold NWriter.Close at h
  by_cases hc : w.closed = true
  · rw [if_pos hc] at h
    cases h
    exact hc
  · rw [if_neg hc] at h
    split at h
    · cases h
      rfl
    · cases h

/-- C21: a sequential Writer, a parallel NWriter or a Reader that is closed
answers every Write (or Read) with 0 bytes and ErrClosed and every Close with
ErrAlreadyClosed, whatever the remote service is and without a change of its
state (no chunk is uploaded or handed on, no attachment is read); and a Close
that returns on any of the three leaves it closed. -/
theorem C21_closed_stays_closed (svc : Service) (fuel k : Nat) (p : List Byte)
    (w : Writer) (nw : NWriter) (r : Reader) :
    Writer.Write svc fuel { w with closed := true } p =
      .ok ({ w with closed := true }, 0, some .ErrClosed) ∧
    Writer.Close svc { w with closed := true } =
      .ok ({ w with closed := true }, some .ErrAlreadyClosed) ∧
    NWriter.Write { nw with closed := true } p =
      ({ nw with closed := true }, 0, some .ErrClosed) ∧
    NWriter.Close { nw with closed := true } =
      .ok ({ nw with closed := true }, some .ErrAlreadyClosed) ∧
    Reader.Read svc fuel { r with closed := true } k =
      .ok ({ r with closed := true }, [], some .ErrClosed) ∧
    Reader.Close { r with closed := true } =
      ({ r with closed := true }, some .ErrAlreadyClosed) ∧
    (∀ w1 err, Writer.Close svc w = .ok (w1, err) → w1.closed = true) ∧
    (∀ nw1 err, NWriter.Close nw = .ok (nw1, err) → nw1.closed = true) ∧
    (Reader.Close r).1.closed = true := by
  refine ⟨rfl, rfl, rfl, rfl, rfl, rfl, ?_, ?_, ?_⟩
  · intro w1 err h
    exact Writer_Close_closed svc w w1 err h
  · intro nw1 err h
    exact NWriter_Close_closed nw nw1 err h
  · unfold Reader.Close
    by_cases hc : r.closed = true
    · rw [if_pos hc]; exact hc
    · rw [if_neg hc]

/-- C28: Close on a sequential Writer that never received a Write call sets
`closed` and calls flush, which calls `Close` on the nil `pwriter`: a nil
pointer dereference, whatever the chunk size and the service. One Write call,
even of no bytes, creates the pipe, and Close then returns nil. -/
theorem C28_close_without_write_panics :
    (∀ (svc : Service) (chunkSize : Nat),
      Writer.Close svc (NewWriter chunkSize) = .error .panic) ∧
    (∃ w, Writer.session storeAll 1 25 [] = .error .panic ∧
      Writer.session storeAll 1 25 [[]] = .ok (w, none)) :=
  ⟨fun _ _ => rfl, ⟨_, rfl, rfl⟩⟩

end ddrv

/-! ## Ranges that end after the file (C29) -/

namespace httprange

/-- C29: the check of Parse lets `end == size` (and `start == size`) through:
it rejects `end > size`, not `end >= size`. For a file of 4707476 bytes, the
size of httprange_test.go, the header "bytes=100-4707476" is accepted with
length 4707377, so that start + length is size + 1; for an empty file
"bytes=0-0" is accepted with length 1. The forms "n-" and "-n" set
`end = size - 1` and stay inside the file. -/
theorem C29_range_ends_after_the_file :
    Parse "bytes=100-4707476".toList 4707476 =
      .ok { Start := 100, Length := 4707377, Header := "bytes 100-4707476/4707476".toList } ∧
    ¬ ((100 : Int) + 4707377 ≤ 4707476) ∧
    Parse "bytes=0-0".toList 0 = .ok { Start := 0, Length := 1, Header := "bytes 0-0/0".toList } ∧
    Parse "bytes=100-".toList 4707476 =
      .ok { Start := 100, Length := 4707376, Header := "bytes 100-4707475/4707476".toList } ∧
    Parse "bytes=-500".toList 4707476 =
      .ok { Start := 4706976, Length := 500, Header := "bytes 4706976-4707475/4707476".toList } :=
  ⟨rfl, by decide, rfl, rfl, rfl⟩

end httprange

/-! ## The offsets and the working list of NewReader (C22, C23) -/

namespace ddrv

theorem assignOffsets_erase (cs : List Node) (offset : Int) :
    (assignOffsets offset cs).1.map (fun c => { c with Start := 0, End := 0 }) =
      cs.map (fun c => { c with Start := 0, End := 0 }) := by
  induction cs generalizing offset with
  | nil => rfl
  | cons c cs ih =>
    simp only [assignOffsets, List.map_cons, ih]

theorem assignOffsets_head (cs : List Node) (offset : Int) :
    (assignOffsets offset cs).1.head?.map Node.Start = cs.head?.map (fun _ => offset) := by
  cases cs with
  | nil => rfl
  | cons c cs => rfl

/-- One turn of the first loop of NewReader when the sum does not wrap. -/
theorem assignOffsets_cons (c : Node) (cs : List Node) (offset : Int) (h0 : 0 ≤ offset)
    (hc : 0 ≤ c.Size) (hlt : offset + c.Size < 2 ^ 63) :
    assignOffsets offset (c :: cs) =
      ({ c with Start := offset, End := offset + c.Size - 1 } ::
          (assignOffsets (offset + c.Size) cs).1,
        (assignOffsets (offset + c.Size) cs).2) := by
  have e1 : int64 (offset + c.Size - 1) = offset + c.Size - 1 :=
    int64_of_small _ (by omega) (by omega)
  have e2 : int64 (offset + c.Size - 1 + 1) = offset + c.Size :=
    (int64_of_small _ (by omega) (by omega)).trans (by omega)
  simp only [assignOffsets, e1, e2]

theorem assignOffsets_ends (cs : List Node) (offset : Int) (h0 : 0 ≤ offset)
    (hs : ∀ c ∈ cs, 0 ≤ c.Size) (hsum : offset + (cs.map Node.Size).sum < 2 ^ 63) :
    ∀ c ∈ (assignOffsets offset cs).1, c.End = c.Start + c.Size - 1 := by
  induction cs generalizing offset with
  | nil => intro c hc; cases hc
  | cons c cs ih =>
    have hc := hs c (List.mem_cons_self _ _)
    have hrest := sizes_sum_nonneg cs (fun d hd => hs d (List.mem_cons_of_mem _ hd))
    simp only [List.map_cons, List.sum_cons] at hsum
    rw [assignOffsets_cons c cs offset h0 hc (by omega)]
    intro d hd
    simp only [List.mem_cons] at hd
    rcases hd with hd | hd
    · subst hd; rfl
    · exact ih _ (by omega) (fun d hd => hs d (List.mem_cons_of_mem _ hd)) (by omega) d hd

theorem assignOffsets_chain (cs : List Node) (offset : Int) (h0 : 0 ≤ offset)
    (hs : ∀ c ∈ cs, 0 ≤ c.Size) (hsum : offset + (cs.map Node.Size).sum < 2 ^ 63) :
    List.Chain' (fun a b => b.Start = a.End + 1) (assignOffsets offset cs).1 := by
  induction cs generalizing offset with
  | nil => exact List.chain'_nil
  | cons c cs ih =>
    have hc := hs c (List.mem_cons_self _ _)
    have hrest := sizes_sum_nonneg cs (fun d hd => hs d (List.mem_cons_of_mem _ hd))
    simp only [List.map_cons, List.sum_cons] at hsum
    rw [assignOffsets_cons c cs offset h0 hc (by omega)]
    rw [List.chain'_cons']
    refine ⟨?_, ih _ (by omega) (fun d hd => hs d (List.mem_cons_of_mem _ hd)) (by omega)⟩
    intro b hb
    have := assignOffsets_head cs (offset + c.Size)
    rw [hb] at this
    cases cs with
    | nil => cases this
    | cons d ds =>
      simp only [List.head?_cons, Option.map_some', Option.some.injEq] at this
      rw [this]
      show offset + c.Size = offset + c.Size - 1 + 1
      omega

/-- The second loop of NewReader, on the list the first loop has made: it drops
the nodes that end before pos, and ends without `break` when every node does. -/
theorem findStart_dropWhile (pos : Int) (cs : List Node) (offset : Int) (h0 : 0 ≤ offset)
    (hs : ∀ c ∈ cs, 0 ≤ c.Size) (hsum : offset + (cs.map Node.Size).sum < 2 ^ 63) :
    findStart pos offset (assignOffsets offset cs).1 =
      if (assignOffsets offset cs).1.dropWhile (fun c => decide (c.End < pos)) = [] then none
      else some ((assignOffsets offset cs).1.dropWhile (fun c => decide (c.End < pos))) := by
  induction cs generalizing offset with
  | nil => rfl
  | cons c cs ih =>
    have hc := hs c (List.mem_cons_self _ _)
    have hrest := sizes_sum_nonneg cs (fun d hd => hs d (List.mem_cons_of_mem _ hd))
    simp only [List.map_cons, List.sum_cons] at hsum
    rw [assignOffsets_cons c cs offset h0 hc (by omega)]
    have e : int64 (offset + c.Size) = offset + c.Size :=
      int64_of_small _ (by omega) (by omega)
    simp only [findStart, e, List.dropWhile_cons]
    by_cases h : offset + c.Size > pos
    · have h1 : ¬ (offset + c.Size - 1 < pos) := by omega
      simp only [if_pos h, h1, decide_False, Bool.false_eq_true, if_false, reduceCtorEq]
    · have h1 : offset + c.Size - 1 < pos := by omega
      simp only [if_neg h, h1, decide_True, if_true]
      exact ih _ (by omega) (fun d hd => hs d (List.mem_cons_of_mem _ hd)) (by omega)

theorem NewReader_fst (chunks : List Node) (pos : Int) :
    (NewReader chunks pos).1 = (assignOffsets 0 chunks).1 := by
  unfold NewReader
  simp only
  split <;> rfl

/-- C22: for every node list whose sizes are not negative and sum to less than
2^63, and every pos, the call NewReader(nodes, pos) leaves the list, whether it
returns a reader or fails with EOF and whatever Start and End the nodes carried,
with nodes[0].Start = 0, nodes[i].Start = nodes[i-1].End + 1 and nodes[i].End =
nodes[i].Start + nodes[i].Size - 1 for every i, and with every other field as
it was. The reader it returns starts at pos with no attachment open, and its
working list is that list without the leading nodes that end before pos (the
whole list when every node ends before pos). -/
theorem C22_new_reader_offsets (chunks : List Node) (pos : Int)
    (hsize : ∀ c ∈ chunks, 0 ≤ c.Size) (hsum : (chunks.map Node.Size).sum < 2 ^ 63) :
    (NewReader chunks pos).1.map (fun c => { c with Start := 0, End := 0 }) =
      chunks.map (fun c => { c with Start := 0, End := 0 }) ∧
    (NewReader chunks pos).1.head?.map Node.Start = chunks.head?.map (fun _ => 0) ∧
    List.Chain' (fun a b => b.Start = a.End + 1) (NewReader chunks pos).1 ∧
    (∀ c ∈ (NewReader chunks pos).1, c.End = c.Start + c.Size - 1) ∧
    (∀ r, (NewReader chunks pos).2 = .ok r →
      r = { chunks :=
              if (NewReader chunks pos).1.dropWhile (fun c => decide (c.End < pos)) = [] then
                (NewReader chunks pos).1
              else (NewReader chunks pos).1.dropWhile (fun c => decide (c.End < pos)),
            curIdx := 0, closed := false, reader := none, pos := pos }) := by
  have hsum0 : 0 + (chunks.map Node.Size).sum < 2 ^ 63 := by simpa using hsum
  rw [NewReader_fst]
  refine ⟨assignOffsets_erase chunks 0, assignOffsets_head chunks 0,
    assignOffsets_chain chunks 0 (le_refl _) hsize hsum0,
    assignOffsets_ends chunks 0 (le_refl _) hsize hsum0, ?_⟩
  intro r h
  have hf := findStart_dropWhile pos chunks 0 (le_refl _) hsize hsum0
  unfold NewReader at h
  simp only at h
  split at h
  · cases h
  · simp only [hf] at h
    by_cases hd :
        (assignOffsets 0 chunks).1.dropWhile (fun c => decide (c.End < pos)) = []
    · simp only [hd, if_true] at h ⊢
      cases h
      rfl
    · simp only [if_neg hd] at h ⊢
      cases h
      rfl

theorem C22_new_reader_offsets_witness :
    (NewReader [{ Size := 2, Start := 2, End := 7 }, { Size := 3, Start := 1 },
        { Size := 4, Start := 3 }] 3).1.map (fun c => { c with Start := 0, End := 0 }) =
      [({ Size := 2, Start := 2, End := 7 } : Node), { Size := 3, Start := 1 },
        { Size := 4, Start := 3 }].map (fun c => { c with Start := 0, End := 0 }) ∧
    (NewReader [{ Size := 2, Start := 2, End := 7 }, { Size := 3, Start := 1 },
        { Size := 4, Start := 3 }] 3).1.head?.map Node.Start =
      [({ Size := 2, Start := 2, End := 7 } : Node), { Size := 3, Start := 1 },
        { Size := 4, Start := 3 }].head?.map (fun _ => 0) ∧
    List.Chain' (fun a b => b.Start = a.End + 1)
      (NewReader [{ Size := 2, Start := 2, End := 7 }, { Size := 3, Start := 1 },
        { Size := 4, Start := 3 }] 3).1 ∧
    (∀ c ∈ (NewReader [{ Size := 2, Start := 2, End := 7 }, { Size := 3, Start := 1 },
        { Size := 4, Start := 3 }] 3).1, c.End = c.Start + c.Size - 1) ∧
    (∀ r, (NewReader [{ Size := 2, Start := 2, End := 7 }, { Size := 3, Start := 1 },
        { Size := 4, Start := 3 }] 3).2 = .ok r →
      r = { chunks :=
              if (NewReader [{ Size := 2, Start := 2, End := 7 }, { Size := 3, Start := 1 },
                  { Size := 4, Start := 3 }] 3).1.dropWhile
                    (fun c => decide (c.End < 3)) = [] then
                (NewReader [{ Size := 2, Start := 2, End := 7 }, { Size := 3, Start := 1 },
                  { Size := 4, Start := 3 }] 3).1
              else (NewReader [{ Size := 2, Start := 2, End := 7 }, { Size := 3, Start := 1 },
                  { Size := 4, Start := 3 }] 3).1.dropWhile (fun c => decide (c.End < 3)),
            curIdx := 0, closed := false, reader := none, pos := 3 }) :=
  C22_new_reader_offsets [{ Size := 2, Start := 2, End := 7 }, { Size := 3, Start := 1 },
    { Size := 4, Start := 3 }] 3 (by decide) (by decide)

/-- C23: at pos equal to the size of a file that is not empty the second loop
of NewReader ends without its `break`, and the working list is left whole: for
one node of 10 bytes and pos = 10 it holds that node, whose End is 9, and for
nodes of 2, 3 and 4 bytes and pos = 9 all three, the first node not being the
one that contains pos. Below the end of the file (pos = 3, pos = 5) the nodes
that end before pos are dropped. -/
theorem C23_nothing_dropped_at_end_of_file :
    (NewReader [{ URL := "a", Size := 10 }] 10).2.toOption.map Reader.chunks =
      some [{ URL := "a", Size := 10, Start := 0, End := 9 }] ∧
    (NewReader [{ Size := 2 }, { Size := 3 }, { Size := 4 }] 9).2.toOption.map Reader.chunks =
      some [{ Size := 2, Start := 0, End := 1 }, { Size := 3, Start := 2, End := 4 },
        { Size := 4, Start := 5, End := 8 }] ∧
    (NewReader [{ Size := 2 }, { Size := 3 }, { Size := 4 }] 3).2.toOption.map Reader.chunks =
      some [{ Size := 3, Start := 2, End := 4 }, { Size := 4, Start := 5, End := 8 }] ∧
    (NewReader [{ Size := 2 }, { Size := 3 }, { Size := 4 }] 5).2.toOption.map Reader.chunks =
      some [{ Size := 4, Start := 5, End := 8 }] :=
  ⟨rfl, rfl, rfl, rfl⟩

end ddrv

/-! ## The channel id of an attachment URL (C27) -/

namespace ddrv

/-- C27, as stated, fails: the pattern of extractChannelId has no anchor, and a
URL in which it occurs only after the first character is matched, with the
digits of that occurrence. -/
theorem C27_counterexample_match_inside_url :
    extractChannelId "xhttps://cdn.discordapp.com/attachments/123/456/f.bin" = .ok "123" ∧
    extractChannelId "https://example.com/?u=https://cdn.discordapp.com/attachments/7/8/f" =
      .ok "7" :=
  ⟨rfl, rfl⟩

theorem matchHere_at_pattern (ds rest : List Char) (hne : ds ≠ [])
    (hd : ∀ c ∈ ds, '0' ≤ c ∧ c ≤ '9') :
    discordCDNRe.matchHere
      ("https://cdn.discordapp.com/attachments/".toList ++ (ds ++ '/' :: rest)) = some ds := by
  have htw : (ds ++ '/' :: rest).takeWhile (fun c => decide ('0' ≤ c ∧ c ≤ '9')) = ds := by
    induction ds with
    | nil => exact absurd rfl hne
    | cons d ds ih =>
      have hdd := hd d (List.mem_cons_self _ _)
      simp only [List.cons_append, List.takeWhile_cons, hdd, and_self, decide_True, if_true,
        List.cons.injEq, true_and]
      cases ds with
      | nil => simp only [List.nil_append, List.takeWhile_cons]; rfl
      | cons e es =>
        exact ih (by simp) (fun c hc => hd c (List.mem_cons_of_mem _ hc))
  unfold discordCDNRe.matchHere
  simp only
  rw [if_pos (List.isPrefixOf_iff_prefix.mpr (List.prefix_append _ _)), List.drop_left, htw,
    List.drop_left]
  simp [hne]


theorem drop_takeWhile_length {α : Type} (p : α → Bool) (l : List α) :
    l.drop (l.takeWhile p).length = l.dropWhile p := by
  induction l with
  | nil => rfl
  | cons a l ih =>
    by_cases h : p a = true
    · simp [List.takeWhile, List.dropWhile, h, ih]
    · simp [List.takeWhile, List.dropWhile, h]

/-- Where the pattern stands, matchHere finds its digits. -/
theorem matchHere_of_pattern (s ds : List Char) (h : PatternAt s ds) :
    discordCDNRe.matchHere s = some ds := by
  obtain ⟨hne, hd, rest, rfl⟩ := h
  exact matchHere_at_pattern ds rest hne hd

/-- What matchHere finds is the digit string of the pattern standing there. -/
theorem pattern_of_matchHere (s ds : List Char) (h : discordCDNRe.matchHere s = some ds) :
    PatternAt s ds := by
  unfold discordCDNRe.matchHere at h
  simp only at h
  split at h
  · rename_i hp
    obtain ⟨t, rfl⟩ := List.isPrefixOf_iff_prefix.mp hp
    rw [List.drop_left] at h
    split at h
    · rename_i hc
      obtain ⟨hne, hhead⟩ := hc
      simp only [Option.some.injEq] at h
      have hsplit := List.takeWhile_append_dropWhile (fun c => decide ('0' ≤ c ∧ c ≤ '9')) t
      have hdrop := drop_takeWhile_length (fun c => decide ('0' ≤ c ∧ c ≤ '9')) t
      rw [hdrop] at hhead
      rw [h] at hne hsplit
      refine ⟨hne, ?_, ?_⟩
      · intro c hc
        rw [← h] at hc
        have := List.mem_takeWhile_imp hc
        simpa using this
      · cases hdw : t.dropWhile (fun c => decide ('0' ≤ c ∧ c ≤ '9')) with
        | nil => rw [hdw] at hhead; cases hhead
        | cons x xs =>
          rw [hdw] at hhead hsplit
          simp only [List.head?_cons, Option.some.injEq] at hhead
          subst hhead
          exact ⟨xs, by rw [hsplit]⟩
    · cases h
  · cases h

theorem matchHere_none_of_no_pattern (s : List Char) (h : ∀ ds, ¬ PatternAt s ds) :
    discordCDNRe.matchHere s = none := by
  cases hm : discordCDNRe.matchHere s with
  | none => rfl
  | some ds => exact absurd (pattern_of_matchHere s ds hm) (h ds)

theorem no_pattern_of_matchHere_none (s : List Char) (h : discordCDNRe.matchHere s = none) :
    ∀ ds, ¬ PatternAt s ds := by
  intro ds hp
  rw [matchHere_of_pattern s ds hp] at h
  cases h

/-- FindStringSubmatch gives the digits of the first place at which the pattern
stands. -/
theorem FindStringSubmatch_first (after ds : List Char) (hp : PatternAt after ds) :
    ∀ before : List Char,
      (∀ i, i < before.length → ∀ ds1, ¬ PatternAt ((before ++ after).drop i) ds1) →
      discordCDNRe.FindStringSubmatch (before ++ after) = some ds := by
  intro before
  induction before with
  | nil =>
    intro _
    have hm := matchHere_of_pattern after ds hp
    obtain ⟨_, _, rest, rfl⟩ := hp
    have hlit : "https://cdn.discordapp.com/attachments/".toList =
        'h' :: "ttps://cdn.discordapp.com/attachments/".toList := rfl
    rw [hlit] at hm ⊢
    simp only [List.nil_append, List.cons_append] at hm ⊢
    simp only [discordCDNRe.FindStringSubmatch, hm]
  | cons p before ih =>
    intro h
    have h0 := matchHere_none_of_no_pattern (p :: (before ++ after))
      (fun ds1 => by simpa using h 0 (by simp) ds1)
    simp only [List.cons_append, discordCDNRe.FindStringSubmatch, List.append_eq, h0]
    apply ih
    intro i hi ds1
    have := h (i + 1) (by simp; omega) ds1
    simpa using this

/-- Where the pattern stands nowhere, FindStringSubmatch finds nothing. -/
theorem FindStringSubmatch_none : ∀ s : List Char,
    (∀ i ds, ¬ PatternAt (s.drop i) ds) → discordCDNRe.FindStringSubmatch s = none := by
  intro s
  induction s with
  | nil => intro _; rfl
  | cons c cs ih =>
    intro h
    have h0 := matchHere_none_of_no_pattern (c :: cs) (fun ds => by simpa using h 0 ds)
    simp only [discordCDNRe.FindStringSubmatch, h0]
    apply ih
    intro i ds
    have := h (i + 1) ds
    simpa using this

theorem extractChannelId_mk (l ds : List Char)
    (h : discordCDNRe.FindStringSubmatch l = some ds) :
    extractChannelId (String.mk l) = .ok (String.mk ds) := by
  unfold extractChannelId
  rw [show (String.mk l).toList = l from rfl, h]

/-- C27 (amended): extractChannelId takes the first place of the URL at which
the pattern https://cdn.discordapp.com/attachments/<digits>/ stands, wherever
that is. For every URL made of a part `before`, an occurrence of the pattern
with the digit string ds, and anything after it, such that the pattern stands at
no earlier place of the URL, the result is ds: so it is for a URL that begins
with the pattern (`before` empty), and a URL in which the pattern occurs only
after the first character is matched as well. A URL in which the pattern stands
nowhere ends in log.Fatalf. -/
theorem C27_leftmost_match_anywhere (before after ds : List Char) (hp : PatternAt after ds)
    (hfirst : ∀ i, i < before.length → ∀ ds1, ¬ PatternAt ((before ++ after).drop i) ds1) :
    extractChannelId (String.mk after) = .ok (String.mk ds) ∧
    extractChannelId (String.mk (before ++ after)) = .ok (String.mk ds) ∧
    (∀ url : List Char, (∀ i ds1, ¬ PatternAt (url.drop i) ds1) →
      extractChannelId (String.mk url) = .error .Fatal) := by
  have h0 := FindStringSubmatch_first after ds hp [] (fun i hi => absurd hi (by simp))
  have h1 := FindStringSubmatch_first after ds hp before hfirst
  rw [List.nil_append] at h0
  refine ⟨extractChannelId_mk _ _ h0, extractChannelId_mk _ _ h1, ?_⟩
  intro url hno
  unfold extractChannelId
  rw [show (String.mk url).toList = url from rfl, FindStringSubmatch_none url hno]

set_option maxRecDepth 4000 in
theorem C27_leftmost_match_anywhere_witness :
    extractChannelId (String.mk "https://cdn.discordapp.com/attachments/7/8/f".toList) =
      .ok (String.mk "7".toList) ∧
    extractChannelId (String.mk ("https://example.com/?u=".toList ++
        "https://cdn.discordapp.com/attachments/7/8/f".toList)) = .ok (String.mk "7".toList) ∧
    (∀ url : List Char, (∀ i ds1, ¬ PatternAt (url.drop i) ds1) →
      extractChannelId (String.mk url) = .error .Fatal) :=
  C27_leftmost_match_anywhere "https://example.com/?u=".toList
    "https://cdn.discordapp.com/attachments/7/8/f".toList "7".toList
    ⟨by decide, by decide, "8/f".toList, rfl⟩
    (fun i hi => by
      have hi23 : i < 23 := hi
      interval_cases i <;> exact no_pattern_of_matchHere_none _ rfl)

end ddrv

/-! ## Retries of doReq (C24, C25) -/

namespace ddrv

/-- C24: a retry of doReq runs the whole body again with the key it has
already put a token in front of. With tokens t0, t1 and a first answer 429, the
second pass takes the next token t1 (the cursor moves on), adds it as a second
value of the Authorization header, and gives Acquire and Release the key
"t1t0/c/messages" where the first pass gave them "t0/c/messages"; with one
token t0 the retry still uses the new key "t0t0/c/messages". -/
theorem C24_retry_takes_new_token_and_key :
    (Rest.doReq (NewRest ["t0", "t1"] ["c"] 10 false) "/c/messages" [] true
        [.resp 429 true, .resp 200 true]).toOption.map (fun x => x.2.1) =
      some [{ token := "t0", Authorization := ["t0"], Acquire := "t0/c/messages",
              Release := "t0/c/messages" },
            { token := "t1", Authorization := ["t0", "t1"], Acquire := "t1t0/c/messages",
              Release := "t1t0/c/messages" }] ∧
    (Rest.doReq (NewRest ["t0", "t1", "t2"] ["c"] 10 false) "/c/messages" [] true
        [.resp 429 true, .resp 200 true]).toOption.map (fun x => x.1.lastTokenIdx) = some 2 ∧
    (Rest.doReq (NewRest ["t0"] ["c"] 10 false) "/c/messages" [] true
        [.resp 503 true, .resp 200 true]).toOption.map (fun x => x.2.1) =
      some [{ token := "t0", Authorization := ["t0"], Acquire := "t0/c/messages",
              Release := "t0/c/messages" },
            { token := "t0", Authorization := ["t0", "t0"], Acquire := "t0t0/c/messages",
              Release := "t0t0/c/messages" }] :=
  ⟨rfl, rfl, rfl⟩

/-- C25: doReq compares the status with `> 500`, so a response of status 500 is
returned without a retry even when the retry flag is set, while 429, 501 and
503 are retried; with the flag unset no status is retried. -/
theorem C25_status_500_not_retried :
    (Rest.doReq (NewRest ["t0"] ["c"] 10 false) "/c/messages" [] true
        [.resp 500 true, .resp 200 true]).toOption.map (fun x => (x.2.1.length, x.2.2)) =
      some (1, .resp 500 true) ∧
    (Rest.doReq (NewRest ["t0"] ["c"] 10 false) "/c/messages" [] true
        [.resp 501 true, .resp 200 true]).toOption.map (fun x => (x.2.1.length, x.2.2)) =
      some (2, .resp 200 true) ∧
    (Rest.doReq (NewRest ["t0"] ["c"] 10 false) "/c/messages" [] true
        [.resp 503 true, .resp 200 true]).toOption.map (fun x => (x.2.1.length, x.2.2)) =
      some (2, .resp 200 true) ∧
    (Rest.doReq (NewRest ["t0"] ["c"] 10 false) "/c/messages" [] true
        [.resp 429 true, .resp 200 true]).toOption.map (fun x => (x.2.1.length, x.2.2)) =
      some (2, .resp 200 true) ∧
    (∀ (r : Rest) (bucketId : String) (auth : List String) (code : Int) (header : Bool)
        (script : List Answer),
      (Rest.doReq r bucketId auth false (.resp code header :: script)).toOption.map
        (fun x => (x.2.1.length, x.2.2)) =
      r.token.toOption.map (fun _ => (1, .resp code header))) := by
  refine ⟨rfl, rfl, rfl, rfl, ?_⟩
  intro r bucketId auth code header script
  unfold Rest.doReq
  rcases ht : r.token with f | ⟨r1, token⟩
  · rfl
  · cases header <;> simp [Except.toOption]

end ddrv

/-! ## Retries of ReadAttachment (C26) -/

namespace ddrv

/-- C26, as stated, fails: after two answers of status 503 ReadAttachment makes
a third request, and returns the body of the answer 206 to it. -/
theorem C26_counterexample_third_request :
    (Rest.ReadAttachment { URL := "a", Size := 10 } 0 9
        [.resp 503 [], .resp 503 [], .resp 206 [1, 2]]).toOption.map
      (fun x => (x.1.length, x.2.toOption)) = some (3, some [1, 2]) :=
  rfl

/-- The request that ReadAttachment makes, each time it makes one. -/
theorem ReadAttachment_retries (att : Node) (start end_ : Int) (code : Int) (body : List Byte)
    (script : List CDNAnswer) (hcode : code < 500) :
    ∀ above : List (Int × List Byte), (∀ a ∈ above, a.1 > 500) →
      Rest.ReadAttachment att start end_
          (above.map (fun a => CDNAnswer.resp a.1 a.2) ++ .resp code body :: script) =
        .ok (List.replicate (above.length + 1)
              { att := att,
                Range := "bytes=".toList ++ fmt.fmtInteger start ++ '-' :: fmt.fmtInteger end_ },
            if code = 206 then .ok body else .error (.Status 206 code.toNat)) ∧
      Rest.ReadAttachment att start end_ (above.map (fun a => CDNAnswer.resp a.1 a.2)) =
        .error .fuel := by
  intro above
  induction above with
  | nil =>
    intro _
    refine ⟨?_, rfl⟩
    have h1 : ¬ code > StatusInternalServerError := by
      simp only [StatusInternalServerError]; omega
    simp only [List.map_nil, List.nil_append, Rest.ReadAttachment, if_neg h1,
      StatusPartialContent, List.length_nil, Nat.zero_add, List.replicate_one]
    by_cases h2 : code = 206
    · simp [h2]
    · simp [h2]
  | cons a above ih =>
    intro h
    have ha : a.1 > StatusInternalServerError := h a (List.mem_cons_self _ _)
    obtain ⟨ih1, ih2⟩ := ih (fun b hb => h b (List.mem_cons_of_mem _ hb))
    constructor
    · simp only [List.map_cons, List.cons_append, Rest.ReadAttachment, if_pos ha,
        List.append_eq, ih1, List.length_cons, List.replicate_succ]
    · simp only [List.map_cons, Rest.ReadAttachment, if_pos ha, ih2]

/-- C26 (amended): ReadAttachment repeats its GET request for as long as the
response status is above 500, without a bound. For every sequence of CDN
answers that starts with k answers of a status above 500 followed by an answer
of a status below 500, it makes exactly k + 1 requests, all the same, and
returns the body when that answer is 206 and an error otherwise; while the
answers stay above 500 the call does not return. -/
theorem C26_retries_while_above_500 (att : Node) (start end_ : Int)
    (above : List (Int × List Byte)) (code : Int) (body : List Byte) (script : List CDNAnswer)
    (habove : ∀ a ∈ above, a.1 > 500) (hcode : code < 500) :
    Rest.ReadAttachment att start end_
        (above.map (fun a => CDNAnswer.resp a.1 a.2) ++ .resp code body :: script) =
      .ok (List.replicate (above.length + 1)
            { att := att,
              Range := "bytes=".toList ++ fmt.fmtInteger start ++ '-' :: fmt.fmtInteger end_ },
          if code = 206 then .ok body else .error (.Status 206 code.toNat)) ∧
    Rest.ReadAttachment att start end_ (above.map (fun a => CDNAnswer.resp a.1 a.2)) =
      .error .fuel :=
  ReadAttachment_retries att start end_ code body script hcode above habove

theorem C26_retries_while_above_500_witness :
    Rest.ReadAttachment { URL := "a", Size := 10 } 0 9
        ([((503 : Int), ([] : List Byte)), (502, []), (504, [])].map
            (fun a => CDNAnswer.resp a.1 a.2) ++ .resp 206 [1, 2] :: []) =
      .ok (List.replicate ([((503 : Int), ([] : List Byte)), (502, []), (504, [])].length + 1)
            { att := { URL := "a", Size := 10 },
              Range := "bytes=".toList ++ fmt.fmtInteger 0 ++ '-' :: fmt.fmtInteger 9 },
          if (206 : Int) = 206 then .ok [1, 2] else .error (.Status 206 (206 : Int).toNat)) ∧
    Rest.ReadAttachment { URL := "a", Size := 10 } 0 9
        ([((503 : Int), ([] : List Byte)), (502, []), (504, [])].map
          (fun a => CDNAnswer.resp a.1 a.2)) = .error .fuel :=
  C26_retries_while_above_500 { URL := "a", Size := 10 } 0 9 [(503, []), (502, []), (504, [])]
    206 [1, 2] [] (by decide) (by decide)

end ddrv

/-! ## Seek, Read and ReadAt of a file (C30) -/

namespace filesystem

/-- C30: on the file of ten bytes, opened for reading. Seek with SeekEnd
subtracts the offset from the size: Seek(-3, SeekEnd) asks for position 13 and
returns the EOF error of NewReader where io.Seeker gives 7, and Seek(3,
SeekEnd) returns 7. Seek leaves `off` as it was: after Seek(5, SeekStart) has
returned 5, Seek(0, SeekCurrent) returns 0. ReadAt seeks with SeekCurrent:
after a Read of four bytes, ReadAt on two bytes at offset 2 returns the bytes
6 and 7, not the bytes 2 and 3. SeekStart and SeekCurrent return the positions
of io.Seeker, and a negative position gives ErrInvalidSeek. -/
theorem C30_seek_end_and_position :
    (tenByteFile.Seek (-3) SeekEnd).2 = (0, some (.driver .EOF)) ∧
    (tenByteFile.Seek 3 SeekEnd).2 = (7, none) ∧
    (tenByteFile.Seek 5 SeekStart).2 = (5, none) ∧
    (tenByteFile.Seek 5 SeekStart).1.off = 0 ∧
    ((tenByteFile.Seek 5 SeekStart).1.Seek 0 SeekCurrent).2 = (0, none) ∧
    (∃ f1 f2, File.Read (ddrv.rangeService ddrv.tenBytes) 8 tenByteFile 4 =
        .ok (f1, [0, 1, 2, 3], none) ∧ f1.off = 4 ∧
      File.ReadAt (ddrv.rangeService ddrv.tenBytes) 8 f1 2 2 = .ok (f2, [6, 7], none)) ∧
    (tenByteFile.Seek (-1) SeekStart).2 = (0, some .ErrInvalidSeek) ∧
    ({ tenByteFile with off := 4 }.Seek 3 SeekCurrent).2 = (7, none) :=
  ⟨rfl, rfl, rfl, rfl, rfl, ⟨_, _, rfl, rfl, rfl⟩, rfl, rfl⟩

end filesystem
